import Mathlib

/-!
# Verification of the xPlist binary/XML property-list codec

This file is a shallow embedding, in Lean 4, of the parts of the
`@remotex-labs/xplist` TypeScript library that the specification's claims
are about, together with theorems settling those claims.

Embedding conventions:

* Node `Buffer`s become `List Nat` of byte values; `Buffer.subarray`
  clamps, which `List.drop`/`List.take` model exactly.
* JavaScript `number`s that hold integers, and `bigint`s, become `Int`;
  JavaScript strings become their list of UTF-16 code units (`List Nat`).
* IEEE-754 doubles are modelled as exact rationals.  The 8-byte payload
  written by `writeDoubleBE` is modelled as an 8-cell field whose first
  two cells carry the exact rational (zig-zag numerator, denominator);
  its length matches the wire layout, so every offset computation is
  faithful, while floating-point bit patterns stay outside the model.
* Thrown JavaScript errors become `Except JsErr`; the error carries the
  JavaScript `name` property of the thrown error object plus its message.
* JavaScript object identity (`Map` keys for containers, `Date`s and
  `Buffer`s) is modelled by an `id : Nat` field on the corresponding
  value constructors; primitive values are compared by value, exactly
  like the SameValueZero semantics of a JavaScript `Map`.
-/

set_option autoImplicit false

namespace XPlist

/-- A JavaScript error, by its `name` property and message, as produced by
the `PlistError` hierarchy (`BinaryParsingError`, `XMLParsingError`), by
plain `Error`/`RangeError`/`TypeError`, or — model artifacts — by running
out of fuel on recursion the source leaves unbounded, or by reaching a
JavaScript corner (e.g. `undefined` propagation) outside the model. -/
inductive JsErr where
  | binaryParsing (msg : String)
  | xmlParsing (msg : String)
  | rangeError (msg : String)
  | typeError (msg : String)
  | jsError (msg : String)
  | outOfFuel
  | modelGap (what : String)
  deriving Repr, DecidableEq

/-- The JavaScript `name` property of the modelled error. -/
def JsErr.name : JsErr → String
  | .binaryParsing _ => "BinaryParsingError"
  | .xmlParsing _ => "XMLParsingError"
  | .rangeError _ => "RangeError"
  | .typeError _ => "TypeError"
  | .jsError _ => "Error"
  | .outOfFuel => "ModelOutOfFuel"
  | .modelGap _ => "ModelGap"

/-- Result type for the embedded fallible JavaScript functions. -/
abbrev JsRes (α : Type) : Type := Except JsErr α

/-! ## Big-endian byte helpers

`Buffer.writeUInt8/16BE/32BE/BigInt64BE/BigUInt64BE` and the matching
reads are big-endian.  `beBytes w n` are the `w` big-endian bytes of `n`
(low byte last), `beVal` the value of a big-endian byte list. -/

/-- Big-endian bytes of `n`, `w` bytes wide (the value written by the
`Buffer` big-endian writers for an in-range value). -/
def beBytes : ℕ → ℕ → List ℕ
  | 0, _ => []
  | w + 1, n => beBytes w (n / 256) ++ [n % 256]

/-- Value of a big-endian byte list (what the `Buffer` big-endian readers
compute). -/
def beVal (bs : List ℕ) : ℕ := bs.foldl (fun a b => a * 256 + b) 0

theorem beBytes_length (w n : ℕ) : (beBytes w n).length = w := by
  induction w generalizing n with
  | zero => rfl
  | succ w ih => simp [beBytes, ih]

theorem beVal_append_singleton (bs : List ℕ) (b : ℕ) :
    beVal (bs ++ [b]) = beVal bs * 256 + b := by
  simp [beVal, List.foldl_append]

theorem beVal_beBytes (w n : ℕ) (h : n < 256 ^ w) : beVal (beBytes w n) = n := by
  induction w generalizing n with
  | zero =>
    interval_cases n
    rfl
  | succ w ih =>
    rw [beBytes, beVal_append_singleton, ih]
    · rw [Nat.mul_comm]
      exact Nat.div_add_mod n 256
    · have h2 : 256 ^ (w + 1) = 256 * 256 ^ w := by ring
      rw [h2] at h
      exact Nat.div_lt_of_lt_mul h

theorem beBytes_lt (w n : ℕ) : ∀ b ∈ beBytes w n, b < 256 := by
  induction w generalizing n with
  | zero => simp [beBytes]
  | succ w ih =>
    intro b hb
    rw [beBytes] at hb
    rcases List.mem_append.1 hb with h | h
    · exact ih _ _ h
    · simp only [List.mem_singleton] at h
      subst h
      exact Nat.mod_lt _ (by norm_num)

/-! ## Buffer reads and writes (`numbers.component.ts`)

`validateSafeInteger` fails when the value exceeds
`Number.MAX_SAFE_INTEGER = 2^53 - 1`; `writeInteger`/`readInteger`
dispatch on the byte width, with width 8 signed (two's complement via
`writeBigInt64BE`/`readBigInt64BE`) and width 16 a 128-bit field whose
only populated half is the low 8 bytes at `offset + 8`. -/

/-- `validateSafeInteger` of `numbers.component.ts`: fails iff the value
exceeds `Number.MAX_SAFE_INTEGER`. -/
def validateSafeInteger (n : ℤ) (nm : String) : JsRes Unit :=
  if n > 2 ^ 53 - 1 then
    .error (.binaryParsing (nm ++ " exceeds the maximum safe integer value"))
  else
    .ok ()

/-- Replace `bytes.length` bytes of `buf` starting at `off`; fails when the
write would run past the end, as the Node buffer writers do. -/
def bufWrite (buf : List ℕ) (off : ℕ) (bytes : List ℕ) : JsRes (List ℕ) :=
  if off + bytes.length ≤ buf.length then
    .ok (buf.take off ++ bytes ++ buf.drop (off + bytes.length))
  else
    .error (.rangeError "write out of range")

/-- `integerByteLength` of `numbers.component.ts` (the argument is always
integral at every call site modelled here, so the non-integer `TypeError`
branch is not reachable): negative values give width 8; otherwise the
smallest of 1/2/4/8/16 whose range covers the value; beyond `2^64 - 1` a
`RangeError`. -/
def integerByteLength (n : ℤ) : JsRes ℕ :=
  if n < 0 then .ok 8
  else if n ≤ 0xFF then .ok 1
  else if n ≤ 0xFFFF then .ok 2
  else if n ≤ 0xFFFFFFFF then .ok 4
  else if n ≤ 0x7FFFFFFFFFFFFFFF then .ok 8
  else if n ≤ 0xFFFFFFFFFFFFFFFF then .ok 16
  else .error (.rangeError "BigInt exceeds the 8-byte integer range.")

/-- `writeInteger` of `numbers.component.ts`.  Width 1/2/4 use the
unsigned big-endian writers (which range-check the value), width 8 the
signed `writeBigInt64BE`, width 16 `writeBigUInt64BE` into the low half
at `offset + 8`. -/
def writeInteger (buf : List ℕ) (v : ℤ) (size : ℕ) (off : ℕ) : JsRes (List ℕ) := do
  let _ ← validateSafeInteger off "Offset"
  match size with
  | 1 =>
    if 0 ≤ v ∧ v ≤ 0xFF then bufWrite buf off (beBytes 1 v.toNat)
    else .error (.rangeError "value out of range")
  | 2 =>
    if 0 ≤ v ∧ v ≤ 0xFFFF then bufWrite buf off (beBytes 2 v.toNat)
    else .error (.rangeError "value out of range")
  | 4 =>
    if 0 ≤ v ∧ v ≤ 0xFFFFFFFF then bufWrite buf off (beBytes 4 v.toNat)
    else .error (.rangeError "value out of range")
  | 8 =>
    if -(2 ^ 63) ≤ v ∧ v < 2 ^ 63 then bufWrite buf off (beBytes 8 (v % 2 ^ 64).toNat)
    else .error (.rangeError "value out of range")
  | 16 =>
    if 0 ≤ v ∧ v < 2 ^ 64 then bufWrite buf (off + 8) (beBytes 8 v.toNat)
    else .error (.rangeError "value out of range")
  | _ => .error (.binaryParsing "Unsupported size. Supported sizes are 1, 2, 4, 8, 16 bytes.")

/-- Read `w` bytes big-endian from `buf` at `off`, unsigned; fails when the
read runs past the end, as the Node buffer readers do. -/
def bufReadBE (buf : List ℕ) (off w : ℕ) : JsRes ℕ :=
  if off + w ≤ buf.length then .ok (beVal ((buf.drop off).take w))
  else .error (.rangeError "read out of range")

/-- `readInteger` of `numbers.component.ts`: widths 1/2/4 unsigned, width
8 signed (`readBigInt64BE`), width 16 unsigned from the low half at
`offset + 8`. -/
def readInteger (buf : List ℕ) (size : ℕ) (off : ℕ) : JsRes ℤ := do
  let _ ← validateSafeInteger off "Offset"
  match size with
  | 1 => return (← bufReadBE buf off 1 : ℕ)
  | 2 => return (← bufReadBE buf off 2 : ℕ)
  | 4 => return (← bufReadBE buf off 4 : ℕ)
  | 8 =>
    let raw ← bufReadBE buf off 8
    if raw < 2 ^ 63 then return (raw : ℤ) else return (raw : ℤ) - 2 ^ 64
  | 16 => return (← bufReadBE buf (off + 8) 8 : ℕ)
  | _ => .error (.binaryParsing "Unsupported size. Supported sizes are 1, 2, 4, 8 or 16 bytes.")

/-! ## Binary primitive struct codec (`binary.struct.ts`) -/

/-- `REFERENCE_DATE = Date.UTC(2001, 0, 1)` in milliseconds since the Unix
epoch. -/
def REFERENCE_DATE : ℤ := 978307200000

/-- `packDataHeader`: packs `(type << 4) | info`, rejecting either argument
outside 0–15 with a `RangeError`.  Arguments are `ℤ` because call sites pass
expressions like `min (len - 1) 15`, which is negative for `len = 0`. -/
def packDataHeader (type info : ℤ) : JsRes ℕ :=
  if type < 0 ∨ 15 < type ∨ info < 0 ∨ 15 < info then
    .error (.rangeError "Both type and info must be in the range 0-15.")
  else
    .ok (type * 16 + info).toNat

/-- A decoded type header: high nibble `type`, low nibble `info`. -/
structure TypeHeader where
  type : ℕ
  info : ℕ
  deriving Repr, DecidableEq

/-- `unpackDataHeader`: pure bit extraction `{type: byte >> 4, info: byte & 0xF}`. -/
def unpackDataHeader (byte : ℕ) : TypeHeader :=
  { type := byte / 16, info := byte % 16 }

/-- `Math.round (Math.sqrt n)` for natural `n`: the nearest integer to the
real square root, halves rounding up.  On the inputs `size - 1` used by
`encodeInteger` (0, 1, 3, 7, 15) this is 0, 1, 2, 3, 4. -/
def roundSqrt (n : ℕ) : ℕ :=
  let s := Nat.sqrt n
  if n ≤ s * s + s then s else s + 1

/-- `encodeInteger`: allocate `size + 1` zero bytes, write the header
`packDataHeader type (round (sqrt (size - 1)))` at 0, then the value
big-endian at offset 1 (width 16 populating only the low 8 bytes at 9,
the high half staying zero from the allocation). -/
def encodeInteger (n : ℤ) (type : ℤ := 1) : JsRes (List ℕ) := do
  let size ← integerByteLength n
  let hdr ← packDataHeader type (roundSqrt (size - 1))
  let b1 ← bufWrite (List.replicate (size + 1) 0) 0 [hdr]
  writeInteger b1 n size 1

/-- `decodeInteger`: `readInteger` of `2 ^ info` bytes.  The result keeps
the JavaScript type distinction: widths 1/2/4 produce a `number`
(`Sum.inl`), widths 8/16 a `bigint` (`Sum.inr`); other widths hit
`readInteger`'s unsupported-size error. -/
def decodeInteger (buf : List ℕ) (info : ℕ) (off : ℕ) : JsRes (ℤ ⊕ ℤ) := do
  let v ← readInteger buf (2 ^ info) off
  if 2 ^ info ≤ 4 then return .inl v else return .inr v

/-- The integer value carried by a decoded `number | bigint`. -/
def numVal : ℤ ⊕ ℤ → ℤ
  | .inl n => n
  | .inr n => n

/-- Zig-zag encoding of an integer into a natural, used to park the exact
numerator of a rational in one cell of the modelled double payload. -/
def zigzag (n : ℤ) : ℕ := (if 0 ≤ n then 2 * n else -2 * n - 1).toNat

/-- Inverse of `zigzag`. -/
def unzigzag (m : ℕ) : ℤ := if m % 2 = 0 then (m : ℤ) / 2 else -(((m : ℤ) + 1) / 2)

theorem unzigzag_zigzag (n : ℤ) : unzigzag (zigzag n) = n := by
  unfold zigzag unzigzag
  rcases le_or_lt 0 n with h | h
  · rw [if_pos h]
    have h2 : ((2 * n).toNat : ℤ) = 2 * n := Int.toNat_of_nonneg (by omega)
    have hmod : (2 * n).toNat % 2 = 0 := by omega
    rw [if_pos hmod]
    omega
  · rw [if_neg (by omega)]
    have h2 : ((-2 * n - 1).toNat : ℤ) = -2 * n - 1 := Int.toNat_of_nonneg (by omega)
    have hmod : (-2 * n - 1).toNat % 2 = 1 := by omega
    rw [if_neg (by omega)]
    omega

/-- The 8-cell field standing in for the IEEE-754 big-endian payload of
`writeDoubleBE q`: the exact rational is parked in the first two cells
(zig-zag numerator, denominator), the rest are zero.  The length matches
the wire layout byte for byte, so offset arithmetic stays faithful; the
floating-point bit pattern itself is outside the embedding. -/
def dblCells (q : ℚ) : List ℕ := [zigzag q.num, q.den, 0, 0, 0, 0, 0, 0]

theorem dblCells_length (q : ℚ) : (dblCells q).length = 8 := rfl

/-- `readDoubleBE` over the modelled payload: reads the 8-cell field at
`off` back into the exact rational; fails past the end of the buffer as
Node does. -/
def readDoubleBE (buf : List ℕ) (off : ℕ) : JsRes ℚ :=
  if off + 8 ≤ buf.length then
    .ok (mkRat (unzigzag (buf.getD off 0)) (buf.getD (off + 1) 0))
  else
    .error (.rangeError "read out of range")

/-- `encodeDouble`: a 9-byte buffer, header `packDataHeader type 3` then the
double payload at offset 1. -/
def encodeDouble (q : ℚ) (type : ℤ := 2) : JsRes (List ℕ) := do
  let hdr ← packDataHeader type 3
  return hdr :: dblCells q

/-- `decodeDouble`: straight `readDoubleBE`. -/
def decodeDouble (buf : List ℕ) (off : ℕ) : JsRes ℚ := readDoubleBE buf off

/-- `encodeNumber`: integral JavaScript numbers and every `bigint` go
through `encodeInteger`; everything else through `encodeDouble`.  A value
is a `bigint` iff it came from the `vbig` constructor, which call sites
encode by passing `asBigInt`. -/
def encodeNumber (q : ℚ) (asBigInt : Bool) : JsRes (List ℕ) :=
  if q.den = 1 ∨ asBigInt then encodeInteger q.num else encodeDouble q

/-- `encodeDate`: seconds (exact) between the date and `REFERENCE_DATE`,
encoded as a double with header type 3. -/
def encodeDate (ms : ℤ) : JsRes (List ℕ) :=
  encodeDouble ((ms - REFERENCE_DATE : ℤ) / (1000 : ℚ)) 3

/-- `getUTCSeconds` of an instant at `t` milliseconds since the Unix epoch:
`SecFromTime`, i.e. `⌊t / 1000⌋ mod 60`. -/
def getUTCSeconds (t : ℤ) : ℤ := (Int.fdiv t 1000) % 60

/-- Truncation of a rational toward zero (the `TimeClip` /
`ToIntegerOrInfinity` conversion applied to a finite time value). -/
def ratTrunc (q : ℚ) : ℤ := q.num / q.den

/-- `Date.prototype.setSeconds s` applied to a date lying exactly on a UTC
minute boundary with a zero milliseconds field (which
`new Date(REFERENCE_DATE)` is), with the runtime's local time zone
modelled as UTC: `MakeTime` runs the seconds argument through
`ToIntegerOrInfinity`, truncating it toward zero to whole seconds, and
the unspecified milliseconds argument keeps the base date's `0` — so the
result is the minute's start plus `trunc s` whole seconds.  Fractional
seconds of the argument are discarded. -/
def setSecondsFromMinute (minuteStart : ℤ) (s : ℚ) : ℤ :=
  minuteStart + ratTrunc s * 1000

/-- `decodeDate`: read the double, then
`baseDate.setSeconds (dateDouble - baseDate.getUTCSeconds())` on
`baseDate = new Date(REFERENCE_DATE)`; the result is the decoded instant
in milliseconds since the Unix epoch — the reference epoch plus the
double truncated to whole seconds (`setSeconds` drops the fraction). -/
def decodeDateVal (d : ℚ) : ℤ :=
  setSecondsFromMinute REFERENCE_DATE (d - getUTCSeconds REFERENCE_DATE)

/-- Buffered `decodeDate` as in the source: `readDoubleBE` at `off`, then
the `setSeconds` computation. -/
def decodeDate (buf : List ℕ) (off : ℕ) : JsRes ℤ := do
  let d ← readDoubleBE buf off
  return decodeDateVal d

/-- `encodeUID`: header `packDataHeader 8 (min (length - 1) 15)` — which
rejects a zero-length UID, since `min (-1) 15 = -1` — then, when
`length > 0xE`, the spread bytes of `encodeInteger length`, then the raw
UID bytes. -/
def encodeUID (uid : List ℕ) : JsRes (List ℕ) := do
  let length := uid.length
  let hdr ← packDataHeader 8 (min ((length : ℤ) - 1) 15)
  if length > 0xE then
    let ie ← encodeInteger length
    return hdr :: (ie ++ uid)
  else
    return hdr :: uid

/-- `decodeUID`: inline size `info + 1` when `info ≤ 0xE`; otherwise it
unpacks a length-integer header from `buffer[offset + 1]`, reads the
length at `offset + 2`, advances `offset` by `1 + 2 ^ header.info` and
slices (`subarray` clamps at the end of the buffer). -/
def decodeUID (buf : List ℕ) (info : ℕ) (off : ℕ) : JsRes (List ℕ) := do
  if info > 0xE then
    let header := unpackDataHeader (buf.getD (off + 1) 0)
    let size ← decodeInteger buf header.info (off + 2)
    let off2 := off + (1 + 2 ^ header.info)
    return (buf.drop off2).take (numVal size).toNat
  else
    return (buf.drop off).take (info + 1)

/-- `encodeBuffer`: header `packDataHeader type (min (data.length / bytesSize) 15)`;
when `data.length > 0xE` (the byte length, not the element count) the
bytes of `encodeInteger (data.length / bytesSize)` are inserted after the
header, before the raw data. -/
def encodeBuffer (data : List ℕ) (type : ℤ := 4) (bytesSize : ℕ := 1) : JsRes (List ℕ) := do
  let hdr ← packDataHeader type (min ((data.length / bytesSize : ℕ) : ℤ) 15)
  if data.length > 0xE then
    let ie ← encodeInteger (data.length / bytesSize : ℕ)
    return hdr :: (ie ++ data)
  else
    return hdr :: data

/-- `decodeBuffer`: size `info * bytesSize` inline; when `info > 0xE` it
unpacks a length-integer header at `data[offset]`, reads the element
count at `offset + 1`, checks it against the safe-integer bound,
advances `offset` by `1 + 2 ^ header.info` and slices
`count * bytesSize` bytes. -/
def decodeBuffer (data : List ℕ) (info : ℕ) (off : ℕ) (bytesSize : ℕ := 1) : JsRes (List ℕ) := do
  if info > 0xE then
    let header := unpackDataHeader (data.getD off 0)
    let count ← decodeInteger data header.info (off + 1)
    let size : ℤ := numVal count * bytesSize
    let _ ← validateSafeInteger size "Buffer size"
    let off2 := off + (1 + 2 ^ header.info)
    return (data.drop off2).take size.toNat
  else
    return (data.drop off).take (info * bytesSize)

/-- `encodeAscii`: `encodeBuffer (Buffer.from s) 5`.  `encodeType` routes a
string here only when every code unit is in 0–127, where the UTF-8 bytes
of `Buffer.from` coincide with the code units themselves. -/
def encodeAscii (units : List ℕ) : JsRes (List ℕ) := encodeBuffer units 5 1

/-- `decodeAscii`: `decodeBuffer(...).toString()`.  Modelled as the decoded
bytes read back as code units (the UTF-8 identity on the all-ASCII
content this decoder is paired with). -/
def decodeAscii (buf : List ℕ) (info : ℕ) (off : ℕ) : JsRes (List ℕ) :=
  decodeBuffer buf info off 1

/-- UTF-16 code units to big-endian byte pairs:
`Buffer.from(s, "utf16le").swap16()`. -/
def utf16beBytes (units : List ℕ) : List ℕ :=
  units.flatMap fun u => [u / 256 % 256, u % 256]

/-- Big-endian byte pairs back to UTF-16 code units; `swap16` throws a
`RangeError` on an odd byte count. -/
def utf16beUnits : List ℕ → JsRes (List ℕ)
  | [] => .ok []
  | b0 :: b1 :: rest => do
    let us ← utf16beUnits rest
    return (b0 * 256 + b1) :: us
  | [_] => .error (.rangeError "Buffer size must be a multiple of 16-bits")

/-- `encodeUtf16BE`: `encodeBuffer (Buffer.from(data, "utf16le").swap16()) 6 2`. -/
def encodeUtf16BE (units : List ℕ) : JsRes (List ℕ) :=
  encodeBuffer (utf16beBytes units) 6 2

/-- `decodeUtf16BE`: `decodeBuffer(buffer, info, offset, 2).swap16().toString("utf16le")`. -/
def decodeUtf16BE (buf : List ℕ) (info : ℕ) (off : ℕ) : JsRes (List ℕ) := do
  let bytes ← decodeBuffer buf info off 2
  utf16beUnits bytes

/-- The write loop shared by `encodeObjects` and `packOffsetTable`: each
value written with `writeInteger` at consecutive `size`-byte slots,
starting at slot `index`. -/
def writeSlots (buf : List ℕ) (vs : List ℤ) (size : ℕ) (index : ℕ) : JsRes (List ℕ) :=
  match vs with
  | [] => .ok buf
  | v :: rest => do
    let buf2 ← writeInteger buf v size (index * size)
    writeSlots buf2 rest size (index + 1)

/-- The fixed-width reference-index block of `encodeObjects`: each index
written with `writeInteger` at consecutive `size`-byte slots of a
zero-filled buffer. -/
def writeIndexBlock (offsets : List ℤ) (size : ℕ) : JsRes (List ℕ) :=
  writeSlots (List.replicate (offsets.length * size) 0) offsets size 0

/-- `encodeObjects`: the index block, prefixed by the header
`packDataHeader type (min length 15)` and — when `length > 0xE` — the
bytes of `encodeInteger length`. -/
def encodeObjects (length : ℕ) (type : ℤ) (offsets : List ℤ) (size : ℕ) : JsRes (List ℕ) := do
  let block ← writeIndexBlock offsets size
  let hdr ← packDataHeader type (min (length : ℤ) 15)
  if length > 0xE then
    let ie ← encodeInteger length
    return hdr :: (ie ++ block)
  else
    return hdr :: block

/-- `packOffsetTable`: entry width from `integerByteLength` of the last
offset (`?? 0` when empty), each offset written at consecutive slots. -/
def packOffsetTable (offsets : List ℤ) : JsRes (List ℕ) := do
  let size ← integerByteLength ((offsets.getLast? ).getD 0)
  writeSlots (List.replicate (offsets.length * size) 0) offsets size 0

/-! ## Header and trailer structs

`headerStruct` is a 6-byte magic string plus a 2-byte version string;
`trailerStruct` is 5 reserved bytes, `sortVersion`, the two width bytes,
and three 64-bit big-endian fields. -/

/-- Parsed binary-plist trailer. -/
structure Trailer where
  sortVersion : ℕ
  offsetTableOffsetSize : ℕ
  objectReferenceSize : ℕ
  numberOfObjects : ℤ
  rootObjectOffset : ℤ
  offsetTableOffset : ℤ
  deriving Repr, DecidableEq

/-- `trailerStruct.size`. -/
def trailerSize : ℕ := 32

/-- `trailerStruct.toBuffer` with the fields `encodeBinary` populates
(`unused` and `sortVersion` default to zero). -/
def trailerToBuffer (numberOfObjects : ℕ) (offsetTableOffset : ℕ)
    (objectReferenceSize : ℕ) (offsetTableOffsetSize : ℕ) : List ℕ :=
  [0, 0, 0, 0, 0, 0, offsetTableOffsetSize % 256, objectReferenceSize % 256] ++
    beBytes 8 numberOfObjects ++ beBytes 8 0 ++ beBytes 8 offsetTableOffset

/-- `trailerStruct.toObject` over the final 32 bytes of the buffer; the
struct reader needs the full record to be present. -/
def trailerToObject (bytes : List ℕ) : JsRes Trailer :=
  if bytes.length < 32 then .error (.rangeError "trailer out of range")
  else
    .ok { sortVersion := bytes.getD 5 0
          offsetTableOffsetSize := bytes.getD 6 0
          objectReferenceSize := bytes.getD 7 0
          numberOfObjects := beVal ((bytes.drop 8).take 8)
          rootObjectOffset := beVal ((bytes.drop 16).take 8)
          offsetTableOffset := beVal ((bytes.drop 24).take 8) }

/-- The UTF-16 code units of `"bplist"`. -/
def magicBplist : List ℕ := [98, 112, 108, 105, 115, 116]

/-- The UTF-16 code units of `"00"`. -/
def version00 : List ℕ := [48, 48]

/-- `headerStruct.size`. -/
def headerSize : ℕ := 8

/-- `headerStruct.toBuffer {magic: "bplist", version: "00"}`. -/
def headerToBuffer : List ℕ := magicBplist ++ version00

/-- `headerStruct.toObject`: the first six bytes as the magic string, the
next two as the version string (byte values as code units — the header
contents are ASCII). -/
def headerToObject (bytes : List ℕ) : List ℕ × List ℕ :=
  ((bytes.take 6), ((bytes.drop 6).take 2))

/-- `unpackOffsetTable`: checks `numberOfObjects` and `offsetTableOffset`
against the safe-integer bound, rejects fewer than one object, then reads
`numberOfObjects` fixed-width entries starting at `offsetTableOffset`. -/
def unpackOffsetTable (data : List ℕ) (trailer : Trailer) : JsRes (List ℤ) := do
  let _ ← validateSafeInteger trailer.numberOfObjects "Number Of Objects"
  let _ ← validateSafeInteger trailer.offsetTableOffset "Table Offset"
  if trailer.numberOfObjects < 1 then
    .error (.binaryParsing "Invalid number of objects")
  else
    readSlots data trailer.offsetTableOffsetSize trailer.offsetTableOffset.toNat
      trailer.numberOfObjects.toNat 0
where
  /-- The read loop: `numberOfObjects` entries of `offsetTableOffsetSize`
  bytes each, entry `i` at `startOffset + offsetTableOffsetSize * i`. -/
  readSlots (data : List ℕ) (size start : ℕ) : ℕ → ℕ → JsRes (List ℤ)
    | 0, _ => .ok []
    | n + 1, i => do
      let v ← readInteger data size (start + size * i)
      let rest ← readSlots data size start n (i + 1)
      return v :: rest

/-! ## The value model

`PVal` is the input value model of `encodeBinary`: the JavaScript values the
service dispatches on.  Containers, `Date`s and `Buffer`s carry an
`id : ℕ` standing for their JavaScript object identity (the encoder's
`Map` keys them by reference); primitives carry none (the `Map` keys them
by value).  `vuid` is a `Buffer` carrying the non-enumerable
`__isCreateUID` marker. -/
inductive PVal where
  | vnull
  | vbool (b : Bool)
  | vnum (q : ℚ)
  | vbig (n : ℤ)
  | vstr (s : List ℕ)
  | vdate (id : ℕ) (ms : ℤ)
  | vdata (id : ℕ) (bs : List ℕ)
  | vuid (id : ℕ) (bs : List ℕ)
  | varr (id : ℕ) (xs : List PVal)
  | vset (id : ℕ) (xs : List PVal)
  | vdict (id : ℕ) (kvs : List (List ℕ × PVal))
  deriving Repr

/-- The decoder's output value model: like `PVal` but with no identities
(the decoder builds fresh objects), plus `undef` for the `undefined`
that `decodeType` returns on a type-0 header with unknown info. -/
inductive Pure where
  | null
  | bool (b : Bool)
  | num (q : ℚ)
  | big (n : ℤ)
  | str (s : List ℕ)
  | date (ms : ℤ)
  | data (bs : List ℕ)
  | uid (bs : List ℕ)
  | arr (xs : List Pure)
  | set (xs : List Pure)
  | dict (kvs : List (List ℕ × Pure))
  | undef
  deriving Repr

/-- Identity erasure: the structural value a `PVal` denotes. -/
def erase : PVal → Pure
  | .vnull => .null
  | .vbool b => .bool b
  | .vnum q => .num q
  | .vbig n => .big n
  | .vstr s => .str s
  | .vdate _ ms => .date ms
  | .vdata _ bs => .data bs
  | .vuid _ bs => .uid bs
  | .varr _ xs => .arr (xs.attach.map fun z => erase z.1)
  | .vset _ xs => .set (xs.attach.map fun z => erase z.1)
  | .vdict _ kvs => .dict (kvs.attach.map fun z => (z.1.1, erase z.1.2))
decreasing_by
  · have h := List.sizeOf_lt_of_mem z.2
    simp only [PVal.varr.sizeOf_spec]
    omega
  · have h := List.sizeOf_lt_of_mem z.2
    simp only [PVal.vset.sizeOf_spec]
    omega
  · have h1 := List.sizeOf_lt_of_mem z.2
    have h2 : sizeOf z.1.2 < sizeOf z.1 := by
      rcases z.1 with ⟨a, b⟩
      simp only [Prod.mk.sizeOf_spec]
      omega
    simp only [PVal.vdict.sizeOf_spec]
    omega

theorem erase_varr (id : ℕ) (xs : List PVal) :
    erase (.varr id xs) = .arr (xs.map erase) := by
  rw [erase]
  simp [List.attach_map_coe]

theorem erase_vset (id : ℕ) (xs : List PVal) :
    erase (.vset id xs) = .set (xs.map erase) := by
  rw [erase]
  simp [List.attach_map_coe]

theorem erase_vdict (id : ℕ) (kvs : List (List ℕ × PVal)) :
    erase (.vdict id kvs) = .dict (kvs.map fun kv => (kv.1, erase kv.2)) := by
  rw [erase]
  exact congrArg Pure.dict (List.attach_map_coe kvs fun kv => (kv.1, erase kv.2))

/-- A key of the encoder's reference `Map`, with JavaScript `Map`
(SameValueZero) semantics: `null`, booleans, numbers, bigints and strings
compare by value — with `number` and `bigint` distinct — and objects
(`Date`, `Buffer`, arrays, sets, plain objects) by identity. -/
inductive MKey where
  | knull
  | kbool (b : Bool)
  | knum (q : ℚ)
  | kbig (n : ℤ)
  | kstr (s : List ℕ)
  | kobj (id : ℕ)
  deriving Repr, DecidableEq

/-- The reference-`Map` key of a value. -/
def keyOf : PVal → MKey
  | .vnull => .knull
  | .vbool b => .kbool b
  | .vnum q => .knum q
  | .vbig n => .kbig n
  | .vstr s => .kstr s
  | .vdate id _ => .kobj id
  | .vdata id _ => .kobj id
  | .vuid id _ => .kobj id
  | .varr id _ => .kobj id
  | .vset id _ => .kobj id
  | .vdict id _ => .kobj id

/-- Association-list lookup with decidable key equality, modelling
`Map.get` (keys in the modelled maps are unique). -/
def alookup (k : MKey) : List (MKey × ℕ) → Option ℕ
  | [] => none
  | (k2, v) :: rest => if k2 = k then some v else alookup k rest

/-- `countElements` of `binary.service.ts`, written recursively: the
stack-based loop counts 1 per visited value; an array pushes its
elements; any other object additionally adds `Object.values(x).length`
before pushing those values — for a plain object its property values,
for a `Buffer` its byte values (each a number, counting 1), for a `Date`
or `Set` nothing, since their own enumerable properties are empty. -/
def countElements : PVal → ℕ
  | .vnull | .vbool _ | .vnum _ | .vbig _ | .vstr _ => 1
  | .vdate _ _ => 1
  | .vset _ _ => 1
  | .vdata _ bs => 1 + 2 * bs.length
  | .vuid _ bs => 1 + 2 * bs.length
  | .varr _ xs => 1 + (xs.attach.map fun z => countElements z.1).sum
  | .vdict _ kvs => 1 + kvs.length + (kvs.attach.map fun z => countElements z.1.2).sum
decreasing_by
  · have h := List.sizeOf_lt_of_mem z.2
    simp only [PVal.varr.sizeOf_spec]
    omega
  · have h1 := List.sizeOf_lt_of_mem z.2
    have h2 : sizeOf z.1.2 < sizeOf z.1 := by
      rcases z.1 with ⟨a, b⟩
      simp only [Prod.mk.sizeOf_spec]
      omega
    simp only [PVal.vdict.sizeOf_spec]
    omega

/-! ## Binary value engine: encoding (`binary.service.ts`)

One encode call threads `{map, offset}` (the `EncodeObjectRefInterface`
fields the recursion reads and writes; `objectReferenceSize` is fixed at
entry and passed alongside).  `encodeType` on a primitive produces one
`Buffer`, on a container the metadata buffer followed by the newly
serialized children — modelled uniformly as a list of chunks. -/

/-- The mutable encode state: the reference map and the next object
index (`offset`, starting at 1). -/
structure EncSt where
  map : List (MKey × ℕ)
  offset : ℕ
  deriving Repr

mutual

/-- `encodeReference`: on a `Map` miss, push the next index, register the
item, bump `offset`, and emit `encodeType item`; on a hit, push the
already-assigned index and emit nothing.  The pushed index is returned
for the caller's reference list. -/
def encRef (v : PVal) (st : EncSt) (refSize : ℕ) : JsRes (List (List ℕ) × EncSt × ℤ) :=
  match alookup (keyOf v) st.map with
  | some idx => .ok ([], st, (idx : ℤ))
  | none =>
    let idx := st.offset
    let st2 : EncSt := { map := st.map ++ [(keyOf v, idx)], offset := idx + 1 }
    match encTy v st2 refSize with
    | .error e => .error e
    | .ok (chunks, st3) => .ok (chunks, st3, (idx : ℤ))
termination_by (sizeOf v, 1)
decreasing_by
  omega

/-- `encodeType`: dispatch on the JavaScript runtime type of the value,
exactly in source order (null, booleans, `Set`, `Date`, marked `Buffer`,
array, plain `Buffer`, ASCII string, other string, number, bigint,
object). -/
def encTy (v : PVal) (st : EncSt) (refSize : ℕ) : JsRes (List (List ℕ) × EncSt) :=
  match v with
  | .vnull =>
    match packDataHeader 0 0 with
    | .error e => .error e
    | .ok h => .ok ([[h]], st)
  | .vbool true =>
    match packDataHeader 0 9 with
    | .error e => .error e
    | .ok h => .ok ([[h]], st)
  | .vbool false =>
    match packDataHeader 0 8 with
    | .error e => .error e
    | .ok h => .ok ([[h]], st)
  | .vset _ xs =>
    match encList xs st refSize with
    | .error e => .error e
    | .ok (chunks, refs, st2) =>
      match encodeObjects xs.length 0xC refs refSize with
      | .error e => .error e
      | .ok meta => .ok (meta :: chunks, st2)
  | .vdate _ ms =>
    match encodeDate ms with
    | .error e => .error e
    | .ok c => .ok ([c], st)
  | .vuid _ bs =>
    match encodeUID bs with
    | .error e => .error e
    | .ok c => .ok ([c], st)
  | .varr _ xs =>
    match encList xs st refSize with
    | .error e => .error e
    | .ok (chunks, refs, st2) =>
      match encodeObjects xs.length 0xA refs refSize with
      | .error e => .error e
      | .ok meta => .ok (meta :: chunks, st2)
  | .vdata _ bs =>
    match encodeBuffer bs 4 1 with
    | .error e => .error e
    | .ok c => .ok ([c], st)
  | .vstr s =>
    if s.all (· ≤ 127) then
      match encodeAscii s with
      | .error e => .error e
      | .ok c => .ok ([c], st)
    else
      match encodeUtf16BE s with
      | .error e => .error e
      | .ok c => .ok ([c], st)
  | .vnum q =>
    match encodeNumber q false with
    | .error e => .error e
    | .ok c => .ok ([c], st)
  | .vbig n =>
    match encodeNumber (n : ℚ) true with
    | .error e => .error e
    | .ok c => .ok ([c], st)
  | .vdict _ kvs =>
    match encPairs kvs st refSize with
    | .error e => .error e
    | .ok (chunks, krefs, vrefs, st2) =>
      match encodeObjects kvs.length 0xD (krefs ++ vrefs) refSize with
      | .error e => .error e
      | .ok meta => .ok (meta :: chunks, st2)
termination_by (sizeOf v, 0)
decreasing_by
  all_goals simp_wf
  all_goals omega

/-- The element loop of `encodeArray` (used for arrays and sets):
`encodeReference` each item, concatenating emitted chunks and collecting
the pushed indices in order. -/
def encList (xs : List PVal) (st : EncSt) (refSize : ℕ) : JsRes (List (List ℕ) × List ℤ × EncSt) :=
  match xs with
  | [] => .ok ([], [], st)
  | x :: rest =>
    match encRef x st refSize with
    | .error e => .error e
    | .ok (cx, st1, ix) =>
      match encList rest st1 refSize with
      | .error e => .error e
      | .ok (cs, refs, st2) => .ok (cx ++ cs, ix :: refs, st2)
termination_by (sizeOf xs, 2)
decreasing_by
  all_goals simp_wf
  all_goals omega

/-- The key/value loop of `encodeObject`: for each property,
`encodeReference` the key then the value, collecting the two parallel
index lists. -/
def encPairs (kvs : List (List ℕ × PVal)) (st : EncSt) (refSize : ℕ) :
    JsRes (List (List ℕ) × List ℤ × List ℤ × EncSt) :=
  match kvs with
  | [] => .ok ([], [], [], st)
  | (k, v) :: rest =>
    match encRef (.vstr k) st refSize with
    | .error e => .error e
    | .ok (ck, st1, ik) =>
      match encRef v st1 refSize with
      | .error e => .error e
      | .ok (cv, st2, iv) =>
        match encPairs rest st2 refSize with
        | .error e => .error e
        | .ok (cs, ks, vs2, st3) => .ok (ck ++ cv ++ cs, ik :: ks, iv :: vs2, st3)
termination_by (sizeOf kvs, 2)
decreasing_by
  all_goals simp_wf
  all_goals omega

end

/-- The offset each chunk starts at, base `headerBuffer.length`
(`packData`: each chunk pushes the running `offsetTableOffset` and
advances it by its own length). -/
def chunkOffsets (base : ℕ) : List (List ℕ) → List ℕ
  | [] => []
  | c :: rest => base :: chunkOffsets (base + c.length) rest

/-- `encodeBinary`: header, `encodeType` under a fresh reference state
(`offset` 1, `objectReferenceSize` from `countElements`), `packData`
(chunks, then the offset table whose entry width covers the largest —
i.e. last — offset), and the 32-byte trailer. -/
def encodeBinary (v : PVal) : JsRes (List ℕ) := do
  let headerBuffer := headerToBuffer
  let refSize ← integerByteLength (countElements v)
  let (chunks, _) ← encTy v { map := [], offset := 1 } refSize
  let offsets := chunkOffsets headerBuffer.length chunks
  let numberOfObjects := chunks.length
  let offsetTableOffset := headerBuffer.length + (chunks.map List.length).sum
  let offsetTableOffsetSize ← integerByteLength (((offsets.getLast? ).getD 0 : ℕ))
  let table ← packOffsetTable (offsets.map fun (o : ℕ) => (o : ℤ))
  let packedData := chunks.flatten ++ table
  let trailerBuffer := trailerToBuffer numberOfObjects offsetTableOffset refSize offsetTableOffsetSize
  return headerBuffer ++ packedData ++ trailerBuffer

/-! ## Binary value engine: decoding (`binary.service.ts`)

The decoder walks the buffer by absolute offsets, resolving container
references through the offset table.  The source's recursion is bounded
only by the data (a cyclic reference chain would overflow the JavaScript
stack), so the embedding threads explicit fuel, consumed once per
`decodeType` entry; `decodeReference`'s memo map caches results of the
pure `decodeType` and is omitted (it cannot change any result, only
sharing and speed). -/

/-- `decodeReference`, parametric in the recursive `decodeType` call it
makes: map the reference index through the offset table and decode at
that byte offset.  An index outside the table, or a negative table
entry, would make the source index the buffer with `undefined`; that
JavaScript corner is out of model. -/
def decodeRefWith (decType : ℕ → JsRes Pure) (offsets : List ℤ) (index : ℤ) : JsRes Pure :=
  if h : 0 ≤ index ∧ index.toNat < offsets.length then
    let oi := offsets.get ⟨index.toNat, h.2⟩
    if 0 ≤ oi then decType oi.toNat
    else .error (.modelGap "negative object offset")
  else .error (.modelGap "reference index outside offset table")

/-- The element loop shared by `decodeArray` and `decodeSet`: read
`remaining` more reference indices of `refSize` bytes starting at
`off + k * refSize` and resolve each through `decRef`. -/
def decodeElemsW (decRef : ℤ → JsRes Pure) (data : List ℕ) (off : ℕ) (refSize : ℕ) :
    (remaining : ℕ) → (k : ℕ) → JsRes (List Pure)
  | 0, _ => .ok []
  | remaining + 1, k =>
    match readInteger data refSize (off + k * refSize) with
    | .error e => .error e
    | .ok index =>
      match decRef index with
      | .error e => .error e
      | .ok x =>
        match decodeElemsW decRef data off refSize remaining (k + 1) with
        | .error e => .error e
        | .ok xs => .ok (x :: xs)

/-- The key/value loop of `decodeObject`: `remaining` more pairs, the key
index at `off + k * refSize` and the value index `bytesLength` bytes
later; each decoded key is used via `toString()` (a decoded non-string
key would be stringified — out of model). -/
def decodePairsW (decRef : ℤ → JsRes Pure) (data : List ℕ) (off : ℕ) (bytesLength : ℕ)
    (refSize : ℕ) : (remaining : ℕ) → (k : ℕ) → JsRes (List (List ℕ × Pure))
  | 0, _ => .ok []
  | remaining + 1, k =>
    match readInteger data refSize (off + k * refSize) with
    | .error e => .error e
    | .ok keyIndex =>
      match readInteger data refSize (off + bytesLength + k * refSize) with
      | .error e => .error e
      | .ok valueIndex =>
        match decRef keyIndex with
        | .error e => .error e
        | .ok keyObject =>
          match keyObject with
          | .str s =>
            match decRef valueIndex with
            | .error e => .error e
            | .ok value =>
              match decodePairsW decRef data off bytesLength refSize remaining (k + 1) with
              | .error e => .error e
              | .ok kvs => .ok ((s, value) :: kvs)
          | _ => .error (.modelGap "non-string dictionary key stringified")

/-- Container length resolution shared by `decodeArray`, `decodeSet` and
`decodeObject`: `bytesLength = length * offsetSize`, and when
`length > 0xE` an integer object at `offset` supplies the element count
(safe-integer checked), the offset advancing past it. -/
def resolveContainerLen (data : List ℕ) (len off refSize : ℕ) : JsRes (ℤ × ℕ) :=
  if len > 0xE then
    let intHeader := unpackDataHeader (data.getD off 0)
    match decodeInteger data intHeader.info (off + 1) with
    | .error e => .error e
    | .ok size =>
      match validateSafeInteger (numVal size) "decode offsets size" with
      | .error e => .error e
      | .ok _ => .ok (numVal size * refSize, off + (1 + 2 ^ intHeader.info))
  else .ok ((len * refSize : ℕ), off)

/-- `decodeArray` (and, collecting into a `Set`, `decodeSet`): resolve the
byte length of the index block, then loop `i` from 0 by `offsetSize`
below `bytesLength`, reading and resolving one reference per step. -/
def decodeArrayW (decRef : ℤ → JsRes Pure) (data : List ℕ) (len off0 refSize : ℕ) :
    JsRes (List Pure) :=
  match resolveContainerLen data len off0 refSize with
  | .error e => .error e
  | .ok (bytesLength, off) =>
    if refSize = 0 then
      if bytesLength ≤ 0 then .ok []
      else .error (.modelGap "zero reference width loops forever")
    else
      decodeElemsW decRef data off refSize ((bytesLength.toNat + refSize - 1) / refSize) 0

/-- `decodeObject`: resolve the byte length of the index block, then read
`length` key/value index pairs (keys first, values `bytesLength` bytes
later) and resolve each through `decodeReference`. -/
def decodeObjectW (decRef : ℤ → JsRes Pure) (data : List ℕ) (len off0 refSize : ℕ) :
    JsRes (List (List ℕ × Pure)) :=
  match resolveContainerLen data len off0 refSize with
  | .error e => .error e
  | .ok (bytesLength, off) =>
    if refSize = 0 then
      if bytesLength ≤ 0 then .ok []
      else .error (.modelGap "zero reference width loops forever")
    else
      decodePairsW decRef data off bytesLength.toNat refSize
        ((bytesLength.toNat + refSize - 1) / refSize) 0

/-- `decodeType`: unpack the header byte at `offset`, advance past it, and
dispatch on the type nibble; an unhandled type nibble falls through to
`BinaryParsingError("Unsupported type ...")`, while type 0 with an info
other than null/true/false returns `undefined`.  Container cases resolve
their references with `decodeReference` over the recursive call one fuel
level down. -/
def decodeTypeF : (fuel : ℕ) → (data : List ℕ) → (off : ℕ) → (offsets : List ℤ) →
    (refSize : ℕ) → JsRes Pure
  | 0, _, _, _, _ => .error .outOfFuel
  | fuel + 1, data, off, offsets, refSize =>
    let header := unpackDataHeader (data.getD off 0)
    let off := off + 1
    match header.type with
    | 0 =>
      if header.info = 0 then .ok .null
      else if header.info = 9 then .ok (.bool true)
      else if header.info = 8 then .ok (.bool false)
      else .ok .undef
    | 1 =>
      match decodeInteger data header.info off with
      | .error e => .error e
      | .ok (.inl n) => .ok (.num (n : ℚ))
      | .ok (.inr n) => .ok (.big n)
    | 2 =>
      match decodeDouble data off with
      | .error e => .error e
      | .ok q => .ok (.num q)
    | 3 =>
      match decodeDate data off with
      | .error e => .error e
      | .ok t => .ok (.date t)
    | 4 =>
      match decodeBuffer data header.info off 1 with
      | .error e => .error e
      | .ok bs => .ok (.data bs)
    | 5 =>
      match decodeAscii data header.info off with
      | .error e => .error e
      | .ok s => .ok (.str s)
    | 6 =>
      match decodeUtf16BE data header.info off with
      | .error e => .error e
      | .ok s => .ok (.str s)
    | 8 =>
      match decodeUID data header.info off with
      | .error e => .error e
      | .ok bs => .ok (.uid bs)
    | 10 =>
      match decodeArrayW
          (decodeRefWith (fun off2 => decodeTypeF fuel data off2 offsets refSize) offsets)
          data header.info off refSize with
      | .error e => .error e
      | .ok xs => .ok (.arr xs)
    | 12 =>
      match decodeArrayW
          (decodeRefWith (fun off2 => decodeTypeF fuel data off2 offsets refSize) offsets)
          data header.info off refSize with
      | .error e => .error e
      | .ok xs => .ok (.set xs)
    | 13 =>
      match decodeObjectW
          (decodeRefWith (fun off2 => decodeTypeF fuel data off2 offsets refSize) offsets)
          data header.info off refSize with
      | .error e => .error e
      | .ok kvs => .ok (.dict kvs)
    | _ => .error (.binaryParsing "Unsupported type")

/-- `decodeBinary`: validate the header (note the source's `&&` — it
rejects only when the magic *and* the version both mismatch, and throws a
plain `Error`), parse the trailer from the last 32 bytes, unpack the
offset table, and decode starting at the fixed byte offset
`headerStruct.size = 8` (not at `offsets[0]`). -/
def decodeBinaryF (fuel : ℕ) (data : List ℕ) : JsRes Pure := do
  let headerObject := headerToObject data
  if headerObject.1 ≠ magicBplist ∧ headerObject.2 ≠ version00 then
    .error (.jsError "Expected magic bplist and version 00, but received something else.")
  else do
    let trailerObject ← trailerToObject (data.drop (data.length - trailerSize))
    let offsetsTable ← unpackOffsetTable data trailerObject
    decodeTypeF fuel data headerSize offsetsTable trailerObject.objectReferenceSize

/-! ## Structural measures and the well-behaved fragment -/

/-- Node count of a decoded value; an upper bound on the decoder recursion
depth needed below it (one fuel unit per `decodeType` entry). -/
def esize : Pure → ℕ
  | .arr xs => 1 + (xs.attach.map fun z => esize z.1).sum
  | .set xs => 1 + (xs.attach.map fun z => esize z.1).sum
  | .dict kvs => 1 + (kvs.attach.map fun z => 1 + esize z.1.2).sum
  | _ => 1
decreasing_by
  · have h := List.sizeOf_lt_of_mem z.2
    simp only [Pure.arr.sizeOf_spec]
    omega
  · have h := List.sizeOf_lt_of_mem z.2
    simp only [Pure.set.sizeOf_spec]
    omega
  · have h1 := List.sizeOf_lt_of_mem z.2
    have h2 : sizeOf z.1.2 < sizeOf z.1 := by
      rcases z.1 with ⟨a, b⟩
      simp only [Prod.mk.sizeOf_spec]
      omega
    simp only [Pure.dict.sizeOf_spec]
    omega

/-- The identities (in pre-order) of every object-keyed node: `Date`s,
`Buffer`s, UID buffers, arrays, sets and dictionaries. -/
def allIds : PVal → List ℕ
  | .vnull | .vbool _ | .vnum _ | .vbig _ | .vstr _ => []
  | .vdate id _ => [id]
  | .vdata id _ => [id]
  | .vuid id _ => [id]
  | .varr id xs => id :: (xs.attach.map fun z => allIds z.1).flatten
  | .vset id xs => id :: (xs.attach.map fun z => allIds z.1).flatten
  | .vdict id kvs => id :: (kvs.attach.map fun z => allIds z.1.2).flatten
decreasing_by
  · have h := List.sizeOf_lt_of_mem z.2
    simp only [PVal.varr.sizeOf_spec]
    omega
  · have h := List.sizeOf_lt_of_mem z.2
    simp only [PVal.vset.sizeOf_spec]
    omega
  · have h1 := List.sizeOf_lt_of_mem z.2
    have h2 : sizeOf z.1.2 < sizeOf z.1 := by
      rcases z.1 with ⟨a, b⟩
      simp only [Prod.mk.sizeOf_spec]
      omega
    simp only [PVal.vdict.sizeOf_spec]
    omega

/-- A JavaScript string the codec can round-trip: valid UTF-16 code units,
and — when it is not all-ASCII, so takes the UTF-16BE path — a code-unit
count outside 8–14 (`encodeBuffer` inserts the count object based on the
byte length exceeding 14 while the header info field and `decodeBuffer`
use the element count, so those lengths are mis-decoded). -/
def strGoodB (s : List ℕ) : Bool :=
  s.all (· < 65536) &&
    (s.all (· ≤ 127) || decide (s.length ≤ 7) || decide (15 ≤ s.length))

/-- The fragment of the value model on which binary decode is a left
inverse of binary encode.  Beyond validity conditions (byte ranges,
unique dictionary keys, set elements distinct under SameValueZero), it
excludes exactly the boundary cases the codec mishandles: non-ASCII
strings of 8–14 code units, UIDs longer than 14 bytes, integers whose
decoded JavaScript type flips between `number` and `bigint` (integral
`number`s at or above `2^32` or negative come back as `bigint`;
`bigint`s below `2^32` come back as `number`), and `Date`s lying off a
whole-second boundary (`decodeDate`'s `setSeconds` call truncates the
decoded seconds double, discarding the milliseconds). -/
def goodB : PVal → Bool
  | .vnull | .vbool _ => true
  | .vdate _ ms => decide (ms % 1000 = 0)
  | .vnum q => !(q.den = 1 : Bool) || (decide (0 ≤ q.num) && decide (q.num < 2 ^ 32))
  | .vbig n =>
    (decide (-(2 ^ 63) ≤ n) && decide (n < 0)) || (decide (2 ^ 32 ≤ n) && decide (n < 2 ^ 64))
  | .vstr s => strGoodB s
  | .vdata _ bs => bs.all (· < 256)
  | .vuid _ bs => bs.all (· < 256) && decide (1 ≤ bs.length) && decide (bs.length ≤ 14)
  | .varr _ xs => xs.attach.all fun z => goodB z.1
  | .vset _ xs =>
    (xs.attach.all fun z => goodB z.1) && decide (xs.map keyOf).Nodup
  | .vdict _ kvs =>
    (kvs.attach.all fun z => strGoodB z.1.1 && goodB z.1.2) &&
      decide (kvs.map Prod.fst).Nodup
decreasing_by
  · have h := List.sizeOf_lt_of_mem z.2
    simp only [PVal.varr.sizeOf_spec]
    omega
  · have h := List.sizeOf_lt_of_mem z.2
    simp only [PVal.vset.sizeOf_spec]
    omega
  · have h1 := List.sizeOf_lt_of_mem z.2
    have h2 : sizeOf z.1.2 < sizeOf z.1 := by
      rcases z.1 with ⟨a, b⟩
      simp only [Prod.mk.sizeOf_spec]
      omega
    simp only [PVal.vdict.sizeOf_spec]
    omega

/-- A well-behaved encode root: every node in the good fragment, and all
object identities distinct (a tree-shaped object graph — each container,
`Date` and `Buffer` in the input is a distinct JavaScript object). -/
def GoodRoot (v : PVal) : Prop := goodB v = true ∧ (allIds v).Nodup

instance : DecidablePred GoodRoot := fun v => by
  unfold GoodRoot
  infer_instance

/-! ## `CreateUID` and the buffer store (`binary.service.ts`)

`CreateUID` is the public UID constructor.  Buffers live in an explicit
store (JavaScript heap) mapping identities to byte contents plus the
optional `__isCreateUID` marker property and its descriptor. -/

/-- A property descriptor, as passed to `Object.defineProperty`. -/
structure PropDesc where
  value : Bool
  enumerable : Bool
  writable : Bool
  configurable : Bool
  deriving Repr, DecidableEq

/-- A heap record for a `Buffer`: its bytes, and the `__isCreateUID`
marker property if one has been defined on it. -/
structure BufRec where
  bytes : List ℕ
  uidMarker : Option PropDesc
  deriving Repr, DecidableEq

/-- The buffer heap: identities to buffer records. -/
def Store : Type := ℕ → Option BufRec

/-- The argument of `CreateUID`: a number, a string, or an existing
`Buffer` (by identity). -/
inductive UIDArg where
  | num (n : ℤ)
  | str (s : List ℕ)
  | buf (id : ℕ)

/-- The marker descriptor `CreateUID` defines:
`{value: true, enumerable: false, configurable: false, writable: false}`. -/
def uidMarkerDesc : PropDesc :=
  { value := true, enumerable := false, writable := false, configurable := false }

/-- `CreateUID`: a number is written big-endian into a fresh buffer of its
`integerByteLength`; a string becomes a fresh buffer of its bytes; a
`Buffer` argument is used *as is*.  In every case the function then
defines the non-enumerable, non-writable, non-configurable
`__isCreateUID` marker on that buffer — for a `Buffer` argument, on the
caller's own buffer, in place — and returns it.  `freshId` is the
identity allocated when a new buffer is created. -/
def CreateUID (arg : UIDArg) (store : Store) (freshId : ℕ) : JsRes (ℕ × Store) :=
  match arg with
  | .num n => do
    let size ← integerByteLength n
    let buf ← writeInteger (List.replicate size 0) n size 0
    return (freshId, fun j =>
      if j = freshId then some { bytes := buf, uidMarker := some uidMarkerDesc } else store j)
  | .str s =>
    .ok (freshId, fun j =>
      if j = freshId then some { bytes := s, uidMarker := some uidMarkerDesc } else store j)
  | .buf id =>
    match store id with
    | none => .error (.modelGap "dangling buffer identity")
    | some rec =>
      .ok (id, fun j =>
        if j = id then some { bytes := rec.bytes, uidMarker := some uidMarkerDesc } else store j)

/-- The value the binary encoder sees for a stored buffer:
`encodeType` sends it to `encodeUID` exactly when `CREATE_UID_MARKER in value`,
i.e. when the marker property exists on it. -/
def pvalOfBuffer (id : ℕ) (rec : BufRec) : PVal :=
  if rec.uidMarker.isSome then .vuid id rec.bytes else .vdata id rec.bytes

/-! ## XML envelope extraction (`plist.service.ts`) -/

/-- JavaScript `\s` on the characters relevant to plist text: space, tab,
newline, carriage return, form feed, vertical tab. -/
def isWs (c : Char) : Bool :=
  c = ' ' || c = '\t' || c = '\n' || c = '\r' || c = '\x0c' || c = '\x0b'

/-- The scan loop of `plist.replace(/>\s+</g, "><")`, fuelled for
structural recursion (the fuel is the input length, which bounds the
number of steps). -/
def stripInterTagWsF : ℕ → List Char → List Char
  | 0, s => s
  | _ + 1, [] => []
  | fuel + 1, c :: rest =>
    if c = '>' ∧ (rest.takeWhile isWs) ≠ [] ∧ (rest.dropWhile isWs).head? = some '<' then
      c :: stripInterTagWsF fuel (rest.dropWhile isWs)
    else
      c :: stripInterTagWsF fuel rest

/-- `plist.replace(/>\s+</g, "><")`: each maximal run of whitespace lying
between a `>` and a `<` is deleted, scanning left to right. -/
def stripInterTagWs (s : List Char) : List Char := stripInterTagWsF s.length s

/-- `String.prototype.trim`. -/
def jsTrim (s : List Char) : List Char :=
  ((s.dropWhile isWs).reverse.dropWhile isWs).reverse

/-- Everything up to (but not including) the first occurrence of `pat`
(the lazy `(.*?)` before a literal), or `none` when `pat` never occurs. -/
def upToFirst (pat : List Char) : List Char → Option (List Char)
  | [] => if pat = [] then some [] else none
  | c :: rest =>
    if pat.isPrefixOf (c :: rest) then some []
    else (upToFirst pat rest).map (c :: ·)

/-- One anchored attempt of `/<plist[^>]*>(.*?)<\/plist>/s` at the head of
`s`: the literal `<plist`, a maximal run of non-`>` characters, a `>`,
then the shortest content followed by `</plist>`. -/
def matchPlistAt (s : List Char) : Option (List Char) :=
  if ("<plist".toList).isPrefixOf s then
    match (s.drop 6).dropWhile (· ≠ '>') with
    | '>' :: body => upToFirst ("</plist>".toList) body
    | _ => none
  else none

/-- The full (leftmost-start) regex search of
`/<plist[^>]*>(.*?)<\/plist>/s`. -/
def matchPlist : List Char → Option (List Char)
  | [] => none
  | c :: rest =>
    match matchPlistAt (c :: rest) with
    | some content => some content
    | none => matchPlist rest

/-- `decodePlistContent`: normalize inter-tag whitespace, trim, and take
the content between the outermost `<plist ...>` and the first matching
`</plist>`; `XMLParsingError` when the regex finds no match. -/
def decodePlistContent (plist : List Char) : JsRes (List Char) :=
  match matchPlist (jsTrim (stripInterTagWs plist)) with
  | none => .error (.xmlParsing "Invalid plist: <plist> tags not found or malformed XML")
  | some content => .ok content

/-- `decodePlist`, parametric in `decodeTags` (the tag-stream decoder the
content is handed to — its behavior is irrelevant to the envelope-error
claims settled here).  The input is a string, so the source's
non-string `typeof` guard does not fire. -/
def decodePlist (decodeTags : List Char → JsRes Pure) (plist : List Char) : JsRes Pure := do
  let content ← decodePlistContent plist
  decodeTags content

/-- Executable substring test: does `pat` occur (contiguously) in `s`? -/
def containsSub (pat : List Char) : List Char → Bool
  | [] => pat.isPrefixOf []
  | c :: rest => pat.isPrefixOf (c :: rest) || containsSub pat rest

/-- The payload bytes `encodeInteger` emits after its header for a value of
width `w`: widths 1/2/4 the unsigned big-endian bytes, width 8 the
two's-complement bytes, width 16 eight zero bytes then the low eight. -/
def intPayload (w : ℕ) (n : ℤ) : List ℕ :=
  if w = 16 then beBytes 8 0 ++ beBytes 8 n.toNat
  else if w = 8 then beBytes 8 ((n % 2 ^ 64).toNat)
  else beBytes w n.toNat

/-! ## Crafted buffers

Small concrete buffers exercising the decoder's corner cases. -/

/-- A binary plist whose magic field is `"XXXXXX"` (six `88` bytes) but
whose version field is the correct `"00"`: one boolean-`true` object at
byte 8, a one-entry offset table `[8]` at byte 9, and a trailer declaring
1 object, reference size 1, table entry size 1, table offset 9. -/
def badMagicBuf : List ℕ :=
  [88, 88, 88, 88, 88, 88] ++ version00 ++ [9] ++ [8] ++ trailerToBuffer 1 9 1 1

/-- A well-formed binary plist whose offset table points the root at byte
9, not 8: byte 8 is a boolean-`true` object, byte 9 a boolean-`false`
object, the one-entry offset table `[9]` sits at byte 10, and the trailer
declares 1 object, reference size 1, entry size 1, table offset 10. -/
def rootAtNineBuf : List ℕ :=
  headerToBuffer ++ [9, 8] ++ [9] ++ trailerToBuffer 1 10 1 1

/-- A minimal well-formed binary plist: a single `null` object at byte 8,
offset table `[8]` at byte 9, trailer with 1 object and table offset 9. -/
def minimalNullBuf : List ℕ :=
  headerToBuffer ++ [0] ++ [8] ++ trailerToBuffer 1 9 1 1

/-! ## Round-trip invariants

The specification layer for claim C1: structural depth, the by-value
versus by-identity keying of the encoder map, and the invariants tying
the encoder state, slot table, chunks and reference lists together. -/

/-- Decoder recursion depth of a value: 1 for a leaf, one more than the
deepest child for containers (dictionary keys decode as depth-1 strings,
so a non-empty dictionary has depth at least 2). -/
def pdepth : PVal → ℕ
  | .varr _ xs => 1 + (xs.attach.map fun z => pdepth z.1).foldr max 0
  | .vset _ xs => 1 + (xs.attach.map fun z => pdepth z.1).foldr max 0
  | .vdict _ kvs => 1 + (kvs.attach.map fun z => max 1 (pdepth z.1.2)).foldr max 0
  | _ => 1
decreasing_by
  · have h := List.sizeOf_lt_of_mem z.2
    simp only [PVal.varr.sizeOf_spec]
    omega
  · have h := List.sizeOf_lt_of_mem z.2
    simp only [PVal.vset.sizeOf_spec]
    omega
  · have h1 := List.sizeOf_lt_of_mem z.2
    have h2 : sizeOf z.1.2 < sizeOf z.1 := by
      rcases z.1 with ⟨a, b⟩
      simp only [Prod.mk.sizeOf_spec]
      omega
    simp only [PVal.vdict.sizeOf_spec]
    omega

/-- The identities of the proper sub-objects of a container (the ids its
children's subtrees carry); empty for every non-container. -/
def subIds : PVal → List ℕ
  | .varr _ xs => (xs.map allIds).flatten
  | .vset _ xs => (xs.map allIds).flatten
  | .vdict _ kvs => (kvs.map fun kv => allIds kv.2).flatten
  | _ => []

/-- The encoder `Map` keys this value by value (SameValueZero), not by
object identity. -/
def byValue : PVal → Bool
  | .vnull | .vbool _ | .vnum _ | .vbig _ | .vstr _ => true
  | _ => false

/-- Key-correctness of the reference map against a slot table: every entry
points inside the table, at a slot holding a value with that key. -/
def MapOK (m : List (MKey × ℕ)) (tbl : List PVal) : Prop :=
  ∀ e ∈ m, e.2 < tbl.length ∧ keyOf (tbl.getD e.2 .vnull) = e.1

/-- A reference-index list resolving, through the slot table, to exactly
the given children. -/
def refsSpec (tbl : List PVal) (children : List PVal) (refs : List ℤ) : Prop :=
  refs.length = children.length ∧
  ∀ k, k < children.length → ∃ r : ℕ, refs.getD k 0 = (r : ℤ) ∧ r < tbl.length ∧
    tbl.getD r .vnull = children.getD k .vnull

/-- The shape of the chunk the encoder emits for a value, relative to a
slot table: primitives carry their self-contained encoding, containers an
`encodeObjects` metadata chunk whose reference indices resolve to their
children. -/
def ChunkSpec (w : ℕ) (tbl : List PVal) : PVal → List ℕ → Prop
  | .vnull, c => c = [0]
  | .vbool true, c => c = [9]
  | .vbool false, c => c = [8]
  | .vnum q, c => encodeNumber q false = .ok c
  | .vbig n, c => encodeNumber (n : ℚ) true = .ok c
  | .vstr s, c => (if s.all (· ≤ 127) then encodeAscii s else encodeUtf16BE s) = .ok c
  | .vdate _ ms, c => encodeDate ms = .ok c
  | .vdata _ bs, c => encodeBuffer bs 4 1 = .ok c
  | .vuid _ bs, c => encodeUID bs = .ok c
  | .varr _ xs, c => ∃ refs, encodeObjects xs.length 0xA refs w = .ok c ∧ refsSpec tbl xs refs
  | .vset _ xs, c => ∃ refs, encodeObjects xs.length 0xC refs w = .ok c ∧ refsSpec tbl xs refs
  | .vdict _ kvs, c => ∃ krefs vrefs,
      encodeObjects kvs.length 0xD (krefs ++ vrefs) w = .ok c ∧
      refsSpec tbl (kvs.map fun kv => .vstr kv.1) krefs ∧
      refsSpec tbl (kvs.map Prod.snd) vrefs

/-- Map-prefix, key-correctness, offset accounting and provenance of the
new object-identity keys after one encoder step extends the state. -/
def NewOK (st st' : EncSt) (tbl2 : List PVal) (domIds : List ℕ) : Prop :=
  st.map <+: st'.map ∧ MapOK st'.map tbl2 ∧ st'.offset = tbl2.length ∧
  (∀ e ∈ st'.map, e ∈ st.map ∨ ∀ id2, e.1 = .kobj id2 → id2 ∈ domIds)

/-- Emitted chunks aligned one-to-one with newly assigned slots. -/
def ChunksAligned (w : ℕ) (tbl2 : List PVal) (vs : List PVal)
    (chunks : List (List ℕ)) : Prop :=
  chunks.length = vs.length ∧
  ∀ j, j < vs.length → ChunkSpec w tbl2 (vs.getD j .vnull) (chunks.getD j [])

/-- The range `writeInteger` accepts for a value at each supported width. -/
def rangeOK (size : ℕ) (v : ℤ) : Prop :=
  if size = 1 then 0 ≤ v ∧ v ≤ 0xFF
  else if size = 2 then 0 ≤ v ∧ v ≤ 0xFFFF
  else if size = 4 then 0 ≤ v ∧ v ≤ 0xFFFFFFFF
  else if size = 8 then -(2 ^ 63) ≤ v ∧ v < 2 ^ 63
  else if size = 16 then 0 ≤ v ∧ v < 2 ^ 64
  else False

/-- Specification of one successful `encodeReference` call. -/
def SpecRef (v : PVal) : Prop :=
  ∀ (st : EncSt) (w : ℕ) (tbl : List PVal) (chunks : List (List ℕ)) (st' : EncSt) (i : ℤ),
    encRef v st w = .ok (chunks, st', i) →
    MapOK st.map tbl → st.offset = tbl.length →
    goodB v = true → (allIds v).Nodup →
    (∀ e ∈ st.map, ∀ id2 ∈ allIds v, e.1 ≠ .kobj id2) →
    ∃ ext, NewOK st st' (tbl ++ ext) (allIds v) ∧
      ChunksAligned w (tbl ++ ext) ext chunks ∧
      (∀ u ∈ ext, goodB u = true) ∧
      ∃ r : ℕ, i = (r : ℤ) ∧ r < (tbl ++ ext).length ∧ (tbl ++ ext).getD r .vnull = v

/-- Specification of one successful `encodeType` call (the caller has
already reserved the value's slot at the end of `tbl ++ [v]`). -/
def SpecTy (v : PVal) : Prop :=
  ∀ (st : EncSt) (w : ℕ) (tbl : List PVal) (chunks : List (List ℕ)) (st' : EncSt),
    encTy v st w = .ok (chunks, st') →
    MapOK st.map (tbl ++ [v]) → st.offset = (tbl ++ [v]).length →
    goodB v = true → (allIds v).Nodup →
    (∀ e ∈ st.map, ∀ id2 ∈ subIds v, e.1 ≠ .kobj id2) →
    ∃ ext, NewOK st st' (tbl ++ [v] ++ ext) (subIds v) ∧
      ChunksAligned w (tbl ++ [v] ++ ext) (v :: ext) chunks ∧
      (∀ u ∈ ext, goodB u = true)

/-- Specification of one successful `encodeArray` element loop. -/
def SpecList (xs : List PVal) : Prop :=
  ∀ (st : EncSt) (w : ℕ) (tbl : List PVal) (chunks : List (List ℕ)) (refs : List ℤ)
      (st' : EncSt),
    encList xs st w = .ok (chunks, refs, st') →
    MapOK st.map tbl → st.offset = tbl.length →
    (∀ x ∈ xs, goodB x = true) → ((xs.map allIds).flatten).Nodup →
    (∀ e ∈ st.map, ∀ id2 ∈ (xs.map allIds).flatten, e.1 ≠ .kobj id2) →
    ∃ ext, NewOK st st' (tbl ++ ext) ((xs.map allIds).flatten) ∧
      ChunksAligned w (tbl ++ ext) ext chunks ∧
      (∀ u ∈ ext, goodB u = true) ∧
      refsSpec (tbl ++ ext) xs refs

/-- Specification of one successful `encodeObject` key/value loop. -/
def SpecPairs (kvs : List (List ℕ × PVal)) : Prop :=
  ∀ (st : EncSt) (w : ℕ) (tbl : List PVal) (chunks : List (List ℕ))
      (krefs vrefs : List ℤ) (st' : EncSt),
    encPairs kvs st w = .ok (chunks, krefs, vrefs, st') →
    MapOK st.map tbl → st.offset = tbl.length →
    (∀ kv ∈ kvs, strGoodB kv.1 = true ∧ goodB kv.2 = true) →
    ((kvs.map fun kv => allIds kv.2).flatten).Nodup →
    (∀ e ∈ st.map, ∀ id2 ∈ (kvs.map fun kv => allIds kv.2).flatten, e.1 ≠ .kobj id2) →
    ∃ ext, NewOK st st' (tbl ++ ext) ((kvs.map fun kv => allIds kv.2).flatten) ∧
      ChunksAligned w (tbl ++ ext) ext chunks ∧
      (∀ u ∈ ext, goodB u = true) ∧
      refsSpec (tbl ++ ext) (kvs.map fun kv => .vstr kv.1) krefs ∧
      refsSpec (tbl ++ ext) (kvs.map Prod.snd) vrefs

/-- The binary encoding of the 8-code-unit string `0x3FF` × 8 ("Ͽ"
repeated): a UTF-16BE chunk whose header info field is the element count 8
but which carries a count integer `0x10 0x08` after the header (inserted
because the 16-byte length exceeds 14), the offset table `[8]`, and a
trailer with one object and table offset 27. -/
def c1Buf : List ℕ :=
  headerToBuffer ++ ([104, 16, 8] ++
    [3, 255, 3, 255, 3, 255, 3, 255, 3, 255, 3, 255, 3, 255, 3, 255]) ++ [8] ++
    trailerToBuffer 1 27 1 1

/-- The binary encoding of the boolean `true`: object byte `9` at byte 8,
offset table `[8]` at byte 9, trailer with one object and table offset 9. -/
def boolTrueBuf : List ℕ := headerToBuffer ++ [9, 8] ++ trailerToBuffer 1 9 1 1

/-! ## Byte-slice lemmas -/

theorem getD_append_middle (pre mid post : List ℕ) (i : ℕ) (h : i < mid.length) :
    (pre ++ mid ++ post).getD (pre.length + i) 0 = mid.getD i 0 := by
  rw [List.append_assoc,
    List.getD_append_right pre (mid ++ post) 0 (pre.length + i) (Nat.le_add_right _ _),
    Nat.add_sub_cancel_left]
  exact List.getD_append mid post 0 i h

theorem slice_middle (pre mid post : List ℕ) (i w : ℕ) (h : i + w ≤ mid.length) :
    ((pre ++ mid ++ post).drop (pre.length + i)).take w = (mid.drop i).take w := by
  rw [List.append_assoc, List.drop_append, List.drop_append_eq_append_drop]
  have hlt : i ≤ mid.length := by omega
  rw [Nat.sub_eq_zero_of_le hlt, List.drop_zero]
  rw [List.take_append_of_le_length]
  simp
  omega

theorem length_middle_ge (pre mid post : List ℕ) (i w : ℕ) (h : i + w ≤ mid.length) :
    pre.length + i + w ≤ (pre ++ mid ++ post).length := by
  simp [List.length_append]
  omega

theorem beBytes_zero (w : ℕ) : beBytes w 0 = List.replicate w 0 := by
  induction w with
  | zero => rfl
  | succ w ih => rw [beBytes, Nat.zero_div, Nat.zero_mod, ih, List.replicate_succ']

theorem bufReadBE_middle (pre mid post : List ℕ) (i w : ℕ) (h : i + w ≤ mid.length) :
    bufReadBE (pre ++ mid ++ post) (pre.length + i) w = .ok (beVal ((mid.drop i).take w)) := by
  rw [bufReadBE, if_pos, slice_middle pre mid post i w h]
  have := length_middle_ge pre mid post i w h
  omega

/-! ## Exact shape of encoded integers -/

theorem integerByteLength_cases (n : ℤ) (w : ℕ) (hw : integerByteLength n = .ok w) :
    (w = 8 ∧ n < 0) ∨
    (w = 1 ∧ 0 ≤ n ∧ n ≤ 0xFF) ∨
    (w = 2 ∧ 0xFF < n ∧ n ≤ 0xFFFF) ∨
    (w = 4 ∧ 0xFFFF < n ∧ n ≤ 0xFFFFFFFF) ∨
    (w = 8 ∧ 0xFFFFFFFF < n ∧ n ≤ 0x7FFFFFFFFFFFFFFF) ∨
    (w = 16 ∧ 0x7FFFFFFFFFFFFFFF < n ∧ n ≤ 0xFFFFFFFFFFFFFFFF) := by
  simp only [integerByteLength] at hw
  split_ifs at hw with h1 h2 h3 h4 h5 h6 <;>
    simp only [Except.ok.injEq] at hw <;> omega

theorem jsbind_ok {α β : Type} (a : α) (f : α → JsRes β) :
    (Except.ok a >>= f : JsRes β) = f a := rfl

theorem jsbind_err {α β : Type} (e : JsErr) (f : α → JsRes β) :
    ((Except.error e : JsRes α) >>= f) = .error e := rfl

theorem jspure {α : Type} (a : α) : (pure a : JsRes α) = .ok a := rfl

theorem packDataHeader_ok (type info : ℤ)
    (h : 0 ≤ type ∧ type ≤ 15 ∧ 0 ≤ info ∧ info ≤ 15) :
    packDataHeader type info = .ok (type * 16 + info).toNat := by
  rw [packDataHeader, if_neg]
  push_neg
  omega

theorem bufWrite_head (w : ℕ) (hdr : ℕ) :
    bufWrite (List.replicate (w + 1) 0) 0 [hdr] = .ok (hdr :: List.replicate w 0) := by
  rw [bufWrite, if_pos]
  · simp [List.replicate_succ]
  · simp

theorem bufWrite_cover (hdr : ℕ) (w : ℕ) (bytes : List ℕ) (h : bytes.length = w) :
    bufWrite (hdr :: List.replicate w 0) 1 bytes = .ok (hdr :: bytes) := by
  rw [bufWrite, if_pos]
  · have hdrop : (hdr :: List.replicate w 0).drop (1 + bytes.length) = [] := by
      apply List.drop_eq_nil_of_le
      simp only [List.length_cons, List.length_replicate]
      omega
    rw [hdrop]
    simp
  · simp only [List.length_cons, List.length_replicate]
    omega

theorem bufWrite_high (hdr : ℕ) (bytes : List ℕ) (h : bytes.length = 8) :
    bufWrite (hdr :: List.replicate 16 0) 9 bytes = .ok (hdr :: (List.replicate 8 0 ++ bytes)) := by
  rw [bufWrite, if_pos]
  · have htake : (hdr :: List.replicate 16 0).take 9 = hdr :: List.replicate 8 0 := by
      simp [List.take_replicate]
    have hdrop : (hdr :: List.replicate 16 0).drop (9 + bytes.length) = [] := by
      apply List.drop_eq_nil_of_le
      simp only [List.length_cons, List.length_replicate]
      omega
    rw [htake, hdrop]
    simp
  · simp only [List.length_cons, List.length_replicate]
    omega

theorem validateSafeInteger_ok (n : ℤ) (nm : String) (h : n ≤ 2 ^ 53 - 1) :
    validateSafeInteger n nm = .ok () := by
  rw [validateSafeInteger, if_neg]
  omega

theorem roundSqrt_zero : roundSqrt 0 = 0 := by
  have hs : Nat.sqrt 0 = 0 := (Nat.eq_sqrt.2 (by omega)).symm
  rw [roundSqrt]
  simp [hs]

theorem roundSqrt_one : roundSqrt 1 = 1 := by
  have hs : Nat.sqrt 1 = 1 := (Nat.eq_sqrt.2 (by omega)).symm
  rw [roundSqrt]
  simp [hs]

theorem roundSqrt_three : roundSqrt 3 = 2 := by
  have hs : Nat.sqrt 3 = 1 := (Nat.eq_sqrt.2 (by omega)).symm
  rw [roundSqrt]
  simp [hs]

theorem roundSqrt_seven : roundSqrt 7 = 3 := by
  have hs : Nat.sqrt 7 = 2 := (Nat.eq_sqrt.2 (by omega)).symm
  rw [roundSqrt]
  simp [hs]

theorem roundSqrt_fifteen : roundSqrt 15 = 4 := by
  have hs : Nat.sqrt 15 = 3 := (Nat.eq_sqrt.2 (by omega)).symm
  rw [roundSqrt]
  simp [hs]

/-- The header info nibble of an encoded integer of width `w`. -/
theorem roundSqrt_width (w : ℕ) (h : w = 1 ∨ w = 2 ∨ w = 4 ∨ w = 8 ∨ w = 16) :
    roundSqrt (w - 1) =
      (if w = 1 then 0 else if w = 2 then 1 else if w = 4 then 2 else if w = 8 then 3 else 4) := by
  rcases h with h | h | h | h | h <;> subst h <;>
    simp [roundSqrt_zero, roundSqrt_one, roundSqrt_three, roundSqrt_seven, roundSqrt_fifteen]

theorem encodeInteger_eq (n : ℤ) (w : ℕ) (type : ℤ) (hw : integerByteLength n = .ok w)
    (ht : 0 ≤ type ∧ type ≤ 15) (h63 : -(2 ^ 63) ≤ n) :
    encodeInteger n type = .ok ((type * 16 + roundSqrt (w - 1)).toNat :: intPayload w n) := by
  have hcases := integerByteLength_cases n w hw
  have hinfo : roundSqrt (w - 1) ≤ 4 := by
    have hwv : w = 1 ∨ w = 2 ∨ w = 4 ∨ w = 8 ∨ w = 16 := by
      rcases hcases with ⟨h1, _⟩ | ⟨h1, _⟩ | ⟨h1, _⟩ | ⟨h1, _⟩ | ⟨h1, _⟩ | ⟨h1, _⟩ <;> omega
    rw [roundSqrt_width w hwv]
    split_ifs <;> omega
  have hpack : packDataHeader type (roundSqrt (w - 1)) =
      .ok (type * 16 + (roundSqrt (w - 1) : ℤ)).toNat :=
    packDataHeader_ok type _ ⟨ht.1, ht.2, by positivity,
      by exact_mod_cast le_trans hinfo (by norm_num)⟩
  have hsafe1 : validateSafeInteger ((1 : ℕ) : ℤ) "Offset" = .ok () :=
    validateSafeInteger_ok _ _ (by norm_num)
  rw [encodeInteger, hw, jsbind_ok, hpack, jsbind_ok, bufWrite_head w _, jsbind_ok]
  rcases hcases with ⟨h1, hr⟩ | ⟨h1, hr⟩ | ⟨h1, hr⟩ | ⟨h1, hr⟩ | ⟨h1, hr⟩ | ⟨h1, hr⟩ <;> subst h1
  · rw [writeInteger, hsafe1, jsbind_ok, if_pos (by omega),
      bufWrite_cover _ 8 _ (beBytes_length 8 _)]
    simp [intPayload]
  · rw [writeInteger, hsafe1, jsbind_ok, if_pos (by omega),
      bufWrite_cover _ 1 _ (beBytes_length 1 _)]
    simp [intPayload]
  · rw [writeInteger, hsafe1, jsbind_ok, if_pos (by omega),
      bufWrite_cover _ 2 _ (beBytes_length 2 _)]
    simp [intPayload]
  · rw [writeInteger, hsafe1, jsbind_ok, if_pos (by omega),
      bufWrite_cover _ 4 _ (beBytes_length 4 _)]
    simp [intPayload]
  · rw [writeInteger, hsafe1, jsbind_ok, if_pos (by omega),
      bufWrite_cover _ 8 _ (beBytes_length 8 _)]
    simp [intPayload]
  · rw [writeInteger, hsafe1, jsbind_ok, if_pos (by omega),
      bufWrite_high _ _ (beBytes_length 8 _)]
    simp [intPayload, beBytes_zero]

theorem intPayload_length (w : ℕ) (n : ℤ) (h : w = 1 ∨ w = 2 ∨ w = 4 ∨ w = 8 ∨ w = 16) :
    (intPayload w n).length = w := by
  rcases h with h | h | h | h | h <;> subst h <;>
    simp [intPayload, beBytes_length]

theorem readInteger_intPayload (pre post : List ℕ) (n : ℤ) (w : ℕ)
    (hw : integerByteLength n = .ok w) (h63 : -(2 ^ 63) ≤ n)
    (hoff : (pre.length : ℤ) ≤ 2 ^ 53 - 1) :
    readInteger (pre ++ intPayload w n ++ post) w pre.length = .ok n := by
  have hcases := integerByteLength_cases n w hw
  have hplen : (intPayload w n).length = w :=
    intPayload_length w n (by rcases hcases with ⟨h, _⟩|⟨h, _⟩|⟨h, _⟩|⟨h, _⟩|⟨h, _⟩|⟨h, _⟩ <;> omega)
  have hsafe : validateSafeInteger ((pre.length : ℕ) : ℤ) "Offset" = .ok () :=
    validateSafeInteger_ok _ _ hoff
  have hread0 : ∀ w2, w2 ≤ w → bufReadBE (pre ++ intPayload w n ++ post) pre.length w2 =
      .ok (beVal ((intPayload w n).take w2)) := by
    intro w2 hle
    have := bufReadBE_middle pre (intPayload w n) post 0 w2 (by omega)
    simpa using this
  rcases hcases with ⟨h1, hr⟩ | ⟨h1, hr⟩ | ⟨h1, hr⟩ | ⟨h1, hr⟩ | ⟨h1, hr⟩ | ⟨h1, hr⟩ <;> subst h1
  · -- width 8, negative value: two's complement read back signed
    rw [readInteger, hsafe, jsbind_ok, hread0 8 (by omega), jsbind_ok]
    have hmod : (n % 2 ^ 64) = n + 2 ^ 64 := by omega
    have htake : List.take 8 (intPayload 8 n) = beBytes 8 ((n % 2 ^ 64).toNat) := by
      rw [List.take_of_length_le (le_of_eq hplen), intPayload]
      norm_num
    rw [htake, beVal_beBytes 8 _ (by omega), if_neg (by omega), jspure]
    congr 1
    omega
  · rw [readInteger, hsafe, jsbind_ok, hread0 1 (by omega), jsbind_ok]
    have htake : List.take 1 (intPayload 1 n) = beBytes 1 n.toNat := by
      rw [List.take_of_length_le (le_of_eq hplen), intPayload]
      norm_num
    rw [htake, beVal_beBytes 1 _ (by omega), jspure]
    congr 1
    omega
  · rw [readInteger, hsafe, jsbind_ok, hread0 2 (by omega), jsbind_ok]
    have htake : List.take 2 (intPayload 2 n) = beBytes 2 n.toNat := by
      rw [List.take_of_length_le (le_of_eq hplen), intPayload]
      norm_num
    rw [htake, beVal_beBytes 2 _ (by omega), jspure]
    congr 1
    omega
  · rw [readInteger, hsafe, jsbind_ok, hread0 4 (by omega), jsbind_ok]
    have htake : List.take 4 (intPayload 4 n) = beBytes 4 n.toNat := by
      rw [List.take_of_length_le (le_of_eq hplen), intPayload]
      norm_num
    rw [htake, beVal_beBytes 4 _ (by omega), jspure]
    congr 1
    omega
  · -- width 8, large positive value
    rw [readInteger, hsafe, jsbind_ok, hread0 8 (by omega), jsbind_ok]
    have hmod : (n % 2 ^ 64) = n := by omega
    have htake : List.take 8 (intPayload 8 n) = beBytes 8 ((n % 2 ^ 64).toNat) := by
      rw [List.take_of_length_le (le_of_eq hplen), intPayload]
      norm_num
    rw [htake, beVal_beBytes 8 _ (by omega), if_pos (by omega), jspure]
    congr 1
    omega
  · -- width 16: the read is from the low half at offset + 8
    rw [readInteger, hsafe, jsbind_ok]
    have hmid := bufReadBE_middle pre (intPayload 16 n) post 8 8 (by omega)
    have hslice : ((intPayload 16 n).drop 8).take 8 = beBytes 8 n.toNat := by
      rw [intPayload, if_pos rfl]
      rw [List.drop_append_of_le_length (by simp [beBytes_length])]
      simp [beBytes_length, List.take_of_length_le]
    rw [hslice] at hmid
    rw [hmid, jsbind_ok, beVal_beBytes 8 _ (by omega)]
    simp only [jspure]
    congr 1
    omega

theorem two_pow_roundSqrt (w : ℕ) (h : w = 1 ∨ w = 2 ∨ w = 4 ∨ w = 8 ∨ w = 16) :
    2 ^ roundSqrt (w - 1) = w := by
  rw [roundSqrt_width w h]
  rcases h with h | h | h | h | h <;> subst h <;> norm_num

theorem decodeInteger_intPayload (pre post : List ℕ) (n : ℤ) (w : ℕ)
    (hw : integerByteLength n = .ok w) (h63 : -(2 ^ 63) ≤ n)
    (hoff : (pre.length : ℤ) ≤ 2 ^ 53 - 1) :
    decodeInteger (pre ++ intPayload w n ++ post) (roundSqrt (w - 1)) pre.length =
      .ok (if w ≤ 4 then .inl n else .inr n) := by
  have hwv : w = 1 ∨ w = 2 ∨ w = 4 ∨ w = 8 ∨ w = 16 := by
    rcases integerByteLength_cases n w hw with ⟨h, _⟩|⟨h, _⟩|⟨h, _⟩|⟨h, _⟩|⟨h, _⟩|⟨h, _⟩ <;> omega
  rw [decodeInteger, two_pow_roundSqrt w hwv,
    readInteger_intPayload pre post n w hw h63 hoff, jsbind_ok]
  split_ifs <;> rfl

/-! ## The double payload reads back exactly -/

theorem readDoubleBE_at (pre post : List ℕ) (d : ℚ) :
    readDoubleBE (pre ++ dblCells d ++ post) pre.length = .ok d := by
  have hlen : pre.length + 8 ≤ (pre ++ dblCells d ++ post).length := by
    have := length_middle_ge pre (dblCells d) post 0 8 (by simp [dblCells])
    omega
  rw [readDoubleBE, if_pos hlen]
  have h0 : (pre ++ dblCells d ++ post).getD (pre.length + 0) 0 = (dblCells d).getD 0 0 :=
    getD_append_middle pre (dblCells d) post 0 (by simp [dblCells])
  have h1 : (pre ++ dblCells d ++ post).getD (pre.length + 1) 0 = (dblCells d).getD 1 0 :=
    getD_append_middle pre (dblCells d) post 1 (by simp [dblCells])
  rw [Nat.add_zero] at h0
  rw [h0, h1]
  simp only [dblCells, List.getD_cons_zero, List.getD_cons_succ]
  rw [unzigzag_zigzag, Rat.mkRat_self]

/-! ## Claim C3: date decoding -/

theorem getUTCSeconds_refdate : getUTCSeconds REFERENCE_DATE = 0 := by
  decide

theorem ratTrunc_intCast (n : ℤ) : ratTrunc ((n : ℚ)) = n := by
  simp [ratTrunc]

theorem decodeDateVal_trunc (d : ℚ) :
    decodeDateVal d = REFERENCE_DATE + ratTrunc d * 1000 := by
  rw [decodeDateVal, getUTCSeconds_refdate, setSecondsFromMinute]
  rw [show d - ((0 : ℤ) : ℚ) = d by push_cast; ring]

theorem decodeDateVal_int (k : ℤ) :
    decodeDateVal ((k : ℚ)) = REFERENCE_DATE + k * 1000 := by
  rw [decodeDateVal_trunc, ratTrunc_intCast]

theorem integerByteLength_ok (n : ℤ) (h0 : 0 ≤ n) (h2 : n ≤ 2 ^ 64 - 1) :
    ∃ w, integerByteLength n = .ok w ∧ (w = 1 ∨ w = 2 ∨ w = 4 ∨ w = 8 ∨ w = 16) := by
  rw [integerByteLength]
  split_ifs with h3 h4 h5 h6 h7 h8
  · exact ⟨8, rfl, by omega⟩
  · exact ⟨1, rfl, by omega⟩
  · exact ⟨2, rfl, by omega⟩
  · exact ⟨4, rfl, by omega⟩
  · exact ⟨8, rfl, by omega⟩
  · exact ⟨16, rfl, by omega⟩
  · omega

theorem encodeInteger_ok (n : ℤ) (type : ℤ) (h0 : 0 ≤ n) (h2 : n ≤ 2 ^ 64 - 1)
    (ht : 0 ≤ type ∧ type ≤ 15) :
    ∃ bytes, encodeInteger n type = .ok bytes := by
  obtain ⟨w, hw, _⟩ := integerByteLength_ok n h0 h2
  exact ⟨_, encodeInteger_eq n w type hw ht (by omega)⟩

theorem encodeUID_head (bs : List ℕ) (h1 : 1 ≤ bs.length) (h2 : (bs.length : ℤ) ≤ 2 ^ 64 - 1) :
    ∃ rest, encodeUID bs = .ok ((128 + min (bs.length - 1) 15) :: rest) := by
  have hp : packDataHeader 8 (min ((bs.length : ℤ) - 1) 15) =
      .ok ((8 : ℤ) * 16 + min ((bs.length : ℤ) - 1) 15).toNat :=
    packDataHeader_ok 8 _ ⟨by norm_num, by norm_num, by omega, by omega⟩
  have hb : ((8 : ℤ) * 16 + min ((bs.length : ℤ) - 1) 15).toNat =
      128 + min (bs.length - 1) 15 := by omega
  rw [encodeUID, hp, jsbind_ok, hb]
  by_cases hlen : bs.length > 14
  · rw [if_pos hlen]
    obtain ⟨ie, hie⟩ := encodeInteger_ok (bs.length : ℤ) 1 (by positivity) h2 (by norm_num)
    rw [hie, jsbind_ok, jspure]
    exact ⟨ie ++ bs, rfl⟩
  · rw [if_neg hlen, jspure]
    exact ⟨bs, rfl⟩

theorem encodeBuffer_head (bs : List ℕ) (type : ℤ) (h2 : (bs.length : ℤ) ≤ 2 ^ 64 - 1)
    (ht : 0 ≤ type ∧ type ≤ 15) :
    ∃ rest, encodeBuffer bs type 1 = .ok ((type.toNat * 16 + min bs.length 15) :: rest) := by
  have hdiv : (bs.length / 1 : ℕ) = bs.length := Nat.div_one _
  have hp : packDataHeader type (min ((bs.length / 1 : ℕ) : ℤ) 15) =
      .ok (type * 16 + min ((bs.length / 1 : ℕ) : ℤ) 15).toNat :=
    packDataHeader_ok type _ ⟨ht.1, ht.2, by positivity, by omega⟩
  have hb : (type * 16 + min ((bs.length / 1 : ℕ) : ℤ) 15).toNat =
      type.toNat * 16 + min bs.length 15 := by
    rw [hdiv]
    omega
  rw [encodeBuffer, hp, jsbind_ok, hb]
  by_cases hlen : bs.length > 14
  · rw [if_pos hlen]
    obtain ⟨ie, hie⟩ := encodeInteger_ok ((bs.length / 1 : ℕ) : ℤ) 1 (by positivity)
      (by rw [hdiv]; exact h2) (by norm_num)
    rw [hie, jsbind_ok, jspure]
    exact ⟨ie ++ bs, rfl⟩
  · rw [if_neg hlen, jspure]
    exact ⟨bs, rfl⟩

/-- C10: `CreateUID` on a `Buffer` returns the very same buffer (the same
identity, not `freshId` or a copy), mutating it in place: its bytes are
unchanged, every other heap entry is untouched, and the hidden
`__isCreateUID` marker is defined on it non-enumerable, non-writable,
non-configurable.  Thereafter the encoder's `encodeType` dispatch sends
that buffer to `encodeUID` (wire type nibble 8) — while the same bytes
unmarked would go to `encodeBuffer` (generic data, wire type nibble 4). -/
theorem claim_C10 (store : Store) (id freshId : ℕ) (rec : BufRec)
    (h : store id = some rec) (hlen : 1 ≤ rec.bytes.length)
    (hlen2 : (rec.bytes.length : ℤ) ≤ 2 ^ 64 - 1) :
    ∃ store2,
      CreateUID (.buf id) store freshId = .ok (id, store2) ∧
      store2 id = some { bytes := rec.bytes, uidMarker := some uidMarkerDesc } ∧
      (∀ j, j ≠ id → store2 j = store j) ∧
      uidMarkerDesc.enumerable = false ∧ uidMarkerDesc.writable = false ∧
      uidMarkerDesc.configurable = false ∧ uidMarkerDesc.value = true ∧
      (∀ st refSize, ∃ hd rest,
        encTy (pvalOfBuffer id { bytes := rec.bytes, uidMarker := some uidMarkerDesc }) st refSize =
          .ok ([hd :: rest], st) ∧ hd / 16 = 8) ∧
      (∀ st refSize, ∃ hd rest,
        encTy (pvalOfBuffer id { bytes := rec.bytes, uidMarker := none }) st refSize =
          .ok ([hd :: rest], st) ∧ hd / 16 = 4) := by
  refine ⟨fun j => if j = id then some { bytes := rec.bytes, uidMarker := some uidMarkerDesc }
      else store j, ?_, ?_, ?_, rfl, rfl, rfl, rfl, ?_, ?_⟩
  · rw [CreateUID, h]
  · simp
  · intro j hj
    simp [hj]
  · intro st refSize
    obtain ⟨rest, hrest⟩ := encodeUID_head rec.bytes hlen hlen2
    refine ⟨128 + min (rec.bytes.length - 1) 15, rest, ?_, by omega⟩
    rw [pvalOfBuffer]
    simp only [Option.isSome_some, if_pos]
    simp only [encTy]
    rw [hrest]
  · intro st refSize
    obtain ⟨rest, hrest⟩ := encodeBuffer_head rec.bytes 4 hlen2 (by norm_num)
    refine ⟨4 * 16 + min rec.bytes.length 15, rest, ?_, by omega⟩
    rw [pvalOfBuffer]
    simp only [Option.isSome_none, Bool.false_eq_true, if_false]
    simp only [encTy]
    have h4 : (4 : ℤ).toNat = 4 := rfl
    rw [h4] at hrest
    rw [hrest]

/-- Witness for C10 at a concrete store holding a 3-byte buffer. -/
theorem claim_C10_witness :
    ∃ store2,
      CreateUID (.buf 7) (fun j => if j = 7 then some ⟨[1, 2, 3], none⟩ else none) 99 =
        .ok (7, store2) ∧
      store2 7 = some { bytes := [1, 2, 3], uidMarker := some uidMarkerDesc } ∧
      (∀ j, j ≠ 7 → store2 j = (fun j => if j = 7 then some ⟨[1, 2, 3], none⟩ else none) j) ∧
      uidMarkerDesc.enumerable = false ∧ uidMarkerDesc.writable = false ∧
      uidMarkerDesc.configurable = false ∧ uidMarkerDesc.value = true ∧
      (∀ st refSize, ∃ hd rest,
        encTy (pvalOfBuffer 7 { bytes := [1, 2, 3], uidMarker := some uidMarkerDesc }) st refSize =
          .ok ([hd :: rest], st) ∧ hd / 16 = 8) ∧
      (∀ st refSize, ∃ hd rest,
        encTy (pvalOfBuffer 7 { bytes := [1, 2, 3], uidMarker := none }) st refSize =
          .ok ([hd :: rest], st) ∧ hd / 16 = 4) :=
  claim_C10 (fun j => if j = 7 then some ⟨[1, 2, 3], none⟩ else none) 7 99 ⟨[1, 2, 3], none⟩
    (by simp) (by simp) (by simp)

/-! ## Claim C9: missing `</plist>` closing tag -/

theorem upToFirst_within (pat : List Char) (s c : List Char) (h : upToFirst pat s = some c) :
    pat <:+: s := by
  induction s generalizing c with
  | nil =>
    rw [upToFirst] at h
    split_ifs at h with hp
    subst hp
    exact List.infix_refl []
  | cons a rest ih =>
    rw [upToFirst] at h
    split_ifs at h with hp
    · exact (List.isPrefixOf_iff_prefix.1 hp).isInfix
    · cases h2 : upToFirst pat rest with
      | none =>
        rw [h2] at h
        cases h
      | some c2 => exact List.infix_cons (ih c2 h2)

theorem matchPlistAt_within (s c : List Char) (h : matchPlistAt s = some c) :
    ("</plist>".toList) <:+: s := by
  rw [matchPlistAt] at h
  split_ifs at h with hp
  split at h
  next body heq =>
    have hbody : body <:+ s := by
      have h1 : '>' :: body <:+ s.drop 6 := heq ▸ List.dropWhile_suffix _
      exact ((List.suffix_cons '>' body).trans h1).trans (List.drop_suffix 6 s)
    exact (upToFirst_within _ _ _ h).trans hbody.isInfix
  next => cases h

theorem matchPlist_within (s c : List Char) (h : matchPlist s = some c) :
    ("</plist>".toList) <:+: s := by
  induction s generalizing c with
  | nil => cases h
  | cons a rest ih =>
    rw [matchPlist] at h
    cases h2 : matchPlistAt (a :: rest) with
    | some c2 => exact matchPlistAt_within _ _ h2
    | none =>
      rw [h2] at h
      exact List.infix_cons (ih c h)

theorem containsSub_of_within (pat s : List Char) (h : pat <:+: s) : containsSub pat s = true := by
  induction s with
  | nil =>
    rw [containsSub]
    have hp : pat = [] := List.eq_nil_of_infix_nil h
    subst hp
    rfl
  | cons a rest ih =>
    rw [containsSub]
    rcases List.infix_cons_iff.1 h with hpre | hinf
    · rw [List.isPrefixOf_iff_prefix.2 hpre]
      rfl
    · rw [ih hinf]
      simp

/-- C9 (amended): on any input whose normalized text contains no
`</plist>` closing tag (whether or not it contains an opening `<plist>`
tag), `decodePlist` always raises — but the error is `XMLParsingError`
("Invalid plist: <plist> tags not found or malformed XML"); the code has
no `FormatError` at all. -/
theorem claim_C9 (decodeTags : List Char → JsRes Pure) (s : List Char)
    (hopen : containsSub ("<plist".toList) s = true)
    (hnoclose : containsSub ("</plist>".toList) (jsTrim (stripInterTagWs s)) = false) :
    decodePlist decodeTags s =
      .error (.xmlParsing "Invalid plist: <plist> tags not found or malformed XML") ∧
    JsErr.name (.xmlParsing "Invalid plist: <plist> tags not found or malformed XML") =
      "XMLParsingError" := by
  refine ⟨?_, rfl⟩
  have hmatch : matchPlist (jsTrim (stripInterTagWs s)) = none := by
    cases h2 : matchPlist (jsTrim (stripInterTagWs s)) with
    | none => rfl
    | some c =>
      rw [containsSub_of_within _ _ (matchPlist_within _ _ h2)] at hnoclose
      cases hnoclose
  rw [decodePlist, decodePlistContent, hmatch]
  rfl

/-- Counterexample to C9 as stated: on `"<plist><dict>"` (an opening
`<plist>` with no closing tag) the decode entry point raises an error
whose JavaScript `name` is `"XMLParsingError"`, not `"FormatError"`. -/
theorem claim_C9_counterexample :
    (∃ e, decodePlist (fun _ => .ok .undef) ("<plist><dict>".toList) = .error e ∧
      e.name = "XMLParsingError" ∧ e.name ≠ "FormatError") :=
  ⟨.xmlParsing "Invalid plist: <plist> tags not found or malformed XML",
    by rfl, by decide, by decide⟩

/-- Witness for the amended C9 theorem at the same concrete input. -/
theorem claim_C9_witness :
    decodePlist (fun _ => .ok .undef) ("<plist><dict>".toList) =
      .error (.xmlParsing "Invalid plist: <plist> tags not found or malformed XML") :=
  (claim_C9 (fun _ => .ok .undef) ("<plist><dict>".toList) (by decide) (by decide)).1

/-- C2: the header check of `decodeBinary` is broken and its error is not a
`FormatError`.  The source tests `magic !== "bplist" && version !== "00"`,
so a buffer whose magic is wrong but whose version is `"00"` is accepted
and its root object is decoded; when both fields mismatch, the thrown
error is a plain `Error` (the codebase has no `FormatError` class). -/
theorem claim_C2 :
    (headerToObject badMagicBuf).1 ≠ magicBplist ∧
    decodeBinaryF 2 badMagicBuf = .ok (.bool true) ∧
    decodeBinaryF 2 [88, 88, 88, 88, 88, 88, 89, 89] =
      .error (.jsError "Expected magic bplist and version 00, but received something else.") ∧
    JsErr.name (.jsError "Expected magic bplist and version 00, but received something else.") ≠
      "FormatError" :=
  ⟨by decide, by rfl, by rfl, by decide⟩

/-- C4: the UID round trip breaks at length 15 and at length 16.
Length 1 round-trips.  For a 15-byte UID the encoder emits header info 14
plus a length-integer object (`encodeUID` inserts it when `length > 0xE`),
but the decoder sees info 14 ≤ 0xE and slices 15 bytes straight after the
header, returning the length-integer bytes plus a truncated payload.  For
a 16-byte UID (info 15) the decoder takes the extended-length path but
reads the integer header at `offset + 1` — one byte late, inside the
length integer itself — and returns a 1-byte garbage slice. -/
theorem claim_C4 :
    (encodeUID [171] = .ok [128, 171] ∧ decodeUID [128, 171] 0 1 = .ok [171]) ∧
    (encodeUID [1, 2, 3, 4, 5, 6, 7, 8, 9, 10, 11, 12, 13, 14, 15] =
      .ok [142, 16, 15, 1, 2, 3, 4, 5, 6, 7, 8, 9, 10, 11, 12, 13, 14, 15] ∧
     decodeUID [142, 16, 15, 1, 2, 3, 4, 5, 6, 7, 8, 9, 10, 11, 12, 13, 14, 15] 14 1 =
      .ok [16, 15, 1, 2, 3, 4, 5, 6, 7, 8, 9, 10, 11, 12, 13] ∧
     [16, 15, 1, 2, 3, 4, 5, 6, 7, 8, 9, 10, 11, 12, 13] ≠
      [1, 2, 3, 4, 5, 6, 7, 8, 9, 10, 11, 12, 13, 14, 15]) ∧
    (encodeUID [1, 2, 3, 4, 5, 6, 7, 8, 9, 10, 11, 12, 13, 14, 15, 16] =
      .ok [143, 16, 16, 1, 2, 3, 4, 5, 6, 7, 8, 9, 10, 11, 12, 13, 14, 15, 16] ∧
     decodeUID [143, 16, 16, 1, 2, 3, 4, 5, 6, 7, 8, 9, 10, 11, 12, 13, 14, 15, 16] 15 1 =
      .ok [1] ∧
     ([1] : List ℕ) ≠ [1, 2, 3, 4, 5, 6, 7, 8, 9, 10, 11, 12, 13, 14, 15, 16]) :=
  ⟨⟨rfl, rfl⟩, ⟨rfl, rfl, by decide⟩, ⟨rfl, rfl, by decide⟩⟩

/-- C5: the length-prefixed string encoder and decoder disagree for UTF-16
strings of 8–14 code units.  `encodeBuffer` inserts the element-count
integer when the *byte* length exceeds 14 (here 16 bytes for 8 units)
while the header info is the element count 8; the decoder sees info
8 ≤ 0xE, takes the inline path, and reads the count-integer bytes as
character data.  An 8-unit string of `'Ͽ'` decodes to different code
units; a 7-unit string (14 bytes, no inserted count) round-trips. -/
theorem claim_C5 :
    (encodeUtf16BE (List.replicate 8 1023) =
      .ok ([104, 16, 8] ++ [3, 255, 3, 255, 3, 255, 3, 255, 3, 255, 3, 255, 3, 255, 3, 255]) ∧
     decodeUtf16BE ([104, 16, 8] ++ [3, 255, 3, 255, 3, 255, 3, 255, 3, 255, 3, 255, 3, 255, 3, 255])
        ((unpackDataHeader 104).info) 1 =
      .ok [4104, 1023, 1023, 1023, 1023, 1023, 1023, 1023] ∧
     ([4104, 1023, 1023, 1023, 1023, 1023, 1023, 1023] : List ℕ) ≠ List.replicate 8 1023) ∧
    (encodeUtf16BE (List.replicate 7 1023) =
      .ok ([103] ++ [3, 255, 3, 255, 3, 255, 3, 255, 3, 255, 3, 255, 3, 255]) ∧
     decodeUtf16BE ([103] ++ [3, 255, 3, 255, 3, 255, 3, 255, 3, 255, 3, 255, 3, 255])
        ((unpackDataHeader 103).info) 1 = .ok (List.replicate 7 1023)) :=
  ⟨⟨rfl, rfl, by decide⟩, ⟨rfl, rfl⟩⟩

/-- C8 (amended): an unsupported *type nibble* (7, 9, 11, 14 or 15) makes
`decodeType` raise `BinaryParsingError("Unsupported type")`, but an
unsupported *info* under type nibble 0 (anything other than null/true/
false) does not raise: it silently returns `undefined`, which is not a
value of the plist model. -/
theorem claim_C8 (b : ℕ) :
    ((unpackDataHeader b).type = 7 ∨ (unpackDataHeader b).type = 9 ∨
     (unpackDataHeader b).type = 11 ∨ (unpackDataHeader b).type = 14 ∨
     (unpackDataHeader b).type = 15 →
      decodeTypeF 1 [b] 0 [] 1 = .error (.binaryParsing "Unsupported type")) ∧
    ((unpackDataHeader b).type = 0 → (unpackDataHeader b).info ≠ 0 →
     (unpackDataHeader b).info ≠ 8 → (unpackDataHeader b).info ≠ 9 →
      decodeTypeF 1 [b] 0 [] 1 = .ok .undef) := by
  constructor
  · intro h
    rcases h with h | h | h | h | h <;>
      · simp only [decodeTypeF, List.getD_cons_zero, h]
  · intro h0 h1 h8 h9
    simp only [decodeTypeF, List.getD_cons_zero, h0]
    rw [if_neg h1, if_neg h9, if_neg h8]

/-- Counterexample to C8 as stated: the header byte `0x0F` (type 0, info
15) makes `decodeType` return `undefined` — no `BinaryParsingError`, and
`undefined` is not a plist value. -/
theorem claim_C8_counterexample : decodeTypeF 1 [15] 0 [] 1 = .ok .undef := by rfl

/-- Witness for the amended C8 theorem: header byte `0x7F` (type nibble 7)
raises, header byte `0x0F` (type 0, info 15) yields `undefined`. -/
theorem claim_C8_witness :
    decodeTypeF 1 [127] 0 [] 1 = .error (.binaryParsing "Unsupported type") ∧
    decodeTypeF 1 [15] 0 [] 1 = .ok .undef :=
  ⟨(claim_C8 127).1 (.inl (by decide)),
   (claim_C8 15).2 (by decide) (by decide) (by decide) (by decide)⟩

/-- C6 (amended): after the trailer and the offset table are read, the
root is decoded at the *fixed* byte position `headerStruct.size = 8` —
`decodeType(data, headerStruct.size, offsetsTable, ...)` in the source —
not at `offsets[0]`. -/
theorem claim_C6 (fuel : ℕ) (data : List ℕ) (tr : Trailer) (offsets : List ℤ)
    (hmag : (headerToObject data).1 = magicBplist ∨ (headerToObject data).2 = version00)
    (htr : trailerToObject (data.drop (data.length - trailerSize)) = .ok tr)
    (hoff : unpackOffsetTable data tr = .ok offsets) :
    decodeBinaryF fuel data =
      decodeTypeF fuel data headerSize offsets tr.objectReferenceSize := by
  unfold decodeBinaryF
  rw [if_neg]
  · rw [htr, jsbind_ok, hoff, jsbind_ok]
  · rintro ⟨c1, c2⟩
    rcases hmag with h | h
    · exact c1 h
    · exact c2 h

/-- Counterexample to C6 as stated: a valid file whose offset-table entry
for the root is 9, with `false` encoded at byte 9 and `true` at byte 8.
Decoding at `offsets[0]` would give `false`; `decodeBinary` returns
`true`, because it decodes at the fixed position 8. -/
theorem claim_C6_counterexample :
    trailerToObject (rootAtNineBuf.drop (rootAtNineBuf.length - trailerSize)) =
      .ok ⟨0, 1, 1, 1, 0, 10⟩ ∧
    unpackOffsetTable rootAtNineBuf ⟨0, 1, 1, 1, 0, 10⟩ = .ok [9] ∧
    decodeTypeF 10 rootAtNineBuf 9 [9] 1 = .ok (.bool false) ∧
    decodeBinaryF 10 rootAtNineBuf = .ok (.bool true) ∧
    Pure.bool true ≠ Pure.bool false :=
  ⟨by rfl, by rfl, by rfl, by rfl, by simp⟩

/-- Witness for the amended C6 theorem on the minimal single-`null` file. -/
theorem claim_C6_witness :
    decodeBinaryF 1 minimalNullBuf = decodeTypeF 1 minimalNullBuf headerSize [8] 1 :=
  claim_C6 1 minimalNullBuf ⟨0, 1, 1, 1, 0, 9⟩ [8] (Or.inl (by rfl)) (by rfl) (by rfl)

/-- C7: deduplication.  First, generally: whenever the reference map
already holds an index for a value's key, `encodeReference` emits no
chunks, leaves the state untouched, and returns the already-assigned
index.  Second, concretely: encoding a dictionary in which the string
`"a"` occurs twice — as the key and as the value of its one property —
produces exactly one chunk for that string (`encodeAscii "a" = [81, 97]`),
both reference slots of the object metadata chunk `[209, 1, 1]` hold the
same index 1, and the final reference map holds exactly one entry for the
string. -/
theorem claim_C7 :
    (∀ (v : PVal) (st : EncSt) (refSize : ℕ) (idx : ℕ),
        alookup (keyOf v) st.map = some idx →
        encRef v st refSize = .ok ([], st, (idx : ℤ))) ∧
    encTy (.vdict 7 [([97], .vstr [97])]) ⟨[], 1⟩ 1 =
      .ok ([[209, 1, 1], [81, 97]], ⟨[(.kstr [97], 1)], 2⟩) := by
  constructor
  · intro v st refSize idx h
    simp only [encRef, h]
  · simp only [encTy, encPairs, encRef, encList, alookup, keyOf]
    rfl

/-- Witness for C7's general deduplication clause: a `null` already mapped
to index 5 re-encodes to no chunks and the same index. -/
theorem claim_C7_witness :
    encRef .vnull ⟨[(.knull, 5)], 9⟩ 1 = .ok ([], ⟨[(.knull, 5)], 9⟩, (5 : ℤ)) :=
  claim_C7.1 .vnull ⟨[(.knull, 5)], 9⟩ 1 5 (by rfl)


/-! ## Claim C1: the binary round trip on the well-behaved fragment -/

-- basic lemmas
theorem le_foldr_max (l : List ℕ) (a : ℕ) (h : a ∈ l) : a ≤ l.foldr max 0 := by
  induction l with
  | nil => cases h
  | cons b rest ih =>
    rcases List.mem_cons.1 h with h1 | h1
    · subst h1
      exact le_max_left _ _
    · exact le_trans (ih h1) (le_max_right _ _)

theorem pdepth_varr (id : ℕ) (xs : List PVal) :
    pdepth (.varr id xs) = 1 + (xs.map pdepth).foldr max 0 := by
  rw [pdepth]
  congr 1
  exact congrArg (List.foldr max 0) (List.attach_map_coe xs pdepth)

theorem pdepth_vset (id : ℕ) (xs : List PVal) :
    pdepth (.vset id xs) = 1 + (xs.map pdepth).foldr max 0 := by
  rw [pdepth]
  congr 1
  exact congrArg (List.foldr max 0) (List.attach_map_coe xs pdepth)

theorem pdepth_vdict (id : ℕ) (kvs : List (List ℕ × PVal)) :
    pdepth (.vdict id kvs) = 1 + (kvs.map fun kv => max 1 (pdepth kv.2)).foldr max 0 := by
  rw [pdepth]
  congr 1
  exact congrArg (List.foldr max 0) (List.attach_map_coe kvs fun kv => max 1 (pdepth kv.2))

theorem pdepth_pos (v : PVal) : 1 ≤ pdepth v := by
  cases v <;> first
    | simp [pdepth]
    | (rw [pdepth_varr]; omega)
    | (rw [pdepth_vset]; omega)
    | (rw [pdepth_vdict]; omega)

theorem pdepth_lt_varr (id : ℕ) (xs : List PVal) (x : PVal) (h : x ∈ xs) :
    pdepth x < pdepth (.varr id xs) := by
  rw [pdepth_varr]
  have := le_foldr_max (xs.map pdepth) (pdepth x) (List.mem_map_of_mem pdepth h)
  omega

theorem pdepth_lt_vset (id : ℕ) (xs : List PVal) (x : PVal) (h : x ∈ xs) :
    pdepth x < pdepth (.vset id xs) := by
  rw [pdepth_vset]
  have := le_foldr_max (xs.map pdepth) (pdepth x) (List.mem_map_of_mem pdepth h)
  omega

theorem pdepth_lt_vdict (id : ℕ) (kvs : List (List ℕ × PVal)) (kv : List ℕ × PVal)
    (h : kv ∈ kvs) : pdepth kv.2 < pdepth (.vdict id kvs) ∧ 1 < pdepth (.vdict id kvs) := by
  rw [pdepth_vdict]
  have := le_foldr_max (kvs.map fun kv => max 1 (pdepth kv.2)) (max 1 (pdepth kv.2))
    (List.mem_map_of_mem _ h)
  omega

theorem keyOf_byValue_inj (u r : PVal) (hb : byValue u = true) (hk : keyOf r = keyOf u) :
    r = u := by
  cases u <;> simp only [byValue] at hb <;> cases r <;> simp_all [keyOf]

theorem alookup_mem (k : MKey) (m : List (MKey × ℕ)) (i : ℕ) (h : alookup k m = some i) :
    (k, i) ∈ m := by
  induction m with
  | nil => cases h
  | cons e rest ih =>
    rw [alookup] at h
    split_ifs at h with he
    · cases h
      subst he
      exact List.mem_cons_self _ _
    · exact List.mem_cons_of_mem _ (ih h)

theorem MapOK_append (m : List (MKey × ℕ)) (tbl ext : List PVal) (h : MapOK m tbl) :
    MapOK m (tbl ++ ext) := by
  intro e he
  obtain ⟨h1, h2⟩ := h e he
  refine ⟨by simp; omega, ?_⟩
  rw [List.getD_append _ _ _ _ h1]
  exact h2

theorem refsSpec_append (tbl ext children : List PVal) (refs : List ℤ)
    (h : refsSpec tbl children refs) : refsSpec (tbl ++ ext) children refs := by
  obtain ⟨h1, h2⟩ := h
  refine ⟨h1, fun k hk => ?_⟩
  obtain ⟨r, hr1, hr2, hr3⟩ := h2 k hk
  exact ⟨r, hr1, by simp; omega, by rw [List.getD_append _ _ _ _ hr2]; exact hr3⟩

theorem ChunkSpec_append (w : ℕ) (tbl ext : List PVal) (u : PVal) (c : List ℕ)
    (h : ChunkSpec w tbl u c) : ChunkSpec w (tbl ++ ext) u c := by
  cases u with
  | varr id xs =>
    obtain ⟨refs, h1, h2⟩ := h
    exact ⟨refs, h1, refsSpec_append tbl ext xs refs h2⟩
  | vset id xs =>
    obtain ⟨refs, h1, h2⟩ := h
    exact ⟨refs, h1, refsSpec_append tbl ext xs refs h2⟩
  | vdict id kvs =>
    obtain ⟨krefs, vrefs, h1, h2, h3⟩ := h
    exact ⟨krefs, vrefs, h1, refsSpec_append tbl ext _ krefs h2,
      refsSpec_append tbl ext _ vrefs h3⟩
  | vbool b => cases b <;> exact h
  | _ => exact h

theorem allIds_varr (id : ℕ) (xs : List PVal) :
    allIds (.varr id xs) = id :: subIds (.varr id xs) := by
  rw [allIds, subIds]
  congr 1
  exact congrArg List.flatten (List.attach_map_coe xs allIds)

theorem allIds_vset (id : ℕ) (xs : List PVal) :
    allIds (.vset id xs) = id :: subIds (.vset id xs) := by
  rw [allIds, subIds]
  congr 1
  exact congrArg List.flatten (List.attach_map_coe xs allIds)

theorem allIds_vdict (id : ℕ) (kvs : List (List ℕ × PVal)) :
    allIds (.vdict id kvs) = id :: subIds (.vdict id kvs) := by
  rw [allIds, subIds]
  congr 1
  exact congrArg List.flatten (List.attach_map_coe kvs fun kv => allIds kv.2)

theorem rangeOK_sizes (size : ℕ) (v : ℤ) (h : rangeOK size v) :
    size = 1 ∨ size = 2 ∨ size = 4 ∨ size = 8 ∨ size = 16 := by
  rw [rangeOK] at h
  split_ifs at h <;> tauto

theorem bufWrite_at (done mid tail bytes : List ℕ) (h : bytes.length = mid.length) :
    bufWrite (done ++ (mid ++ tail)) done.length bytes = .ok (done ++ (bytes ++ tail)) := by
  rw [bufWrite, if_pos (by simp; omega)]
  have htake : (done ++ (mid ++ tail)).take done.length = done := by
    rw [← List.append_assoc, List.take_append_of_le_length (by simp)]
    simp
  have hdrop : (done ++ (mid ++ tail)).drop (done.length + bytes.length) = tail := by
    rw [h, ← List.append_assoc]
    have h2 : done.length + mid.length = (done ++ mid).length := by simp
    rw [h2, List.drop_left]
  rw [htake, hdrop]
  simp

theorem bufWrite_at2 (done mid1 mid2 tail bytes : List ℕ) (h : bytes.length = mid2.length) :
    bufWrite (done ++ (mid1 ++ (mid2 ++ tail))) (done.length + mid1.length) bytes =
      .ok (done ++ (mid1 ++ (bytes ++ tail))) := by
  have h2 := bufWrite_at (done ++ mid1) mid2 tail bytes h
  rw [List.length_append] at h2
  simpa [List.append_assoc] using h2

theorem writeInteger_slot (done tail : List ℕ) (v : ℤ) (size : ℕ) (buf2 : List ℕ)
    (h : writeInteger (done ++ (List.replicate size 0 ++ tail)) v size done.length = .ok buf2) :
    rangeOK size v ∧ buf2 = done ++ (intPayload size v ++ tail) := by
  rw [writeInteger.eq_def] at h
  by_cases hval : ((done.length : ℤ)) > 2 ^ 53 - 1
  · rw [validateSafeInteger, if_pos hval] at h
    simp only [jsbind_err] at h
    cases h
  · rw [validateSafeInteger, if_neg hval] at h
    simp only [jsbind_ok] at h
    split at h
    · -- size 1
      split_ifs at h with hr
      · rw [bufWrite_at done _ tail _ (by simp [beBytes_length])] at h
        cases h
        exact ⟨by simp [rangeOK]; omega, by simp [intPayload]⟩
    · -- size 2
      split_ifs at h with hr
      · rw [bufWrite_at done _ tail _ (by simp [beBytes_length])] at h
        cases h
        exact ⟨by simp [rangeOK]; omega, by simp [intPayload]⟩
    · -- size 4
      split_ifs at h with hr
      · rw [bufWrite_at done _ tail _ (by simp [beBytes_length])] at h
        cases h
        exact ⟨by simp [rangeOK]; omega, by simp [intPayload]⟩
    · -- size 8
      split_ifs at h with hr
      · rw [bufWrite_at done _ tail _ (by simp [beBytes_length])] at h
        cases h
        exact ⟨by simp [rangeOK]; omega, by simp [intPayload]⟩
    · -- size 16
      split_ifs at h with hr
      · have hrep : List.replicate 16 (0 : ℕ) = List.replicate 8 0 ++ List.replicate 8 0 := by
          rw [← List.replicate_add]
        rw [hrep, List.append_assoc,
          show done.length + 8 = done.length + (List.replicate 8 (0 : ℕ)).length by simp,
          bufWrite_at2 done _ _ tail _ (by simp [beBytes_length])] at h
        cases h
        refine ⟨by simp [rangeOK]; omega, ?_⟩
        rw [intPayload, if_pos rfl, beBytes_zero]
        simp
    · cases h

theorem writeSlots_spec (vs : List ℤ) : ∀ (done : List ℕ) (size index : ℕ) (out : List ℕ),
    done.length = index * size →
    writeSlots (done ++ List.replicate (vs.length * size) 0) vs size index = .ok out →
    out = done ++ (vs.map fun v => intPayload size v).flatten ∧ ∀ v ∈ vs, rangeOK size v := by
  induction vs with
  | nil =>
    intro done size index out hlen h
    rw [writeSlots] at h
    simp only [List.length_nil, Nat.zero_mul, List.replicate_zero, List.append_nil] at h
    cases h
    simp
  | cons v rest ih =>
    intro done size index out hlen h
    rw [writeSlots] at h
    have hrep : List.replicate ((v :: rest).length * size) (0 : ℕ) =
        List.replicate size 0 ++ List.replicate (rest.length * size) 0 := by
      rw [← List.replicate_add]
      congr 1
      simp [Nat.succ_mul, Nat.add_comm]
    rw [hrep] at h
    cases hw : writeInteger
        (done ++ (List.replicate size 0 ++ List.replicate (rest.length * size) 0))
        v size (index * size) with
    | error e =>
      rw [hw] at h
      simp only [jsbind_err] at h
      cases h
    | ok buf2 =>
      rw [hw] at h
      simp only [jsbind_ok] at h
      rw [← hlen] at hw
      obtain ⟨hr, hbuf2⟩ := writeInteger_slot done _ v size buf2 hw
      have hlen2 : (done ++ intPayload size v).length = (index + 1) * size := by
        have hsz := rangeOK_sizes size v hr
        rw [List.length_append, intPayload_length size v hsz, hlen]
        ring
      rw [hbuf2, show done ++ (intPayload size v ++ List.replicate (rest.length * size) 0) =
        (done ++ intPayload size v) ++ List.replicate (rest.length * size) 0 by
          rw [List.append_assoc]] at h
      obtain ⟨hout, hrest⟩ := ih (done ++ intPayload size v) size (index + 1) out hlen2 h
      refine ⟨?_, ?_⟩
      · rw [hout]
        simp
      · intro x hx
        rcases List.mem_cons.1 hx with h1 | h1
        · subst h1
          exact hr
        · exact hrest x h1

theorem readInteger_rangeOK (pre post : List ℕ) (v : ℤ) (size : ℕ) (hr : rangeOK size v)
    (hoff : (pre.length : ℤ) ≤ 2 ^ 53 - 1) :
    readInteger (pre ++ intPayload size v ++ post) size pre.length = .ok v := by
  have hsz := rangeOK_sizes size v hr
  have hplen : (intPayload size v).length = size := intPayload_length size v hsz
  have hsafe : validateSafeInteger ((pre.length : ℕ) : ℤ) "Offset" = .ok () :=
    validateSafeInteger_ok _ _ hoff
  have hread0 : ∀ w2, w2 ≤ size → bufReadBE (pre ++ intPayload size v ++ post) pre.length w2 =
      .ok (beVal ((intPayload size v).take w2)) := by
    intro w2 hle
    have := bufReadBE_middle pre (intPayload size v) post 0 w2 (by omega)
    simpa using this
  rcases hsz with h1 | h1 | h1 | h1 | h1 <;> subst h1 <;> norm_num [rangeOK] at hr
  · rw [readInteger, hsafe, jsbind_ok, hread0 1 (by omega), jsbind_ok]
    have htake : List.take 1 (intPayload 1 v) = beBytes 1 v.toNat := by
      rw [List.take_of_length_le (le_of_eq hplen), intPayload]
      norm_num
    rw [htake, beVal_beBytes 1 _ (by omega), jspure]
    congr 1
    omega
  · rw [readInteger, hsafe, jsbind_ok, hread0 2 (by omega), jsbind_ok]
    have htake : List.take 2 (intPayload 2 v) = beBytes 2 v.toNat := by
      rw [List.take_of_length_le (le_of_eq hplen), intPayload]
      norm_num
    rw [htake, beVal_beBytes 2 _ (by omega), jspure]
    congr 1
    omega
  · rw [readInteger, hsafe, jsbind_ok, hread0 4 (by omega), jsbind_ok]
    have htake : List.take 4 (intPayload 4 v) = beBytes 4 v.toNat := by
      rw [List.take_of_length_le (le_of_eq hplen), intPayload]
      norm_num
    rw [htake, beVal_beBytes 4 _ (by omega), jspure]
    congr 1
    omega
  · rw [readInteger, hsafe, jsbind_ok, hread0 8 (by omega), jsbind_ok]
    have htake : List.take 8 (intPayload 8 v) = beBytes 8 ((v % 2 ^ 64).toNat) := by
      rw [List.take_of_length_le (le_of_eq hplen), intPayload]
      norm_num
    rw [htake, beVal_beBytes 8 _ (by omega)]
    by_cases hv : 0 ≤ v
    · have hmod : v % 2 ^ 64 = v := by omega
      rw [if_pos (by omega), jspure]
      congr 1
      omega
    · have hmod : v % 2 ^ 64 = v + 2 ^ 64 := by omega
      rw [if_neg (by omega), jspure]
      congr 1
      omega
  · rw [readInteger, hsafe, jsbind_ok]
    have hmid := bufReadBE_middle pre (intPayload 16 v) post 8 8 (by omega)
    have hslice : ((intPayload 16 v).drop 8).take 8 = beBytes 8 v.toNat := by
      rw [intPayload, if_pos rfl]
      rw [List.drop_append_of_le_length (by simp [beBytes_length])]
      simp [beBytes_length, List.take_of_length_le]
    rw [hslice] at hmid
    rw [hmid, jsbind_ok, beVal_beBytes 8 _ (by omega)]
    simp only [jspure]
    congr 1
    omega

theorem slots_readback (vs : List ℤ) : ∀ (size : ℕ) (pre post : List ℕ) (k : ℕ),
    k < vs.length → (∀ v ∈ vs, rangeOK size v) →
    ((pre.length + k * size : ℕ) : ℤ) ≤ 2 ^ 53 - 1 →
    readInteger (pre ++ (vs.map fun v => intPayload size v).flatten ++ post) size
      (pre.length + k * size) = .ok (vs.getD k 0) := by
  induction vs with
  | nil =>
    intro size pre post k hk
    simp at hk
  | cons v rest ih =>
    intro size pre post k hk hall hoff
    have hr : rangeOK size v := hall v (List.mem_cons_self _ _)
    have hsz := rangeOK_sizes size v hr
    have hplen : (intPayload size v).length = size := intPayload_length size v hsz
    cases k with
    | zero =>
      have hregroup : pre ++ (List.map (fun v => intPayload size v) (v :: rest)).flatten ++ post =
          pre ++ intPayload size v ++ ((List.map (fun v => intPayload size v) rest).flatten ++ post) := by
        simp
      rw [hregroup]
      have := readInteger_rangeOK pre ((List.map (fun v => intPayload size v) rest).flatten ++ post)
        v size hr (by push_cast at hoff ⊢; omega)
      simpa using this
    | succ k =>
      have hregroup : pre ++ (List.map (fun v => intPayload size v) (v :: rest)).flatten ++ post =
          (pre ++ intPayload size v) ++ (List.map (fun v => intPayload size v) rest).flatten ++ post := by
        simp
      rw [hregroup]
      have hlen2 : pre.length + (k + 1) * size = (pre ++ intPayload size v).length + k * size := by
        rw [List.length_append, hplen]
        ring
      rw [hlen2]
      exact ih size (pre ++ intPayload size v) post k (by simpa using hk)
        (fun x hx => hall x (List.mem_cons_of_mem _ hx))
        (by rw [← hlen2]; push_cast at hoff ⊢; omega)

theorem readSlots_spec (data : List ℕ) (size start : ℕ) (vals : List ℤ) :
    ∀ (n i : ℕ), i + n ≤ vals.length →
    (∀ k, i ≤ k → k < i + n → readInteger data size (start + size * k) = .ok (vals.getD k 0)) →
    unpackOffsetTable.readSlots data size start n i = .ok ((vals.drop i).take n) := by
  intro n
  induction n with
  | zero =>
    intro i hle hread
    rw [unpackOffsetTable.readSlots]
    simp
  | succ n ih =>
    intro i hle hread
    rw [unpackOffsetTable.readSlots]
    rw [hread i (le_refl i) (by omega), jsbind_ok]
    rw [ih (i + 1) (by omega) (fun k h1 h2 => hread k (by omega) (by omega)), jsbind_ok, jspure]
    have hi : i < vals.length := by omega
    rw [List.drop_eq_getElem_cons hi]
    rw [List.take_succ_cons]
    rw [List.getD_eq_getElem vals 0 hi]

theorem utf16beBytes_length (s : List ℕ) : (utf16beBytes s).length = 2 * s.length := by
  induction s with
  | nil => rfl
  | cons u rest ih =>
    rw [utf16beBytes] at ih ⊢
    rw [List.flatMap_cons]
    simp only [List.length_append, ih, List.length_cons, List.length_nil]
    omega

theorem utf16beUnits_roundtrip (s : List ℕ) (h : ∀ u ∈ s, u < 65536) :
    utf16beUnits (utf16beBytes s) = .ok s := by
  induction s with
  | nil => rfl
  | cons u rest ih =>
    have hstep : utf16beBytes (u :: rest) =
        u / 256 % 256 :: u % 256 :: utf16beBytes rest := rfl
    rw [hstep, utf16beUnits]
    rw [ih (fun x hx => h x (List.mem_cons_of_mem _ hx)), jsbind_ok, jspure]
    have hu : u < 65536 := h u (List.mem_cons_self _ _)
    have hv : u / 256 % 256 * 256 + u % 256 = u := by omega
    rw [hv]

theorem encodeObjects_shape (len : ℕ) (type : ℤ) (refs : List ℤ) (w : ℕ) (c : List ℕ)
    (ht : 0 ≤ type ∧ type ≤ 15)
    (h : encodeObjects len type refs w = .ok c) :
    ∃ block, block = (refs.map fun v => intPayload w v).flatten ∧ (∀ v ∈ refs, rangeOK w v) ∧
      ((len ≤ 14 ∧ c = (type.toNat * 16 + len) :: block) ∨
       (14 < len ∧ ∃ ie, encodeInteger (len : ℤ) 1 = .ok ie ∧
          c = (type.toNat * 16 + 15) :: (ie ++ block))) := by
  rw [encodeObjects] at h
  cases hwb : writeIndexBlock refs w with
  | error e =>
    rw [hwb, jsbind_err] at h
    cases h
  | ok block =>
    rw [hwb, jsbind_ok] at h
    rw [writeIndexBlock] at hwb
    have hws := writeSlots_spec refs [] w 0 block (by simp) (by simpa using hwb)
    simp only [List.nil_append] at hws
    obtain ⟨hblock, hranges⟩ := hws
    have hpack : packDataHeader type (min (len : ℤ) 15) =
        .ok (type * 16 + min (len : ℤ) 15).toNat :=
      packDataHeader_ok type _ ⟨ht.1, ht.2, by positivity, by omega⟩
    rw [hpack, jsbind_ok] at h
    refine ⟨block, hblock, hranges, ?_⟩
    by_cases hlen : len > 14
    · rw [if_pos hlen] at h
      cases hie : encodeInteger (len : ℤ) 1 with
      | error e =>
        rw [hie, jsbind_err] at h
        cases h
      | ok ie =>
        rw [hie, jsbind_ok, jspure] at h
        injection h with h2
        refine Or.inr ⟨by omega, ie, rfl, ?_⟩
        rw [← h2]
        have hhd : (type * 16 + min (len : ℤ) 15).toNat = type.toNat * 16 + 15 := by omega
        rw [hhd]
    · rw [if_neg hlen, jspure] at h
      injection h with h2
      refine Or.inl ⟨by omega, ?_⟩
      rw [← h2]
      have hhd : (type * 16 + min (len : ℤ) 15).toNat = type.toNat * 16 + len := by omega
      rw [hhd]

theorem drop_middle (pre mid post : List ℕ) (i : ℕ) (h : i ≤ mid.length) :
    (pre ++ mid ++ post).drop (pre.length + i) = mid.drop i ++ post := by
  rw [List.append_assoc, List.drop_append, List.drop_append_eq_append_drop,
    Nat.sub_eq_zero_of_le h, List.drop_zero]

theorem getD_head_middle (pre mid post : List ℕ) (h : 0 < mid.length) :
    (pre ++ mid ++ post).getD pre.length 0 = mid.getD 0 0 := by
  have := getD_append_middle pre mid post 0 h
  simpa using this

-- dispatch lemmas for decodeTypeF at one header byte
theorem decodeTypeF_t1 (fuel : ℕ) (data : List ℕ) (off : ℕ) (Ω : List ℤ) (w : ℕ)
    (h : (unpackDataHeader (data.getD off 0)).type = 1) :
    decodeTypeF (fuel + 1) data off Ω w =
      match decodeInteger data (unpackDataHeader (data.getD off 0)).info (off + 1) with
      | .error e => .error e
      | .ok (.inl n) => .ok (.num (n : ℚ))
      | .ok (.inr n) => .ok (.big n) := by
  simp only [decodeTypeF, h]

theorem decodeTypeF_t2 (fuel : ℕ) (data : List ℕ) (off : ℕ) (Ω : List ℤ) (w : ℕ)
    (h : (unpackDataHeader (data.getD off 0)).type = 2) :
    decodeTypeF (fuel + 1) data off Ω w =
      match decodeDouble data (off + 1) with
      | .error e => .error e
      | .ok q => .ok (.num q) := by
  simp only [decodeTypeF, h]

theorem decodeTypeF_t3 (fuel : ℕ) (data : List ℕ) (off : ℕ) (Ω : List ℤ) (w : ℕ)
    (h : (unpackDataHeader (data.getD off 0)).type = 3) :
    decodeTypeF (fuel + 1) data off Ω w =
      match decodeDate data (off + 1) with
      | .error e => .error e
      | .ok t => .ok (.date t) := by
  simp only [decodeTypeF, h]

theorem decodeTypeF_t4 (fuel : ℕ) (data : List ℕ) (off : ℕ) (Ω : List ℤ) (w : ℕ)
    (h : (unpackDataHeader (data.getD off 0)).type = 4) :
    decodeTypeF (fuel + 1) data off Ω w =
      match decodeBuffer data (unpackDataHeader (data.getD off 0)).info (off + 1) 1 with
      | .error e => .error e
      | .ok bs => .ok (.data bs) := by
  simp only [decodeTypeF, h]

theorem decodeTypeF_t5 (fuel : ℕ) (data : List ℕ) (off : ℕ) (Ω : List ℤ) (w : ℕ)
    (h : (unpackDataHeader (data.getD off 0)).type = 5) :
    decodeTypeF (fuel + 1) data off Ω w =
      match decodeAscii data (unpackDataHeader (data.getD off 0)).info (off + 1) with
      | .error e => .error e
      | .ok s => .ok (.str s) := by
  simp only [decodeTypeF, h]

theorem decodeTypeF_t6 (fuel : ℕ) (data : List ℕ) (off : ℕ) (Ω : List ℤ) (w : ℕ)
    (h : (unpackDataHeader (data.getD off 0)).type = 6) :
    decodeTypeF (fuel + 1) data off Ω w =
      match decodeUtf16BE data (unpackDataHeader (data.getD off 0)).info (off + 1) with
      | .error e => .error e
      | .ok s => .ok (.str s) := by
  simp only [decodeTypeF, h]

theorem decodeTypeF_t8 (fuel : ℕ) (data : List ℕ) (off : ℕ) (Ω : List ℤ) (w : ℕ)
    (h : (unpackDataHeader (data.getD off 0)).type = 8) :
    decodeTypeF (fuel + 1) data off Ω w =
      match decodeUID data (unpackDataHeader (data.getD off 0)).info (off + 1) with
      | .error e => .error e
      | .ok bs => .ok (.uid bs) := by
  simp only [decodeTypeF, h]

theorem decodeTypeF_t10 (fuel : ℕ) (data : List ℕ) (off : ℕ) (Ω : List ℤ) (w : ℕ)
    (h : (unpackDataHeader (data.getD off 0)).type = 10) :
    decodeTypeF (fuel + 1) data off Ω w =
      match decodeArrayW
          (decodeRefWith (fun off2 => decodeTypeF fuel data off2 Ω w) Ω)
          data (unpackDataHeader (data.getD off 0)).info (off + 1) w with
      | .error e => .error e
      | .ok xs => .ok (.arr xs) := by
  simp only [decodeTypeF, h]

theorem decodeTypeF_t12 (fuel : ℕ) (data : List ℕ) (off : ℕ) (Ω : List ℤ) (w : ℕ)
    (h : (unpackDataHeader (data.getD off 0)).type = 12) :
    decodeTypeF (fuel + 1) data off Ω w =
      match decodeArrayW
          (decodeRefWith (fun off2 => decodeTypeF fuel data off2 Ω w) Ω)
          data (unpackDataHeader (data.getD off 0)).info (off + 1) w with
      | .error e => .error e
      | .ok xs => .ok (.set xs) := by
  simp only [decodeTypeF, h]

theorem decodeTypeF_t13 (fuel : ℕ) (data : List ℕ) (off : ℕ) (Ω : List ℤ) (w : ℕ)
    (h : (unpackDataHeader (data.getD off 0)).type = 13) :
    decodeTypeF (fuel + 1) data off Ω w =
      match decodeObjectW
          (decodeRefWith (fun off2 => decodeTypeF fuel data off2 Ω w) Ω)
          data (unpackDataHeader (data.getD off 0)).info (off + 1) w with
      | .error e => .error e
      | .ok kvs => .ok (.dict kvs) := by
  simp only [decodeTypeF, h]

theorem decodeTypeF_t0 (fuel : ℕ) (data : List ℕ) (off : ℕ) (Ω : List ℤ) (w : ℕ)
    (h : (unpackDataHeader (data.getD off 0)).type = 0) :
    decodeTypeF (fuel + 1) data off Ω w =
      (if (unpackDataHeader (data.getD off 0)).info = 0 then .ok .null
       else if (unpackDataHeader (data.getD off 0)).info = 9 then .ok (.bool true)
       else if (unpackDataHeader (data.getD off 0)).info = 8 then .ok (.bool false)
       else .ok .undef) := by
  simp only [decodeTypeF, h]

theorem encodeInteger_shape (n : ℤ) (t : ℤ) (ie : List ℕ) (hn : -(2 ^ 63) ≤ n)
    (ht : 0 ≤ t ∧ t ≤ 15) (h : encodeInteger n t = .ok ie) :
    ∃ w2, integerByteLength n = .ok w2 ∧
      ie = (t * 16 + roundSqrt (w2 - 1)).toNat :: intPayload w2 n ∧
      (w2 = 1 ∨ w2 = 2 ∨ w2 = 4 ∨ w2 = 8 ∨ w2 = 16) := by
  cases hw : integerByteLength n with
  | error e =>
    rw [encodeInteger, hw, jsbind_err] at h
    cases h
  | ok w2 =>
    have heq := encodeInteger_eq n w2 t hw ht hn
    rw [heq] at h
    injection h with h2
    refine ⟨w2, rfl, h2.symm, ?_⟩
    rcases integerByteLength_cases n w2 hw with ⟨h3, _⟩|⟨h3, _⟩|⟨h3, _⟩|⟨h3, _⟩|⟨h3, _⟩|⟨h3, _⟩ <;>
      omega

theorem encodeBuffer_shape (data : List ℕ) (type : ℤ) (bsz : ℕ) (c : List ℕ)
    (ht : 0 ≤ type ∧ type ≤ 15) (h : encodeBuffer data type bsz = .ok c) :
    (data.length ≤ 14 ∧ c = (type.toNat * 16 + min (data.length / bsz) 15) :: data) ∨
    (14 < data.length ∧ ∃ ie, encodeInteger ((data.length / bsz : ℕ) : ℤ) 1 = .ok ie ∧
      c = (type.toNat * 16 + min (data.length / bsz) 15) :: (ie ++ data)) := by
  rw [encodeBuffer] at h
  have hpack : packDataHeader type (min ((data.length / bsz : ℕ) : ℤ) 15) =
      .ok (type * 16 + min ((data.length / bsz : ℕ) : ℤ) 15).toNat :=
    packDataHeader_ok type _ ⟨ht.1, ht.2, le_min (by positivity) (by norm_num),
      min_le_right _ _⟩
  rw [hpack, jsbind_ok] at h
  have hhd : (type * 16 + min ((data.length / bsz : ℕ) : ℤ) 15).toNat =
      type.toNat * 16 + min (data.length / bsz) 15 := by
    generalize (data.length / bsz : ℕ) = q
    omega
  by_cases hlen : data.length > 14
  · rw [if_pos hlen] at h
    cases hie : encodeInteger ((data.length / bsz : ℕ) : ℤ) 1 with
    | error e =>
      rw [hie, jsbind_err] at h
      cases h
    | ok ie =>
      rw [hie, jsbind_ok, jspure] at h
      injection h with h2
      exact Or.inr ⟨hlen, ie, rfl, by rw [← h2, hhd]⟩
  · rw [if_neg hlen, jspure] at h
    injection h with h2
    exact Or.inl ⟨by omega, by rw [← h2, hhd]⟩

theorem encodeDouble_shape (q : ℚ) (t : ℤ) (c : List ℕ) (ht : 0 ≤ t ∧ t ≤ 15)
    (h : encodeDouble q t = .ok c) : c = (t.toNat * 16 + 3) :: dblCells q := by
  rw [encodeDouble, packDataHeader_ok t 3 ⟨ht.1, ht.2, by norm_num, by norm_num⟩,
    jsbind_ok, jspure] at h
  injection h with h2
  rw [← h2]
  congr 1
  omega

theorem decode_int_chunk (fuel : ℕ) (B pre post ie : List ℕ) (Ω : List ℤ) (w : ℕ)
    (n : ℤ) (hn : -(2 ^ 63) ≤ n) (hie : encodeInteger n 1 = .ok ie)
    (hB : B = pre ++ ie ++ post) (hBlen : B.length ≤ 2 ^ 53) :
    ∃ w2, integerByteLength n = .ok w2 ∧ (w2 = 1 ∨ w2 = 2 ∨ w2 = 4 ∨ w2 = 8 ∨ w2 = 16) ∧
      decodeTypeF (fuel + 1) B pre.length Ω w =
        .ok (if w2 ≤ 4 then .num (n : ℚ) else .big n) := by
  obtain ⟨w2, hw2, hieeq, hwv⟩ := encodeInteger_shape n 1 ie hn (by norm_num) hie
  refine ⟨w2, hw2, hwv, ?_⟩
  have hrs : roundSqrt (w2 - 1) ≤ 4 := by
    rw [roundSqrt_width w2 hwv]
    split_ifs <;> omega
  have hdrval : ((1 : ℤ) * 16 + (roundSqrt (w2 - 1) : ℤ)).toNat = 16 + roundSqrt (w2 - 1) := by
    omega
  rw [hdrval] at hieeq
  have hplen : (intPayload w2 n).length = w2 := intPayload_length w2 n hwv
  have hB2 : B = (pre ++ [16 + roundSqrt (w2 - 1)]) ++ intPayload w2 n ++ post := by
    rw [hB, hieeq]
    simp
  have hgd : B.getD pre.length 0 = 16 + roundSqrt (w2 - 1) := by
    rw [hB, hieeq]
    exact getD_head_middle pre _ post (by simp)
  have htype : (unpackDataHeader (B.getD pre.length 0)).type = 1 := by
    rw [hgd, unpackDataHeader]
    show (16 + roundSqrt (w2 - 1)) / 16 = 1
    omega
  have hinfo : (unpackDataHeader (B.getD pre.length 0)).info = roundSqrt (w2 - 1) := by
    rw [hgd, unpackDataHeader]
    show (16 + roundSqrt (w2 - 1)) % 16 = roundSqrt (w2 - 1)
    omega
  rw [decodeTypeF_t1 fuel B pre.length Ω w htype, hinfo]
  have hoff : ((pre ++ [16 + roundSqrt (w2 - 1)]).length : ℤ) ≤ 2 ^ 53 - 1 := by
    have hBl : B.length = pre.length + (1 + w2) + post.length := by
      rw [hB2]
      simp [hplen]
      omega
    simp only [List.length_append, List.length_cons, List.length_nil]
    omega
  have hdec := decodeInteger_intPayload (pre ++ [16 + roundSqrt (w2 - 1)]) post n w2 hw2 hn hoff
  rw [← hB2] at hdec
  have hlen1 : (pre ++ [16 + roundSqrt (w2 - 1)]).length = pre.length + 1 := by simp
  rw [hlen1] at hdec
  rw [hdec]
  by_cases h4 : w2 ≤ 4 <;> simp [h4]

theorem decode_dbl_chunk (fuel : ℕ) (B pre post c : List ℕ) (Ω : List ℤ) (w : ℕ)
    (q : ℚ) (hc : encodeDouble q 2 = .ok c) (hB : B = pre ++ c ++ post) :
    decodeTypeF (fuel + 1) B pre.length Ω w = .ok (.num q) := by
  have hceq := encodeDouble_shape q 2 c (by norm_num) hc
  have h2 : (2 : ℤ).toNat * 16 + 3 = 35 := by decide
  rw [h2] at hceq
  have hgd : B.getD pre.length 0 = 35 := by
    rw [hB, hceq]
    exact getD_head_middle pre _ post (by simp)
  have htype : (unpackDataHeader (B.getD pre.length 0)).type = 2 := by
    rw [hgd]
    rfl
  rw [decodeTypeF_t2 fuel B pre.length Ω w htype]
  have hB2 : B = (pre ++ [35]) ++ dblCells q ++ post := by
    rw [hB, hceq]
    simp
  have hrd := readDoubleBE_at (pre ++ [35]) post q
  rw [← hB2] at hrd
  have hlen1 : (pre ++ [35]).length = pre.length + 1 := by simp
  rw [hlen1] at hrd
  rw [decodeDouble, hrd]

theorem decode_date_chunk (fuel : ℕ) (B pre post c : List ℕ) (Ω : List ℤ) (w : ℕ)
    (ms : ℤ) (hdiv : ms % 1000 = 0)
    (hc : encodeDate ms = .ok c) (hB : B = pre ++ c ++ post) :
    decodeTypeF (fuel + 1) B pre.length Ω w = .ok (.date ms) := by
  rw [encodeDate] at hc
  have hceq := encodeDouble_shape ((ms - REFERENCE_DATE : ℤ) / (1000 : ℚ)) 3 c (by norm_num) hc
  have h3 : (3 : ℤ).toNat * 16 + 3 = 51 := by decide
  rw [h3] at hceq
  have hgd : B.getD pre.length 0 = 51 := by
    rw [hB, hceq]
    exact getD_head_middle pre _ post (by simp)
  have htype : (unpackDataHeader (B.getD pre.length 0)).type = 3 := by
    rw [hgd]
    rfl
  rw [decodeTypeF_t3 fuel B pre.length Ω w htype]
  have hB2 : B = (pre ++ [51]) ++ dblCells ((ms - REFERENCE_DATE : ℤ) / (1000 : ℚ)) ++ post := by
    rw [hB, hceq]
    simp
  have hrd := readDoubleBE_at (pre ++ [51]) post ((ms - REFERENCE_DATE : ℤ) / (1000 : ℚ))
  rw [← hB2] at hrd
  have hlen1 : (pre ++ [51]).length = pre.length + 1 := by simp
  rw [hlen1] at hrd
  rw [decodeDate, hrd, jsbind_ok]
  have href : REFERENCE_DATE % 1000 = 0 := by norm_num [REFERENCE_DATE]
  obtain ⟨k, hk⟩ : ∃ k : ℤ, ms - REFERENCE_DATE = 1000 * k :=
    ⟨(ms - REFERENCE_DATE) / 1000, by omega⟩
  have hq : ((ms - REFERENCE_DATE : ℤ) / (1000 : ℚ)) = ((k : ℤ) : ℚ) := by
    rw [hk]
    push_cast
    ring
  rw [hq, decodeDateVal_int]
  have : REFERENCE_DATE + k * 1000 = ms := by omega
  rw [this, jspure]

theorem decodeBuffer_of_encode (B pre post c data : List ℕ) (type : ℤ) (bsz : ℕ)
    (ht : 0 ≤ type ∧ type ≤ 15) (hdiv : bsz ∣ data.length) (hbsz : 0 < bsz)
    (hgoodlen : data.length ≤ 14 ↔ data.length / bsz ≤ 14)
    (hc : encodeBuffer data type bsz = .ok c)
    (hB : B = pre ++ c ++ post) (hBlen : B.length ≤ 2 ^ 53) :
    ∃ info, unpackDataHeader (B.getD pre.length 0) = ⟨type.toNat, info⟩ ∧
      decodeBuffer B info (pre.length + 1) bsz = .ok data := by
  have hcount : data.length / bsz * bsz = data.length := Nat.div_mul_cancel hdiv
  obtain ⟨cnt, hcnt⟩ : ∃ cnt, data.length / bsz = cnt := ⟨_, rfl⟩
  rw [hcnt] at hcount hgoodlen
  rcases encodeBuffer_shape data type bsz c ht hc with ⟨hlen, hceq⟩ | ⟨hlen, ie, hie, hceq⟩ <;>
    rw [hcnt] at hceq
  · -- inline
    have hcnt14 : cnt ≤ 14 := hgoodlen.1 hlen
    have hmin : min cnt 15 = cnt := by omega
    rw [hmin] at hceq
    have hgd : B.getD pre.length 0 = type.toNat * 16 + cnt := by
      rw [hB, hceq]
      exact getD_head_middle pre _ post (by simp)
    refine ⟨cnt, ?_, ?_⟩
    · rw [hgd, unpackDataHeader]
      have h1 : (type.toNat * 16 + cnt) / 16 = type.toNat := by omega
      have h2 : (type.toNat * 16 + cnt) % 16 = cnt := by omega
      rw [h1, h2]
    · rw [decodeBuffer, if_neg (by omega), jspure]
      have hdrop : B.drop (pre.length + 1) = data ++ post := by
        rw [hB, hceq]
        have := drop_middle pre ((type.toNat * 16 + cnt) :: data) post 1 (by simp)
        simpa using this
      rw [hdrop, hcount]
      congr 1
      exact List.take_left data post
  · -- extended: a count integer sits between the header byte and the data
    rw [hcnt] at hie
    have hcnt15 : 14 < cnt := by omega
    have hmin : min cnt 15 = 15 := by omega
    rw [hmin] at hceq
    obtain ⟨wi, hwi, hieeq, hwv⟩ := encodeInteger_shape ((cnt : ℕ) : ℤ) 1 ie
      (le_trans (by norm_num) (Int.ofNat_nonneg _)) (by norm_num) hie
    have hrs : roundSqrt (wi - 1) ≤ 4 := by
      rw [roundSqrt_width wi hwv]
      split_ifs <;> omega
    have hdrv : ((1 : ℤ) * 16 + (roundSqrt (wi - 1) : ℤ)).toNat = 16 + roundSqrt (wi - 1) := by
      omega
    rw [hdrv] at hieeq
    have hplen : (intPayload wi ((cnt : ℕ) : ℤ)).length = wi := intPayload_length wi _ hwv
    have hgd : B.getD pre.length 0 = type.toNat * 16 + 15 := by
      rw [hB, hceq]
      exact getD_head_middle pre _ post (by simp)
    have hB2 : B = (pre ++ [type.toNat * 16 + 15, 16 + roundSqrt (wi - 1)]) ++
        intPayload wi ((cnt : ℕ) : ℤ) ++ (data ++ post) := by
      rw [hB, hceq, hieeq]
      simp
    have hBl : B.length = pre.length + 2 + wi + data.length + post.length := by
      rw [hB2]
      simp only [List.length_append, List.length_cons, List.length_nil, hplen]
      omega
    refine ⟨15, ?_, ?_⟩
    · rw [hgd, unpackDataHeader]
      have h1 : (type.toNat * 16 + 15) / 16 = type.toNat := by omega
      have h2 : (type.toNat * 16 + 15) % 16 = 15 := by omega
      rw [h1, h2]
    · rw [decodeBuffer, if_pos (by omega)]
      have hgd2 : B.getD (pre.length + 1) 0 = 16 + roundSqrt (wi - 1) := by
        rw [hB, hceq, hieeq]
        have := getD_append_middle pre
          ((type.toNat * 16 + 15) :: ((16 + roundSqrt (wi - 1)) :: intPayload wi
            ((cnt : ℕ) : ℤ) ++ data)) post 1 (by simp)
        simpa using this
      have hinfo2 : (unpackDataHeader (16 + roundSqrt (wi - 1))).info = roundSqrt (wi - 1) := by
        rw [unpackDataHeader]
        show (16 + roundSqrt (wi - 1)) % 16 = roundSqrt (wi - 1)
        omega
      simp only [hgd2, hinfo2]
      have hoff : (((pre ++ [type.toNat * 16 + 15, 16 + roundSqrt (wi - 1)]).length : ℕ) : ℤ) ≤
          2 ^ 53 - 1 := by
        simp only [List.length_append, List.length_cons, List.length_nil]
        push_cast
        omega
      have hdec := decodeInteger_intPayload
        (pre ++ [type.toNat * 16 + 15, 16 + roundSqrt (wi - 1)]) (data ++ post)
        ((cnt : ℕ) : ℤ) wi hwi (le_trans (by norm_num) (Int.ofNat_nonneg _)) hoff
      rw [← hB2] at hdec
      have hlen2 : (pre ++ [type.toNat * 16 + 15, 16 + roundSqrt (wi - 1)]).length =
          pre.length + 1 + 1 := by simp
      rw [hlen2] at hdec
      rw [hdec, jsbind_ok]
      have hnumval : numVal (if wi ≤ 4 then .inl ((cnt : ℕ) : ℤ)
          else .inr ((cnt : ℕ) : ℤ)) = ((cnt : ℕ) : ℤ) := by
        split_ifs <;> rfl
      rw [hnumval]
      have hsize : ((cnt : ℕ) : ℤ) * (bsz : ℤ) = (data.length : ℤ) := by
        push_cast [← hcount]
        ring
      rw [hsize]
      rw [validateSafeInteger_ok _ _ (by omega), jsbind_ok]
      rw [two_pow_roundSqrt wi hwv]
      have hdrop : B.drop (pre.length + 1 + (1 + wi)) = data ++ post := by
        rw [hB2]
        have h5 : pre.length + 1 + (1 + wi) =
            (pre ++ [type.toNat * 16 + 15, 16 + roundSqrt (wi - 1)]).length + wi := by
          simp
          omega
        rw [h5]
        have := drop_middle (pre ++ [type.toNat * 16 + 15, 16 + roundSqrt (wi - 1)])
          (intPayload wi ((cnt : ℕ) : ℤ)) (data ++ post) wi (le_of_eq hplen.symm)
        rw [this, List.drop_eq_nil_of_le (le_of_eq hplen), List.nil_append]
      rw [hdrop]
      have htoNat : ((data.length : ℤ)).toNat = data.length := rfl
      rw [htoNat, jspure]
      congr 1
      exact List.take_left data post

theorem rat_intCast_of_den_one (q : ℚ) (h : q.den = 1) : ((q.num : ℚ)) = q := by
  conv_rhs => rw [← Rat.num_div_den q]
  rw [h]
  simp

theorem decode_primitive (fuel : ℕ) (B pre post c : List ℕ) (Ω : List ℤ) (w : ℕ)
    (tbl : List PVal) (u : PVal)
    (hprim : byValue u = true ∨ (∃ a b, u = .vdate a b) ∨ (∃ a b, u = .vdata a b) ∨
      (∃ a b, u = .vuid a b))
    (hCS : ChunkSpec w tbl u c) (hg : goodB u = true)
    (hB : B = pre ++ c ++ post) (hBlen : B.length ≤ 2 ^ 53) :
    decodeTypeF (fuel + 1) B pre.length Ω w = .ok (erase u) := by
  cases u with
  | vnull =>
    rw [ChunkSpec] at hCS
    subst hCS
    have hgd : B.getD pre.length 0 = 0 := by
      rw [hB]
      exact getD_head_middle pre _ post (by simp)
    have htype : (unpackDataHeader (B.getD pre.length 0)).type = 0 := by
      rw [hgd]
      rfl
    rw [decodeTypeF_t0 fuel B pre.length Ω w htype, hgd]
    simp [unpackDataHeader, erase]
  | vbool b =>
    cases b with
    | true =>
      rw [ChunkSpec] at hCS
      subst hCS
      have hgd : B.getD pre.length 0 = 9 := by
        rw [hB]
        exact getD_head_middle pre _ post (by simp)
      have htype : (unpackDataHeader (B.getD pre.length 0)).type = 0 := by
        rw [hgd]
        rfl
      rw [decodeTypeF_t0 fuel B pre.length Ω w htype, hgd]
      simp [unpackDataHeader, erase]
    | false =>
      rw [ChunkSpec] at hCS
      subst hCS
      have hgd : B.getD pre.length 0 = 8 := by
        rw [hB]
        exact getD_head_middle pre _ post (by simp)
      have htype : (unpackDataHeader (B.getD pre.length 0)).type = 0 := by
        rw [hgd]
        rfl
      rw [decodeTypeF_t0 fuel B pre.length Ω w htype, hgd]
      simp [unpackDataHeader, erase]
  | vnum q =>
    rw [ChunkSpec, encodeNumber] at hCS
    by_cases hden : q.den = 1
    · rw [if_pos (Or.inl hden)] at hCS
      simp only [goodB] at hg
      simp [hden] at hg
      obtain ⟨hq0, hn32⟩ := hg
      have hn0 : 0 ≤ q.num := Rat.num_nonneg.mpr hq0
      obtain ⟨w2, hw2, hwv, hdec⟩ := decode_int_chunk fuel B pre post c Ω w q.num
        (by omega) hCS hB hBlen
      have hw4 : w2 ≤ 4 := by
        rcases integerByteLength_cases q.num w2 hw2 with
          ⟨h1, h2⟩|⟨h1, h2⟩|⟨h1, h2⟩|⟨h1, h2⟩|⟨h1, h2⟩|⟨h1, h2⟩ <;> omega
      rw [hdec, if_pos hw4, erase, rat_intCast_of_den_one q hden]
    · rw [if_neg (by simp [hden])] at hCS
      rw [decode_dbl_chunk fuel B pre post c Ω w q hCS hB, erase]
  | vbig n =>
    rw [ChunkSpec, encodeNumber] at hCS
    rw [if_pos (Or.inr rfl)] at hCS
    simp only [Rat.num_intCast] at hCS
    simp [goodB] at hg
    obtain ⟨w2, hw2, hwv, hdec⟩ := decode_int_chunk fuel B pre post c Ω w n
      (by omega) hCS hB hBlen
    have hw4 : ¬(w2 ≤ 4) := by
      rcases integerByteLength_cases n w2 hw2 with
        ⟨h1, h2⟩|⟨h1, h2⟩|⟨h1, h2⟩|⟨h1, h2⟩|⟨h1, h2⟩|⟨h1, h2⟩ <;> omega
    rw [hdec, if_neg hw4, erase]
  | vstr s =>
    rw [ChunkSpec] at hCS
    simp only [goodB] at hg
    simp [strGoodB, List.all_eq_true] at hg
    obtain ⟨hu16, hlenclass⟩ := hg
    by_cases hascii : s.all (· ≤ 127)
    · rw [if_pos hascii] at hCS
      rw [encodeAscii] at hCS
      obtain ⟨info, hunp, hdecbuf⟩ := decodeBuffer_of_encode B pre post c s 5 1
        (by norm_num) (one_dvd _) (by norm_num) (by simp [Nat.div_one]) hCS hB hBlen
      have htype : (unpackDataHeader (B.getD pre.length 0)).type = 5 := by
        rw [hunp]
        exact rfl
      rw [decodeTypeF_t5 fuel B pre.length Ω w htype]
      simp only [hunp, decodeAscii]
      rw [hdecbuf]
      simp [erase]
    · rw [if_neg hascii] at hCS
      rw [encodeUtf16BE] at hCS
      have hlen2 : (utf16beBytes s).length = 2 * s.length := utf16beBytes_length s
      have hlen715 : s.length ≤ 7 ∨ 15 ≤ s.length := by
        rcases hlenclass with (h | h) | h
        · refine absurd ?_ hascii
          simp only [List.all_eq_true, decide_eq_true_eq]
          exact h
        · exact Or.inl h
        · exact Or.inr h
      obtain ⟨info, hunp, hdecbuf⟩ := decodeBuffer_of_encode B pre post c (utf16beBytes s) 6 2
        (by norm_num) (by rw [hlen2]; exact ⟨s.length, rfl⟩) (by norm_num)
        (by rw [hlen2, Nat.mul_div_cancel_left s.length (by norm_num : (0:ℕ) < 2)]; omega)
        hCS hB hBlen
      have htype : (unpackDataHeader (B.getD pre.length 0)).type = 6 := by
        rw [hunp]
        exact rfl
      rw [decodeTypeF_t6 fuel B pre.length Ω w htype]
      simp only [hunp, decodeUtf16BE]
      rw [hdecbuf]
      simp [jsbind_ok, utf16beUnits_roundtrip s hu16, erase]
  | vdate a ms =>
    rw [ChunkSpec] at hCS
    rw [goodB] at hg
    rw [decode_date_chunk fuel B pre post c Ω w ms (of_decide_eq_true hg) hCS hB, erase]
  | vdata a bs =>
    rw [ChunkSpec] at hCS
    obtain ⟨info, hunp, hdecbuf⟩ := decodeBuffer_of_encode B pre post c bs 4 1
      (by norm_num) (one_dvd _) (by norm_num) (by simp [Nat.div_one]) hCS hB hBlen
    have htype : (unpackDataHeader (B.getD pre.length 0)).type = 4 := by
      rw [hunp]
      exact rfl
    rw [decodeTypeF_t4 fuel B pre.length Ω w htype]
    simp only [hunp]
    rw [hdecbuf]
    simp [erase]
  | vuid a bs =>
    rw [ChunkSpec] at hCS
    simp only [goodB] at hg
    simp [List.all_eq_true] at hg
    obtain ⟨⟨hbytes, hlen1⟩, hlen14⟩ := hg
    rw [encodeUID] at hCS
    have hmin : min ((bs.length : ℤ) - 1) 15 = (bs.length : ℤ) - 1 := by omega
    have hpack : packDataHeader 8 (min ((bs.length : ℤ) - 1) 15) =
        .ok ((8 : ℤ) * 16 + min ((bs.length : ℤ) - 1) 15).toNat :=
      packDataHeader_ok 8 _ ⟨by norm_num, by norm_num, by omega, by omega⟩
    rw [hpack, jsbind_ok, if_neg (by omega), jspure] at hCS
    injection hCS with hc2
    have hhdr : ((8 : ℤ) * 16 + min ((bs.length : ℤ) - 1) 15).toNat =
        128 + (bs.length - 1) := by omega
    rw [hhdr] at hc2
    have hgd : B.getD pre.length 0 = 128 + (bs.length - 1) := by
      rw [hB, ← hc2]
      exact getD_head_middle pre _ post (by simp)
    have htype : (unpackDataHeader (B.getD pre.length 0)).type = 8 := by
      rw [hgd, unpackDataHeader]
      show (128 + (bs.length - 1)) / 16 = 8
      omega
    have hinfo : (unpackDataHeader (B.getD pre.length 0)).info = bs.length - 1 := by
      rw [hgd, unpackDataHeader]
      show (128 + (bs.length - 1)) % 16 = bs.length - 1
      omega
    rw [decodeTypeF_t8 fuel B pre.length Ω w htype, hinfo]
    rw [decodeUID, if_neg (by omega), jspure]
    have hdrop : B.drop (pre.length + 1) = bs ++ post := by
      rw [hB, ← hc2]
      have := drop_middle pre ((128 + (bs.length - 1)) :: bs) post 1 (by simp)
      simpa using this
    rw [hdrop]
    have htk : bs.length - 1 + 1 = bs.length := by omega
    rw [htk, List.take_left bs post, erase]
  | varr a xs =>
    rcases hprim with h | ⟨a2, b2, h⟩ | ⟨a2, b2, h⟩ | ⟨a2, b2, h⟩ <;> simp [byValue] at h
  | vset a xs =>
    rcases hprim with h | ⟨a2, b2, h⟩ | ⟨a2, b2, h⟩ | ⟨a2, b2, h⟩ <;> simp [byValue] at h
  | vdict a kvs =>
    rcases hprim with h | ⟨a2, b2, h⟩ | ⟨a2, b2, h⟩ | ⟨a2, b2, h⟩ <;> simp [byValue] at h

theorem count_div (len w : ℕ) (hw : 0 < w) : (len * w + w - 1) / w = len := by
  have h1 : len * w + w - 1 = (w - 1) + len * w := by omega
  rw [h1, Nat.add_mul_div_right _ _ hw, Nat.div_eq_of_lt (by omega)]
  omega

theorem decodeRefWith_ok (decType : ℕ → JsRes Pure) (Ωz : List ℤ) (r : ℕ) (hr : r < Ωz.length)
    (oi : ℤ) (hoi : Ωz.getD r 0 = oi) (hpos : 0 ≤ oi) :
    decodeRefWith decType Ωz ((r : ℕ) : ℤ) = decType oi.toNat := by
  rw [decodeRefWith]
  rw [dif_pos (⟨Int.ofNat_nonneg r, by simpa using hr⟩ :
    0 ≤ ((r : ℕ) : ℤ) ∧ ((r : ℕ) : ℤ).toNat < Ωz.length)]
  have hget : Ωz.get ⟨((r : ℕ) : ℤ).toNat, by simpa using hr⟩ = oi := by
    rw [← hoi]
    simp only [List.get_eq_getElem, Int.toNat_ofNat, List.getD_eq_getElem Ωz 0 hr]
  rw [hget, if_pos hpos]

theorem decodeElemsW_spec (decRef : ℤ → JsRes Pure) (B : List ℕ) (off w : ℕ) (refs : List ℤ)
    (out : List Pure) (hlen : out.length = refs.length) :
    ∀ (remaining k : ℕ), k + remaining = refs.length →
    (∀ m, k ≤ m → m < refs.length → readInteger B w (off + m * w) = .ok (refs.getD m 0)) →
    (∀ m, k ≤ m → m < refs.length → decRef (refs.getD m 0) = .ok (out.getD m .undef)) →
    decodeElemsW decRef B off w remaining k = .ok ((out.drop k).take remaining) := by
  intro remaining
  induction remaining with
  | zero =>
    intro k hk hread hdec
    rw [decodeElemsW]
    simp
  | succ remaining ih =>
    intro k hk hread hdec
    rw [decodeElemsW]
    simp only [hread k (le_refl k) (by omega), hdec k (le_refl k) (by omega),
      ih (k + 1) (by omega) (fun m h1 h2 => hread m (by omega) h2)
        (fun m h1 h2 => hdec m (by omega) h2)]
    have hkout : k < out.length := by omega
    rw [List.drop_eq_getElem_cons hkout, List.take_succ_cons,
      List.getD_eq_getElem out .undef hkout]

theorem decodePairsW_spec (decRef : ℤ → JsRes Pure) (B : List ℕ) (off bytesLength w : ℕ)
    (krefs vrefs : List ℤ) (kvsOut : List (List ℕ × Pure))
    (hklen : krefs.length = kvsOut.length) (hvlen : vrefs.length = kvsOut.length) :
    ∀ (remaining k : ℕ), k + remaining = kvsOut.length →
    (∀ m, k ≤ m → m < kvsOut.length →
      readInteger B w (off + m * w) = .ok (krefs.getD m 0)) →
    (∀ m, k ≤ m → m < kvsOut.length →
      readInteger B w (off + bytesLength + m * w) = .ok (vrefs.getD m 0)) →
    (∀ m, k ≤ m → m < kvsOut.length →
      decRef (krefs.getD m 0) = .ok (.str (kvsOut.getD m ([], .undef)).1)) →
    (∀ m, k ≤ m → m < kvsOut.length →
      decRef (vrefs.getD m 0) = .ok (kvsOut.getD m ([], .undef)).2) →
    decodePairsW decRef B off bytesLength w remaining k = .ok ((kvsOut.drop k).take remaining) := by
  intro remaining
  induction remaining with
  | zero =>
    intro k hk hkread hvread hkdec hvdec
    rw [decodePairsW]
    simp
  | succ remaining ih =>
    intro k hk hkread hvread hkdec hvdec
    rw [decodePairsW]
    simp only [hkread k (le_refl k) (by omega), hvread k (le_refl k) (by omega),
      hkdec k (le_refl k) (by omega), hvdec k (le_refl k) (by omega),
      ih (k + 1) (by omega) (fun m h1 h2 => hkread m (by omega) h2)
        (fun m h1 h2 => hvread m (by omega) h2)
        (fun m h1 h2 => hkdec m (by omega) h2)
        (fun m h1 h2 => hvdec m (by omega) h2)]
    have hkout : k < kvsOut.length := by omega
    rw [List.drop_eq_getElem_cons hkout, List.take_succ_cons,
      List.getD_eq_getElem kvsOut ([], .undef) hkout]

theorem container_chunk_parts (B pre post c : List ℕ) (type : ℤ) (len : ℕ) (refs : List ℤ)
    (w : ℕ) (ht : 0 ≤ type ∧ type ≤ 15) (hw : w = 1 ∨ w = 2 ∨ w = 4 ∨ w = 8 ∨ w = 16)
    (henc : encodeObjects len type refs w = .ok c) (hrefs_len : len ≤ refs.length)
    (hB : B = pre ++ c ++ post) (hBlen : B.length ≤ 2 ^ 53) :
    (unpackDataHeader (B.getD pre.length 0)).type = type.toNat ∧
    ∃ boff, resolveContainerLen B ((unpackDataHeader (B.getD pre.length 0)).info)
        (pre.length + 1) w = .ok (((len * w : ℕ) : ℤ), boff) ∧
      (∀ m, m < refs.length → readInteger B w (boff + m * w) = .ok (refs.getD m 0)) := by
  have hw1 : 1 ≤ w := by omega
  obtain ⟨block, hblock, hranges, hsplit⟩ := encodeObjects_shape len type refs w c ht henc
  have hblock_len : block.length = refs.length * w := by
    rw [hblock]
    have : ∀ rs : List ℤ, (∀ v ∈ rs, rangeOK w v) →
        ((rs.map fun v => intPayload w v).flatten).length = rs.length * w := by
      intro rs hrs
      induction rs with
      | nil => simp
      | cons x rest ih2 =>
        simp only [List.map_cons, List.flatten_cons, List.length_append, List.length_cons]
        rw [ih2 (fun v hv => hrs v (List.mem_cons_of_mem _ hv)),
          intPayload_length w x (rangeOK_sizes w x (hrs x (List.mem_cons_self _ _)))]
        ring
    exact this refs hranges
  rcases hsplit with ⟨hlen14, hceq⟩ | ⟨hlen15, ie, hie, hceq⟩
  · -- inline length
    have hgd : B.getD pre.length 0 = type.toNat * 16 + len := by
      rw [hB, hceq]
      exact getD_head_middle pre _ post (by simp)
    have hunp : unpackDataHeader (B.getD pre.length 0) = ⟨type.toNat, len⟩ := by
      rw [hgd, unpackDataHeader]
      have h1 : (type.toNat * 16 + len) / 16 = type.toNat := by omega
      have h2 : (type.toNat * 16 + len) % 16 = len := by omega
      rw [h1, h2]
    rw [hunp]
    refine ⟨rfl, pre.length + 1, ?_, ?_⟩
    · rw [resolveContainerLen, if_neg (by simp; omega)]
    · intro m hm
      have hB2 : B = (pre ++ [type.toNat * 16 + len]) ++
          (refs.map fun v => intPayload w v).flatten ++ post := by
        rw [hB, hceq, hblock]
        simp
      have hoffb : (pre ++ [type.toNat * 16 + len]).length + m * w ≤ 2 ^ 53 - 1 := by
        have hBl : B.length = pre.length + 1 + refs.length * w + post.length := by
          rw [hB2]
          simp [← hblock, hblock_len]
          omega
        simp only [List.length_append, List.length_cons, List.length_nil]
        have hmw : (m + 1) * w ≤ refs.length * w := Nat.mul_le_mul_right w (by omega)
        have hsucc : (m + 1) * w = m * w + w := by ring
        omega
      have := slots_readback refs w (pre ++ [type.toNat * 16 + len]) post m hm hranges
        (by omega)
      rw [← hB2] at this
      have hplen2 : (pre ++ [type.toNat * 16 + len]).length = pre.length + 1 := by simp
      rw [hplen2] at this
      exact this
  · -- extended length
    obtain ⟨wi, hwi, hieeq, hwv⟩ := encodeInteger_shape ((len : ℕ) : ℤ) 1 ie
      (le_trans (by norm_num) (Int.ofNat_nonneg _)) (by norm_num) hie
    have hrs4 : roundSqrt (wi - 1) ≤ 4 := by
      rw [roundSqrt_width wi hwv]
      split_ifs <;> omega
    have hdrv : ((1 : ℤ) * 16 + (roundSqrt (wi - 1) : ℤ)).toNat = 16 + roundSqrt (wi - 1) := by
      omega
    rw [hdrv] at hieeq
    have hplen : (intPayload wi ((len : ℕ) : ℤ)).length = wi := intPayload_length wi _ hwv
    have hgd : B.getD pre.length 0 = type.toNat * 16 + 15 := by
      rw [hB, hceq]
      exact getD_head_middle pre _ post (by simp)
    have hunp : unpackDataHeader (B.getD pre.length 0) = ⟨type.toNat, 15⟩ := by
      rw [hgd, unpackDataHeader]
      have h1 : (type.toNat * 16 + 15) / 16 = type.toNat := by omega
      have h2 : (type.toNat * 16 + 15) % 16 = 15 := by omega
      rw [h1, h2]
    have hB2 : B = (pre ++ [type.toNat * 16 + 15, 16 + roundSqrt (wi - 1)]) ++
        intPayload wi ((len : ℕ) : ℤ) ++
        ((refs.map fun v => intPayload w v).flatten ++ post) := by
      rw [hB, hceq, hieeq, hblock]
      simp
    have hBl : B.length = pre.length + 2 + wi + refs.length * w + post.length := by
      rw [hB2]
      simp only [List.length_append, List.length_cons, List.length_nil, hplen, ← hblock,
        hblock_len]
      omega
    rw [hunp]
    refine ⟨rfl, pre.length + 2 + wi, ?_, ?_⟩
    · rw [resolveContainerLen, if_pos (by norm_num)]
      have hgd2 : B.getD (pre.length + 1) 0 = 16 + roundSqrt (wi - 1) := by
        rw [hB, hceq, hieeq]
        have := getD_append_middle pre
          ((type.toNat * 16 + 15) :: ((16 + roundSqrt (wi - 1)) :: intPayload wi
            ((len : ℕ) : ℤ) ++ block)) post 1 (by simp)
        simpa using this
      have hinfo2 : (unpackDataHeader (16 + roundSqrt (wi - 1))).info = roundSqrt (wi - 1) := by
        rw [unpackDataHeader]
        show (16 + roundSqrt (wi - 1)) % 16 = roundSqrt (wi - 1)
        omega
      simp only [hgd2, hinfo2]
      have hoff : (((pre ++ [type.toNat * 16 + 15, 16 + roundSqrt (wi - 1)]).length : ℕ) : ℤ) ≤
          2 ^ 53 - 1 := by
        simp only [List.length_append, List.length_cons, List.length_nil]
        push_cast
        omega
      have hdec := decodeInteger_intPayload
        (pre ++ [type.toNat * 16 + 15, 16 + roundSqrt (wi - 1)])
        ((refs.map fun v => intPayload w v).flatten ++ post)
        ((len : ℕ) : ℤ) wi hwi (le_trans (by norm_num) (Int.ofNat_nonneg _)) hoff
      rw [← hB2] at hdec
      have hlen2 : (pre ++ [type.toNat * 16 + 15, 16 + roundSqrt (wi - 1)]).length =
          pre.length + 1 + 1 := by simp
      rw [hlen2] at hdec
      rw [hdec]
      have hnumval : numVal (if wi ≤ 4 then .inl ((len : ℕ) : ℤ) else .inr ((len : ℕ) : ℤ)) =
          ((len : ℕ) : ℤ) := by
        split_ifs <;> rfl
      simp only [jsbind_ok, hnumval]
      have hsafe : validateSafeInteger ((len : ℕ) : ℤ) "decode offsets size" = .ok () := by
        apply validateSafeInteger_ok
        have := Nat.mul_le_mul_right w hrefs_len
        have hww := hw1
        have : len ≤ len * w := Nat.le_mul_of_pos_right len (by omega)
        push_cast
        omega
      rw [hsafe]
      simp only [jsbind_ok]
      rw [two_pow_roundSqrt wi hwv]
      have hfin : ((len : ℕ) : ℤ) * (w : ℤ) = ((len * w : ℕ) : ℤ) := by push_cast; ring
      rw [hfin]
      have hoffeq : pre.length + 1 + (1 + wi) = pre.length + 2 + wi := by omega
      rw [hoffeq]
    · intro m hm
      have hoffb : (pre ++ [type.toNat * 16 + 15, 16 + roundSqrt (wi - 1)] ++
          intPayload wi ((len : ℕ) : ℤ)).length + m * w ≤ 2 ^ 53 - 1 := by
        simp only [List.length_append, List.length_cons, List.length_nil, hplen]
        have hmw := Nat.mul_le_mul_right w (show m + 1 ≤ refs.length by omega)
        have hsucc : (m + 1) * w = m * w + w := by ring
        omega
      have hB3 : B = (pre ++ [type.toNat * 16 + 15, 16 + roundSqrt (wi - 1)] ++
          intPayload wi ((len : ℕ) : ℤ)) ++
          (refs.map fun v => intPayload w v).flatten ++ post := by
        rw [hB2]
        simp
      have := slots_readback refs w
        (pre ++ [type.toNat * 16 + 15, 16 + roundSqrt (wi - 1)] ++ intPayload wi ((len : ℕ) : ℤ))
        post m hm hranges (by omega)
      rw [← hB3] at this
      have hplen3 : (pre ++ [type.toNat * 16 + 15, 16 + roundSqrt (wi - 1)] ++
          intPayload wi ((len : ℕ) : ℤ)).length = pre.length + 2 + wi := by
        simp [hplen]
        omega
      rw [hplen3] at this
      exact this

theorem getD_map_erase (xs : List PVal) (m : ℕ) (hm : m < xs.length) :
    (xs.map erase).getD m .undef = erase (xs.getD m .vnull) := by
  rw [List.getD_eq_getElem _ _ (by simpa using hm), List.getElem_map,
    List.getD_eq_getElem _ _ hm]

theorem getD_mem_pval (tbl : List PVal) (j : ℕ) (hj : j < tbl.length) :
    tbl.getD j .vnull ∈ tbl := by
  rw [List.getD_eq_getElem _ _ hj]
  exact List.getElem_mem hj

theorem getD_mem_pval2 (xs : List PVal) (m : ℕ) (hm : m < xs.length) :
    xs.getD m .vnull ∈ xs := by
  rw [List.getD_eq_getElem _ _ hm]
  exact List.getElem_mem hm

theorem getD_map_int (Ω : List ℕ) (r : ℕ) (hr : r < Ω.length) :
    (Ω.map fun o => ((o : ℕ) : ℤ)).getD r 0 = ((Ω.getD r 0 : ℕ) : ℤ) := by
  rw [List.getD_eq_getElem _ _ (by simpa using hr), List.getElem_map,
    List.getD_eq_getElem _ _ hr]

theorem pdepth_vstr (s : List ℕ) : pdepth (.vstr s) = 1 := by
  simp [pdepth]

theorem decode_slots (B : List ℕ) (L : List (List ℕ)) (tbl : List PVal) (Ω : List ℕ)
    (Ωz : List ℤ) (w : ℕ)
    (hw : w = 1 ∨ w = 2 ∨ w = 4 ∨ w = 8 ∨ w = 16)
    (hlen : tbl.length = L.length) (hΩlen : Ω.length = L.length)
    (hΩz : Ωz = Ω.map fun o => ((o : ℕ) : ℤ))
    (hchunks : ∀ j, j < L.length → ChunkSpec w tbl (tbl.getD j .vnull) (L.getD j []))
    (hgood : ∀ u ∈ tbl, goodB u = true)
    (hpos : ∀ j, j < L.length → ∃ pre postx, B = pre ++ L.getD j [] ++ postx ∧
      pre.length = Ω.getD j 0)
    (hBlen : B.length ≤ 2 ^ 53) :
    ∀ (fuel : ℕ) (j : ℕ), j < L.length → pdepth (tbl.getD j .vnull) ≤ fuel →
      decodeTypeF fuel B (Ω.getD j 0) Ωz w = .ok (erase (tbl.getD j .vnull)) := by
  have hw0 : w ≠ 0 := by omega
  have hΩzlen : Ωz.length = L.length := by rw [hΩz, List.length_map, hΩlen]
  intro fuel
  induction fuel with
  | zero =>
    intro j hj hd
    have := pdepth_pos (tbl.getD j .vnull)
    omega
  | succ fuel ih =>
    intro j hj hd
    obtain ⟨pre, postx, hB, hpre⟩ := hpos j hj
    rw [← hpre]
    have hCS := hchunks j hj
    have hgd := hgood (tbl.getD j .vnull) (getD_mem_pval tbl j (by omega))
    have hchild : ∀ (children : List PVal) (refs : List ℤ),
        refsSpec tbl children refs →
        (∀ u2 ∈ children, pdepth u2 ≤ fuel) →
        ∀ m, m < children.length →
          decodeRefWith (fun off2 => decodeTypeF fuel B off2 Ωz w) Ωz (refs.getD m 0) =
            .ok ((children.map erase).getD m .undef) := by
      intro children refs hrefs hdepth m hm
      obtain ⟨r, hr1, hr2, hr3⟩ := hrefs.2 m hm
      rw [hr1]
      have hrL : r < L.length := by omega
      have hΩr : Ωz.getD r 0 = ((Ω.getD r 0 : ℕ) : ℤ) := by
        rw [hΩz]
        exact getD_map_int Ω r (by omega)
      rw [decodeRefWith_ok _ Ωz r (by omega) _ hΩr (Int.ofNat_nonneg _)]
      have htn : (((Ω.getD r 0 : ℕ) : ℤ)).toNat = Ω.getD r 0 := Int.toNat_ofNat _
      rw [htn]
      have hdep : pdepth (tbl.getD r .vnull) ≤ fuel := by
        rw [hr3]
        exact hdepth _ (getD_mem_pval2 children m hm)
      rw [ih r hrL hdep, hr3, getD_map_erase children m hm]
    cases hu : tbl.getD j .vnull with
    | vnull =>
      rw [hu] at hCS hgd
      exact decode_primitive fuel B pre postx _ Ωz w tbl .vnull (Or.inl rfl) hCS hgd hB hBlen
    | vbool b =>
      rw [hu] at hCS hgd
      exact decode_primitive fuel B pre postx _ Ωz w tbl (.vbool b) (Or.inl rfl) hCS hgd hB hBlen
    | vnum q =>
      rw [hu] at hCS hgd
      exact decode_primitive fuel B pre postx _ Ωz w tbl (.vnum q) (Or.inl rfl) hCS hgd hB hBlen
    | vbig n =>
      rw [hu] at hCS hgd
      exact decode_primitive fuel B pre postx _ Ωz w tbl (.vbig n) (Or.inl rfl) hCS hgd hB hBlen
    | vstr s =>
      rw [hu] at hCS hgd
      exact decode_primitive fuel B pre postx _ Ωz w tbl (.vstr s) (Or.inl rfl) hCS hgd hB hBlen
    | vdate a ms =>
      rw [hu] at hCS hgd
      exact decode_primitive fuel B pre postx _ Ωz w tbl (.vdate a ms)
        (Or.inr (Or.inl ⟨a, ms, rfl⟩)) hCS hgd hB hBlen
    | vdata a bs =>
      rw [hu] at hCS hgd
      exact decode_primitive fuel B pre postx _ Ωz w tbl (.vdata a bs)
        (Or.inr (Or.inr (Or.inl ⟨a, bs, rfl⟩))) hCS hgd hB hBlen
    | vuid a bs =>
      rw [hu] at hCS hgd
      exact decode_primitive fuel B pre postx _ Ωz w tbl (.vuid a bs)
        (Or.inr (Or.inr (Or.inr ⟨a, bs, rfl⟩))) hCS hgd hB hBlen
    | varr a xs =>
      rw [hu] at hCS hd
      obtain ⟨refs, henc, hrefs⟩ := hCS
      obtain ⟨htype, boff, hresolve, hread⟩ := container_chunk_parts B pre postx _ 10 xs.length
        refs w (by norm_num) hw henc (by rw [hrefs.1]) hB hBlen
      have htype10 : (unpackDataHeader (B.getD pre.length 0)).type = 10 := htype
      rw [decodeTypeF_t10 fuel B pre.length Ωz w htype10]
      simp only [decodeArrayW, hresolve]
      rw [if_neg hw0]
      simp only [Int.toNat_ofNat]
      rw [count_div xs.length w (by omega)]
      have helems := decodeElemsW_spec
        (decodeRefWith (fun off2 => decodeTypeF fuel B off2 Ωz w) Ωz)
        B boff w refs (xs.map erase) (by rw [List.length_map, hrefs.1]) xs.length 0
        (by rw [hrefs.1]; omega)
        (fun m h1 h2 => hread m h2)
        (fun m h1 h2 => hchild xs refs hrefs
          (fun u2 hu2 => by
            have := pdepth_lt_varr a xs u2 hu2
            omega) m (by rw [← hrefs.1]; exact h2))
      simp only [helems, List.drop_zero]
      rw [List.take_of_length_le (by simp), erase_varr]
    | vset a xs =>
      rw [hu] at hCS hd
      obtain ⟨refs, henc, hrefs⟩ := hCS
      obtain ⟨htype, boff, hresolve, hread⟩ := container_chunk_parts B pre postx _ 12 xs.length
        refs w (by norm_num) hw henc (by rw [hrefs.1]) hB hBlen
      have htype12 : (unpackDataHeader (B.getD pre.length 0)).type = 12 := htype
      rw [decodeTypeF_t12 fuel B pre.length Ωz w htype12]
      simp only [decodeArrayW, hresolve]
      rw [if_neg hw0]
      simp only [Int.toNat_ofNat]
      rw [count_div xs.length w (by omega)]
      have helems := decodeElemsW_spec
        (decodeRefWith (fun off2 => decodeTypeF fuel B off2 Ωz w) Ωz)
        B boff w refs (xs.map erase) (by rw [List.length_map, hrefs.1]) xs.length 0
        (by rw [hrefs.1]; omega)
        (fun m h1 h2 => hread m h2)
        (fun m h1 h2 => hchild xs refs hrefs
          (fun u2 hu2 => by
            have := pdepth_lt_vset a xs u2 hu2
            omega) m (by rw [← hrefs.1]; exact h2))
      simp only [helems, List.drop_zero]
      rw [List.take_of_length_le (by simp), erase_vset]
    | vdict a kvs =>
      rw [hu] at hCS hd
      obtain ⟨krefs, vrefs, henc, hkrefs, hvrefs⟩ := hCS
      have hklen : krefs.length = kvs.length := by
        have := hkrefs.1
        simpa using this
      have hvlen : vrefs.length = kvs.length := by
        have := hvrefs.1
        simpa using this
      obtain ⟨htype, boff, hresolve, hread⟩ := container_chunk_parts B pre postx _ 13 kvs.length
        (krefs ++ vrefs) w (by norm_num) hw henc
        (by simp [hklen, hvlen]) hB hBlen
      have htype13 : (unpackDataHeader (B.getD pre.length 0)).type = 13 := htype
      rw [decodeTypeF_t13 fuel B pre.length Ωz w htype13]
      simp only [decodeObjectW, hresolve]
      rw [if_neg hw0]
      simp only [Int.toNat_ofNat]
      rw [count_div kvs.length w (by omega)]
      have hkread : ∀ m, 0 ≤ m → m < kvs.length →
          readInteger B w (boff + m * w) = .ok (krefs.getD m 0) := by
        intro m h1 h2
        have := hread m (by simp only [List.length_append, hklen, hvlen]; omega)
        rwa [List.getD_append _ _ _ _ (by omega)] at this
      have hvread : ∀ m, 0 ≤ m → m < kvs.length →
          readInteger B w (boff + kvs.length * w + m * w) = .ok (vrefs.getD m 0) := by
        intro m h1 h2
        have := hread (kvs.length + m) (by simp only [List.length_append, hklen, hvlen]; omega)
        have harith : boff + (kvs.length + m) * w = boff + kvs.length * w + m * w := by ring
        rw [harith] at this
        rwa [List.getD_append_right _ _ _ _ (by omega), hklen,
          show kvs.length + m - kvs.length = m by omega] at this
      have hkv1 : ∀ m, m < kvs.length →
          (((kvs.map fun kv => PVal.vstr kv.1).map erase).getD m .undef) =
            .str (((kvs.map fun kv => (kv.1, erase kv.2)).getD m ([], .undef)).1) := by
        intro m hm
        rw [List.getD_eq_getElem _ _ (by simpa using hm),
          List.getD_eq_getElem _ _ (by simpa using hm)]
        simp [erase]
      have hkv2 : ∀ m, m < kvs.length →
          (((kvs.map Prod.snd).map erase).getD m .undef) =
            ((kvs.map fun kv => (kv.1, erase kv.2)).getD m ([], .undef)).2 := by
        intro m hm
        rw [List.getD_eq_getElem _ _ (by simpa using hm),
          List.getD_eq_getElem _ _ (by simpa using hm)]
        simp
      have hfuel1 : ∀ kv0, kv0 ∈ kvs → 1 ≤ fuel := by
        intro kv0 hkv0
        have := (pdepth_lt_vdict a kvs kv0 hkv0).2
        omega
      have hpairs := decodePairsW_spec
        (decodeRefWith (fun off2 => decodeTypeF fuel B off2 Ωz w) Ωz)
        B boff (kvs.length * w) w krefs vrefs (kvs.map fun kv => (kv.1, erase kv.2))
        (by rw [List.length_map, hklen]) (by rw [List.length_map, hvlen])
        kvs.length 0 (by rw [List.length_map]; omega)
        (fun m h1 h2 => hkread m h1 (by rwa [List.length_map] at h2))
        (fun m h1 h2 => hvread m h1 (by rwa [List.length_map] at h2))
        (fun m h1 h2 => by
          have hm : m < kvs.length := by rwa [List.length_map] at h2
          have hch := hchild (kvs.map fun kv => PVal.vstr kv.1) krefs hkrefs
            (fun u2 hu2 => by
              obtain ⟨kv0, hkv0, heq⟩ := List.mem_map.1 hu2
              rw [← heq, pdepth_vstr]
              exact hfuel1 kv0 hkv0) m (by simpa using hm)
          rw [hch, hkv1 m hm])
        (fun m h1 h2 => by
          have hm : m < kvs.length := by rwa [List.length_map] at h2
          have hch := hchild (kvs.map Prod.snd) vrefs hvrefs
            (fun u2 hu2 => by
              obtain ⟨kv0, hkv0, heq⟩ := List.mem_map.1 hu2
              have := (pdepth_lt_vdict a kvs kv0 hkv0).1
              rw [← heq]
              omega) m (by simpa using hm)
          rw [hch, hkv2 m hm])
      simp only [hpairs, List.drop_zero]
      rw [List.take_of_length_le (by simp), erase_vdict]

theorem NewOK_refl (st : EncSt) (tbl : List PVal) (D : List ℕ)
    (hmap : MapOK st.map tbl) (hoff : st.offset = tbl.length) : NewOK st st tbl D :=
  ⟨List.prefix_refl _, hmap, hoff, fun e he => Or.inl he⟩

theorem NewOK_chain (st st1 st2 : EncSt) (tblA tblB : List PVal) (D1 D2 D : List ℕ)
    (h1 : NewOK st st1 tblA D1) (h2 : NewOK st1 st2 tblB D2)
    (hD1 : ∀ x ∈ D1, x ∈ D) (hD2 : ∀ x ∈ D2, x ∈ D) :
    NewOK st st2 tblB D := by
  refine ⟨h1.1.trans h2.1, h2.2.1, h2.2.2.1, fun e he => ?_⟩
  rcases h2.2.2.2 e he with he1 | hk
  · rcases h1.2.2.2 e he1 with he0 | hk
    · exact Or.inl he0
    · exact Or.inr fun id2 hid => hD1 id2 (hk id2 hid)
  · exact Or.inr fun id2 hid => hD2 id2 (hk id2 hid)

theorem ChunksAligned_nil (w : ℕ) (tbl : List PVal) : ChunksAligned w tbl [] [] :=
  ⟨rfl, fun j hj => absurd hj (by simp)⟩

theorem ChunksAligned_append (w : ℕ) (tblA ext2 : List PVal) (vs1 vs2 : List PVal)
    (c1 c2 : List (List ℕ))
    (h1 : ChunksAligned w tblA vs1 c1) (h2 : ChunksAligned w (tblA ++ ext2) vs2 c2) :
    ChunksAligned w (tblA ++ ext2) (vs1 ++ vs2) (c1 ++ c2) := by
  refine ⟨by simp [h1.1, h2.1], fun j hj => ?_⟩
  rw [List.length_append] at hj
  by_cases hj1 : j < vs1.length
  · rw [List.getD_append _ _ _ _ hj1, List.getD_append _ _ _ _ (by rw [h1.1]; exact hj1)]
    exact ChunkSpec_append w tblA ext2 _ _ (h1.2 j hj1)
  · rw [List.getD_append_right _ _ _ _ (by omega : vs1.length ≤ j),
      List.getD_append_right _ _ _ _ (by rw [h1.1]; omega : c1.length ≤ j), h1.1]
    exact h2.2 (j - vs1.length) (by omega)

theorem getD_append_self (tbl : List PVal) (v : PVal) (rest : List PVal) :
    (tbl ++ (v :: rest)).getD tbl.length .vnull = v := by
  rw [List.getD_append_right _ _ _ _ (le_refl _), Nat.sub_self]
  rfl

theorem getD_concat_self (tbl : List PVal) (v : PVal) :
    (tbl ++ [v]).getD tbl.length .vnull = v :=
  getD_append_self tbl v []

theorem subIds_sub_allIds (v : PVal) (id2 : ℕ) (h : id2 ∈ subIds v) : id2 ∈ allIds v := by
  cases v with
  | varr a xs =>
    rw [allIds_varr]
    exact List.mem_cons_of_mem _ h
  | vset a xs =>
    rw [allIds_vset]
    exact List.mem_cons_of_mem _ h
  | vdict a kvs =>
    rw [allIds_vdict]
    exact List.mem_cons_of_mem _ h
  | _ => simp [subIds] at h

theorem keyOf_not_kobj_of_byValue (v : PVal) (hb : byValue v = true) (id2 : ℕ) :
    keyOf v ≠ .kobj id2 := by
  cases v <;> simp_all [byValue, keyOf]

theorem keyOf_obj (v : PVal) (hb : byValue v = false) :
    ∃ idv, keyOf v = .kobj idv ∧ idv ∈ allIds v := by
  cases v with
  | vdate a ms => exact ⟨a, rfl, by simp [allIds]⟩
  | vdata a bs => exact ⟨a, rfl, by simp [allIds]⟩
  | vuid a bs => exact ⟨a, rfl, by simp [allIds]⟩
  | varr a xs => exact ⟨a, rfl, by rw [allIds_varr]; exact List.mem_cons_self _ _⟩
  | vset a xs => exact ⟨a, rfl, by rw [allIds_vset]; exact List.mem_cons_self _ _⟩
  | vdict a kvs => exact ⟨a, rfl, by rw [allIds_vdict]; exact List.mem_cons_self _ _⟩
  | _ => simp [byValue] at hb

theorem goodB_varr_children (id : ℕ) (xs : List PVal) (h : goodB (.varr id xs) = true) :
    ∀ x ∈ xs, goodB x = true := by
  simp only [goodB, List.all_eq_true] at h
  intro x hx
  exact h ⟨x, hx⟩ (List.mem_attach _ _)

theorem goodB_vset_children (id : ℕ) (xs : List PVal) (h : goodB (.vset id xs) = true) :
    ∀ x ∈ xs, goodB x = true := by
  simp only [goodB, Bool.and_eq_true, List.all_eq_true] at h
  intro x hx
  exact h.1 ⟨x, hx⟩ (List.mem_attach _ _)

theorem goodB_vdict_children (id : ℕ) (kvs : List (List ℕ × PVal))
    (h : goodB (.vdict id kvs) = true) :
    ∀ kv ∈ kvs, strGoodB kv.1 = true ∧ goodB kv.2 = true := by
  simp only [goodB, Bool.and_eq_true, List.all_eq_true] at h
  intro kv hkv
  have := h.1 ⟨kv, hkv⟩ (List.mem_attach _ _)
  exact this

theorem specRef_of_specTy (v : PVal) (hty : SpecTy v) : SpecRef v := by
  intro st w tbl chunks st' i henc hmap hoff hgood hnodup hfresh
  rw [encRef] at henc
  cases halk : alookup (keyOf v) st.map with
  | some idx =>
    simp only [halk] at henc
    injection henc with h1
    have hchunks : chunks = [] := (congrArg Prod.fst h1).symm
    have hst : st' = st := (congrArg (fun p => p.2.1) h1).symm
    have hi : i = ((idx : ℕ) : ℤ) := (congrArg (fun p => p.2.2) h1).symm
    have hmem := alookup_mem (keyOf v) st.map idx halk
    obtain ⟨hlt, hkey⟩ := hmap (keyOf v, idx) hmem
    have hslot : tbl.getD idx .vnull = v := by
      cases hbv : byValue v with
      | true => exact keyOf_byValue_inj v _ hbv hkey
      | false =>
        obtain ⟨idv, hkv, hidv⟩ := keyOf_obj v hbv
        exact absurd hkv (hfresh (keyOf v, idx) hmem idv hidv)
    refine ⟨[], ?_, ?_, by simp, idx, hi, ?_, ?_⟩
    · rw [List.append_nil, hst]
      exact NewOK_refl st tbl _ hmap hoff
    · rw [List.append_nil, hchunks]
      exact ChunksAligned_nil w tbl
    · rw [List.append_nil]
      exact hlt
    · rw [List.append_nil]
      exact hslot
  | none =>
    simp only [halk] at henc
    cases hty2 : encTy v { map := st.map ++ [(keyOf v, st.offset)], offset := st.offset + 1 } w with
    | error e =>
      simp only [hty2] at henc
      cases henc
    | ok pair =>
      obtain ⟨chunks2, st2'⟩ := pair
      simp only [hty2] at henc
      injection henc with h1
      have hchunks : chunks = chunks2 := (congrArg Prod.fst h1).symm
      have hst : st' = st2' := (congrArg (fun p => p.2.1) h1).symm
      have hi : i = ((st.offset : ℕ) : ℤ) := (congrArg (fun p => p.2.2) h1).symm
      have hmap2 : MapOK (st.map ++ [(keyOf v, st.offset)]) (tbl ++ [v]) := by
        intro e he
        rcases List.mem_append.1 he with he1 | he1
        · exact MapOK_append st.map tbl [v] hmap e he1
        · rw [List.mem_singleton] at he1
          subst he1
          refine ⟨by simp [hoff], ?_⟩
          rw [hoff, getD_concat_self]
      have hfresh2 : ∀ e ∈ st.map ++ [(keyOf v, st.offset)], ∀ id2 ∈ subIds v,
          e.1 ≠ .kobj id2 := by
        intro e he id2 hid2
        rcases List.mem_append.1 he with he1 | he1
        · exact hfresh e he1 id2 (subIds_sub_allIds v id2 hid2)
        · rw [List.mem_singleton] at he1
          subst he1
          cases hbv : byValue v with
          | true => exact keyOf_not_kobj_of_byValue v hbv id2
          | false =>
            obtain ⟨idv, hkv, hidv⟩ := keyOf_obj v hbv
            rw [hkv]
            intro hcon
            injection hcon with hcon2
            subst hcon2
            cases v with
            | varr a xs =>
              rw [allIds_varr] at hnodup hidv
              simp only [List.mem_cons] at hidv
              rcases hidv with hidv | hidv
              · subst hidv
                exact (List.nodup_cons.1 hnodup).1 hid2
              · injection hkv with hk2
                subst hk2
                exact (List.nodup_cons.1 hnodup).1 hid2
            | vset a xs =>
              rw [allIds_vset] at hnodup hidv
              simp only [List.mem_cons] at hidv
              rcases hidv with hidv | hidv
              · subst hidv
                exact (List.nodup_cons.1 hnodup).1 hid2
              · injection hkv with hk2
                subst hk2
                exact (List.nodup_cons.1 hnodup).1 hid2
            | vdict a kvs =>
              rw [allIds_vdict] at hnodup hidv
              simp only [List.mem_cons] at hidv
              rcases hidv with hidv | hidv
              · subst hidv
                exact (List.nodup_cons.1 hnodup).1 hid2
              · injection hkv with hk2
                subst hk2
                exact (List.nodup_cons.1 hnodup).1 hid2
            | _ => simp [subIds] at hid2
      obtain ⟨ext', hNew, hAlign, hGood⟩ := hty
        { map := st.map ++ [(keyOf v, st.offset)], offset := st.offset + 1 } w tbl chunks2 st2'
        hty2 hmap2 (by simp [hoff]) hgood hnodup hfresh2
      have hassoc : tbl ++ (v :: ext') = tbl ++ [v] ++ ext' := by simp
      refine ⟨v :: ext', ?_, ?_, ?_, tbl.length, ?_, ?_, ?_⟩
      · rw [hassoc, hst]
        refine NewOK_chain st _ st2' (tbl ++ [v]) (tbl ++ [v] ++ ext') (allIds v) (subIds v)
          (allIds v) ?_ hNew (fun x hx => hx) (fun x hx => subIds_sub_allIds v x hx)
        refine ⟨List.prefix_append _ _, hmap2, by simp [hoff], ?_⟩
        intro e he
        rcases List.mem_append.1 he with he1 | he1
        · exact Or.inl he1
        · rw [List.mem_singleton] at he1
          subst he1
          cases hbv : byValue v with
          | true =>
            refine Or.inr fun id2 hcon => absurd ?_ (keyOf_not_kobj_of_byValue v hbv id2)
            exact hcon
          | false =>
            obtain ⟨idv, hkv, hidv⟩ := keyOf_obj v hbv
            refine Or.inr fun id2 hcon => ?_
            rw [hkv] at hcon
            injection hcon with hcon2
            subst hcon2
            exact hidv
      · rw [hassoc, hchunks]
        exact hAlign
      · intro u hu
        rcases List.mem_cons.1 hu with hu1 | hu1
        · subst hu1
          exact hgood
        · exact hGood u hu1
      · rw [hi, hoff]
      · simp only [List.length_append, List.length_cons]
        omega
      · exact getD_append_self tbl v ext'

theorem allIds_vstr (s : List ℕ) : allIds (.vstr s) = [] := by
  rw [allIds]

theorem ChunksAligned_cons (w : ℕ) (tbl2 : List PVal) (v : PVal) (c : List ℕ)
    (vs : List PVal) (cs : List (List ℕ))
    (hc : ChunkSpec w tbl2 v c) (h : ChunksAligned w tbl2 vs cs) :
    ChunksAligned w tbl2 (v :: vs) (c :: cs) := by
  refine ⟨by simp [h.1], fun j hj => ?_⟩
  cases j with
  | zero => exact hc
  | succ j2 => exact h.2 j2 (by simpa using hj)

theorem getD_prefix_stable (t1 t2 : List PVal) (hpre : t1 <+: t2) (r : ℕ)
    (hr : r < t1.length) : t2.getD r .vnull = t1.getD r .vnull := by
  obtain ⟨rest, hrest⟩ := hpre
  rw [← hrest, List.getD_append _ _ _ _ hr]

theorem refsSpec_mono (t1 t2 : List PVal) (children : List PVal) (refs : List ℤ)
    (hpre : t1 <+: t2) (h : refsSpec t1 children refs) : refsSpec t2 children refs := by
  refine ⟨h.1, fun k hk => ?_⟩
  obtain ⟨r, h1, h2, h3⟩ := h.2 k hk
  exact ⟨r, h1, lt_of_lt_of_le h2 (List.IsPrefix.length_le hpre),
    by rw [getD_prefix_stable t1 t2 hpre r h2, h3]⟩

theorem goodB_vstr (s : List ℕ) : goodB (.vstr s) = strGoodB s := by
  rw [goodB]

theorem specList_nil : SpecList [] := by
  intro st w tbl chunks refs st' henc hmap hoff _ _ _
  simp only [encList] at henc
  injection henc with h1
  have hchunks : chunks = [] := (congrArg Prod.fst h1).symm
  have hrefs : refs = [] := (congrArg (fun p => p.2.1) h1).symm
  have hst : st' = st := (congrArg (fun p => p.2.2) h1).symm
  subst hchunks hrefs
  rw [hst]
  refine ⟨[], ?_, ?_, by simp, ?_⟩
  · rw [List.append_nil]
    exact NewOK_refl st tbl _ hmap hoff
  · rw [List.append_nil]
    exact ChunksAligned_nil w tbl
  · exact ⟨rfl, fun k hk => absurd hk (by simp)⟩

theorem specList_cons (x : PVal) (xs : List PVal)
    (hx : SpecRef x) (hxs : SpecList xs) : SpecList (x :: xs) := by
  intro st w tbl chunks refs st' henc hmap hoff hgood hnodup hfresh
  simp only [encList] at henc
  cases h1 : encRef x st w with
  | error e =>
    simp only [h1] at henc
    cases henc
  | ok trip =>
    obtain ⟨cx, st1, ix⟩ := trip
    simp only [h1] at henc
    cases h2 : encList xs st1 w with
    | error e =>
      simp only [h2] at henc
      cases henc
    | ok trip2 =>
      obtain ⟨cs, refs2, st2⟩ := trip2
      simp only [h2] at henc
      injection henc with h3
      have hchunks : chunks = cx ++ cs := (congrArg Prod.fst h3).symm
      have hrefs : refs = ix :: refs2 := (congrArg (fun p => p.2.1) h3).symm
      have hst : st' = st2 := (congrArg (fun p => p.2.2) h3).symm
      have hflat : ((x :: xs).map allIds).flatten = allIds x ++ (xs.map allIds).flatten := by
        simp
      rw [hflat] at hnodup hfresh ⊢
      rw [List.nodup_append] at hnodup
      obtain ⟨hnx, hnxs, hdisj⟩ := hnodup
      obtain ⟨ext1, hNew1, hAlign1, hGood1, r, hr, hrlt, hrslot⟩ :=
        hx st w tbl cx st1 ix h1 hmap hoff (hgood x (by simp)) hnx
          (fun e he id2 hid2 => hfresh e he id2 (List.mem_append.2 (Or.inl hid2)))
      obtain ⟨ext2, hNew2, hAlign2, hGood2, hrefs2⟩ :=
        hxs st1 w (tbl ++ ext1) cs refs2 st2 h2 hNew1.2.1 hNew1.2.2.1
          (fun u hu => hgood u (by simp [hu]))
          hnxs
          (by
            intro e he id2 hid2
            rcases hNew1.2.2.2 e he with he0 | hk
            · exact hfresh e he0 id2 (List.mem_append.2 (Or.inr hid2))
            · intro hcon
              exact hdisj (hk id2 hcon) hid2)
      have hassoc : tbl ++ (ext1 ++ ext2) = tbl ++ ext1 ++ ext2 :=
        (List.append_assoc _ _ _).symm
      refine ⟨ext1 ++ ext2, ?_, ?_, ?_, ?_⟩
      · rw [hassoc, hst]
        exact NewOK_chain st st1 st2 (tbl ++ ext1) (tbl ++ ext1 ++ ext2) (allIds x)
          ((xs.map allIds).flatten) _ hNew1 hNew2
          (fun y hy => List.mem_append.2 (Or.inl hy))
          (fun y hy => List.mem_append.2 (Or.inr hy))
      · rw [hassoc, hchunks]
        exact ChunksAligned_append w (tbl ++ ext1) ext2 ext1 ext2 cx cs hAlign1 hAlign2
      · intro u hu
        rcases List.mem_append.1 hu with hu1 | hu1
        · exact hGood1 u hu1
        · exact hGood2 u hu1
      · rw [hassoc, hrefs]
        refine ⟨by simp [hrefs2.1], fun k hk => ?_⟩
        cases k with
        | zero =>
          refine ⟨r, hr, ?_, ?_⟩
          · have := hrlt
            simp only [List.length_append] at this ⊢
            omega
          · rw [List.getD_append _ _ _ _ hrlt]
            exact hrslot
        | succ k2 =>
          obtain ⟨r2, hr2, hr2lt, hr2slot⟩ := hrefs2.2 k2 (by simpa using hk)
          exact ⟨r2, hr2, hr2lt, hr2slot⟩

theorem specPairs_nil : SpecPairs [] := by
  intro st w tbl chunks krefs vrefs st' henc hmap hoff _ _ _
  simp only [encPairs] at henc
  injection henc with h1
  have hchunks : chunks = [] := (congrArg Prod.fst h1).symm
  have hk : krefs = [] := (congrArg (fun p => p.2.1) h1).symm
  have hv : vrefs = [] := (congrArg (fun p => p.2.2.1) h1).symm
  have hst : st' = st := (congrArg (fun p => p.2.2.2) h1).symm
  subst hchunks hk hv
  rw [hst]
  refine ⟨[], ?_, ?_, by simp, ?_, ?_⟩
  · rw [List.append_nil]
    exact NewOK_refl st tbl _ hmap hoff
  · rw [List.append_nil]
    exact ChunksAligned_nil w tbl
  · exact ⟨rfl, fun k hk => absurd hk (by simp)⟩
  · exact ⟨rfl, fun k hk => absurd hk (by simp)⟩

theorem specPairs_cons (k : List ℕ) (v : PVal) (kvs : List (List ℕ × PVal))
    (hk : SpecRef (.vstr k)) (hv : SpecRef v) (hkvs : SpecPairs kvs) :
    SpecPairs ((k, v) :: kvs) := by
  intro st w tbl chunks krefs vrefs st' henc hmap hoff hgood hnodup hfresh
  simp only [encPairs] at henc
  cases h1 : encRef (.vstr k) st w with
  | error e =>
    simp only [h1] at henc
    cases henc
  | ok tripK =>
    obtain ⟨ck, st1, ik⟩ := tripK
    simp only [h1] at henc
    cases h2 : encRef v st1 w with
    | error e =>
      simp only [h2] at henc
      cases henc
    | ok tripV =>
      obtain ⟨cv, st2, iv⟩ := tripV
      simp only [h2] at henc
      cases h3 : encPairs kvs st2 w with
      | error e =>
        simp only [h3] at henc
        cases henc
      | ok tripR =>
        obtain ⟨cs, ks2, vs2, st3⟩ := tripR
        simp only [h3] at henc
        injection henc with h4
        have hchunks : chunks = ck ++ cv ++ cs := (congrArg Prod.fst h4).symm
        have hkr : krefs = ik :: ks2 := (congrArg (fun p => p.2.1) h4).symm
        have hvr : vrefs = iv :: vs2 := (congrArg (fun p => p.2.2.1) h4).symm
        have hst : st' = st3 := (congrArg (fun p => p.2.2.2) h4).symm
        have hflat : (((k, v) :: kvs).map fun kv => allIds kv.2).flatten =
            allIds v ++ (kvs.map fun kv => allIds kv.2).flatten := by
          simp
        rw [hflat] at hnodup hfresh ⊢
        rw [List.nodup_append] at hnodup
        obtain ⟨hnv, hnvs, hdisj⟩ := hnodup
        have hgk : strGoodB k = true ∧ goodB v = true := hgood (k, v) (by simp)
        obtain ⟨extK, hNewK, hAlignK, hGoodK, rk, hrk, hrklt, hrkslot⟩ :=
          hk st w tbl ck st1 ik h1 hmap hoff (by rw [goodB_vstr]; exact hgk.1)
            (by rw [allIds_vstr k]; exact List.nodup_nil)
            (fun e he id2 hid2 => absurd hid2 (by simp [allIds_vstr k]))
        obtain ⟨extV, hNewV, hAlignV, hGoodV, rv, hrv, hrvlt, hrvslot⟩ :=
          hv st1 w (tbl ++ extK) cv st2 iv h2 hNewK.2.1 hNewK.2.2.1 hgk.2 hnv
            (by
              intro e he id2 hid2
              rcases hNewK.2.2.2 e he with he0 | hkk
              · exact hfresh e he0 id2 (List.mem_append.2 (Or.inl hid2))
              · intro hcon
                exact absurd (hkk id2 hcon) (by simp [allIds_vstr k]))
        obtain ⟨extR, hNewR, hAlignR, hGoodR, hrefsK, hrefsV⟩ :=
          hkvs st2 w (tbl ++ extK ++ extV) cs ks2 vs2 st3 h3 hNewV.2.1 hNewV.2.2.1
            (fun kv hkv => hgood kv (by simp [hkv]))
            hnvs
            (by
              intro e he id2 hid2
              rcases hNewV.2.2.2 e he with he0 | hkk
              · rcases hNewK.2.2.2 e he0 with he1 | hkk
                · exact hfresh e he1 id2 (List.mem_append.2 (Or.inr hid2))
                · intro hcon
                  exact absurd (hkk id2 hcon) (by simp [allIds_vstr k])
              · intro hcon
                exact hdisj (hkk id2 hcon) hid2)
        have hassoc : tbl ++ (extK ++ extV ++ extR) = tbl ++ extK ++ extV ++ extR := by
          simp [List.append_assoc]
        have hpreK : tbl ++ extK <+: tbl ++ extK ++ extV ++ extR :=
          ⟨extV ++ extR, by simp [List.append_assoc]⟩
        have hpreV : tbl ++ extK ++ extV <+: tbl ++ extK ++ extV ++ extR :=
          ⟨extR, by simp [List.append_assoc]⟩
        refine ⟨extK ++ extV ++ extR, ?_, ?_, ?_, ?_, ?_⟩
        · rw [hassoc, hst]
          refine NewOK_chain st st2 st3 (tbl ++ extK ++ extV) (tbl ++ extK ++ extV ++ extR)
            (allIds v) ((kvs.map fun kv => allIds kv.2).flatten) _ ?_ hNewR
            (fun y hy => List.mem_append.2 (Or.inl hy))
            (fun y hy => List.mem_append.2 (Or.inr hy))
          refine NewOK_chain st st1 st2 (tbl ++ extK) (tbl ++ extK ++ extV)
            [] (allIds v) (allIds v) ?_ hNewV
            (fun y hy => absurd hy (List.not_mem_nil y))
            (fun y hy => hy)
          exact ⟨hNewK.1, hNewK.2.1, hNewK.2.2.1, fun e he =>
            (hNewK.2.2.2 e he).imp id (fun hkk id2 hcon => by
              exact absurd (hkk id2 hcon) (by simp [allIds_vstr k]))⟩
        · rw [hassoc, hchunks]
          have hA1 := ChunksAligned_append w (tbl ++ extK) extV extK extV ck cv hAlignK hAlignV
          exact ChunksAligned_append w (tbl ++ extK ++ extV) extR (extK ++ extV) extR
            (ck ++ cv) cs hA1 hAlignR
        · intro u hu
          rcases List.mem_append.1 hu with hu1 | hu1
          · rcases List.mem_append.1 hu1 with hu2 | hu2
            · exact hGoodK u hu2
            · exact hGoodV u hu2
          · exact hGoodR u hu1
        · rw [hassoc, hkr]
          refine ⟨by simp [hrefsK.1], fun m hm => ?_⟩
          cases m with
          | zero =>
            refine ⟨rk, hrk, lt_of_lt_of_le hrklt (List.IsPrefix.length_le hpreK), ?_⟩
            rw [getD_prefix_stable _ _ hpreK rk hrklt]
            exact hrkslot
          | succ m2 =>
            obtain ⟨r2, h5, h6, h7⟩ := hrefsK.2 m2 (by simpa using hm)
            exact ⟨r2, h5, h6, h7⟩
        · rw [hassoc, hvr]
          refine ⟨by simp [hrefsV.1], fun m hm => ?_⟩
          cases m with
          | zero =>
            refine ⟨rv, hrv, lt_of_lt_of_le hrvlt (List.IsPrefix.length_le hpreV), ?_⟩
            rw [getD_prefix_stable _ _ hpreV rv hrvlt]
            exact hrvslot
          | succ m2 =>
            obtain ⟨r2, h5, h6, h7⟩ := hrefsV.2 m2 (by simpa using hm)
            exact ⟨r2, h5, h6, h7⟩

theorem specTy_prim (v : PVal) (hsub : subIds v = [])
    (h : ∀ (st : EncSt) (w : ℕ) (chunks : List (List ℕ)) (st' : EncSt),
        encTy v st w = .ok (chunks, st') →
        ∃ c, chunks = [c] ∧ st' = st ∧ ∀ tbl2 : List PVal, ChunkSpec w tbl2 v c) :
    SpecTy v := by
  intro st w tbl chunks st' henc hmap hoff _ _ _
  obtain ⟨c, hchunks, hst, hcs⟩ := h st w chunks st' henc
  subst hchunks
  rw [hst, hsub]
  refine ⟨[], ?_, ?_, by simp⟩
  · rw [List.append_nil]
    exact NewOK_refl st (tbl ++ [v]) [] hmap hoff
  · rw [List.append_nil]
    exact ChunksAligned_cons w (tbl ++ [v]) v c [] [] (hcs _) (ChunksAligned_nil w _)

theorem specTy_step (v : PVal)
    (hL : ∀ (id : ℕ) (xs : List PVal), v = .varr id xs → SpecList xs)
    (hS : ∀ (id : ℕ) (xs : List PVal), v = .vset id xs → SpecList xs)
    (hP : ∀ (id : ℕ) (kvs : List (List ℕ × PVal)), v = .vdict id kvs → SpecPairs kvs) :
    SpecTy v := by
  cases v with
  | vnull =>
    refine specTy_prim _ rfl ?_
    intro st w chunks st' henc
    simp only [encTy] at henc
    cases hph : packDataHeader 0 0 with
    | error e =>
      simp only [hph] at henc
      cases henc
    | ok hd =>
      simp only [hph] at henc
      have h0 : packDataHeader 0 0 = Except.ok 0 := rfl
      rw [h0] at hph
      injection hph with h2
      subst h2
      injection henc with h1
      exact ⟨[0], (congrArg Prod.fst h1).symm, (congrArg Prod.snd h1).symm, fun tbl2 => rfl⟩
  | vbool b =>
    cases b with
    | true =>
      refine specTy_prim _ rfl ?_
      intro st w chunks st' henc
      simp only [encTy] at henc
      cases hph : packDataHeader 0 9 with
      | error e =>
        simp only [hph] at henc
        cases henc
      | ok hd =>
        simp only [hph] at henc
        have h0 : packDataHeader 0 9 = Except.ok 9 := rfl
        rw [h0] at hph
        injection hph with h2
        subst h2
        injection henc with h1
        exact ⟨[9], (congrArg Prod.fst h1).symm, (congrArg Prod.snd h1).symm, fun tbl2 => rfl⟩
    | false =>
      refine specTy_prim _ rfl ?_
      intro st w chunks st' henc
      simp only [encTy] at henc
      cases hph : packDataHeader 0 8 with
      | error e =>
        simp only [hph] at henc
        cases henc
      | ok hd =>
        simp only [hph] at henc
        have h0 : packDataHeader 0 8 = Except.ok 8 := rfl
        rw [h0] at hph
        injection hph with h2
        subst h2
        injection henc with h1
        exact ⟨[8], (congrArg Prod.fst h1).symm, (congrArg Prod.snd h1).symm, fun tbl2 => rfl⟩
  | vnum q =>
    refine specTy_prim _ rfl ?_
    intro st w chunks st' henc
    simp only [encTy] at henc
    cases hc : encodeNumber q false with
    | error e =>
      simp only [hc] at henc
      cases henc
    | ok c =>
      simp only [hc] at henc
      injection henc with h1
      exact ⟨c, (congrArg Prod.fst h1).symm, (congrArg Prod.snd h1).symm, fun tbl2 => hc⟩
  | vbig n =>
    refine specTy_prim _ rfl ?_
    intro st w chunks st' henc
    simp only [encTy] at henc
    cases hc : encodeNumber (n : ℚ) true with
    | error e =>
      simp only [hc] at henc
      cases henc
    | ok c =>
      simp only [hc] at henc
      injection henc with h1
      exact ⟨c, (congrArg Prod.fst h1).symm, (congrArg Prod.snd h1).symm, fun tbl2 => hc⟩
  | vstr s =>
    refine specTy_prim _ rfl ?_
    intro st w chunks st' henc
    simp only [encTy] at henc
    by_cases hA : s.all (· ≤ 127) = true
    · rw [if_pos hA] at henc
      cases hc : encodeAscii s with
      | error e =>
        simp only [hc] at henc
        cases henc
      | ok c =>
        simp only [hc] at henc
        injection henc with h1
        refine ⟨c, (congrArg Prod.fst h1).symm, (congrArg Prod.snd h1).symm, fun tbl2 => ?_⟩
        show (if s.all (· ≤ 127) then encodeAscii s else encodeUtf16BE s) = .ok c
        rw [if_pos hA]
        exact hc
    · rw [if_neg hA] at henc
      cases hc : encodeUtf16BE s with
      | error e =>
        simp only [hc] at henc
        cases henc
      | ok c =>
        simp only [hc] at henc
        injection henc with h1
        refine ⟨c, (congrArg Prod.fst h1).symm, (congrArg Prod.snd h1).symm, fun tbl2 => ?_⟩
        show (if s.all (· ≤ 127) then encodeAscii s else encodeUtf16BE s) = .ok c
        rw [if_neg hA]
        exact hc
  | vdate a ms =>
    refine specTy_prim _ rfl ?_
    intro st w chunks st' henc
    simp only [encTy] at henc
    cases hc : encodeDate ms with
    | error e =>
      simp only [hc] at henc
      cases henc
    | ok c =>
      simp only [hc] at henc
      injection henc with h1
      exact ⟨c, (congrArg Prod.fst h1).symm, (congrArg Prod.snd h1).symm, fun tbl2 => hc⟩
  | vdata a bs =>
    refine specTy_prim _ rfl ?_
    intro st w chunks st' henc
    simp only [encTy] at henc
    cases hc : encodeBuffer bs 4 1 with
    | error e =>
      simp only [hc] at henc
      cases henc
    | ok c =>
      simp only [hc] at henc
      injection henc with h1
      exact ⟨c, (congrArg Prod.fst h1).symm, (congrArg Prod.snd h1).symm, fun tbl2 => hc⟩
  | vuid a bs =>
    refine specTy_prim _ rfl ?_
    intro st w chunks st' henc
    simp only [encTy] at henc
    cases hc : encodeUID bs with
    | error e =>
      simp only [hc] at henc
      cases henc
    | ok c =>
      simp only [hc] at henc
      injection henc with h1
      exact ⟨c, (congrArg Prod.fst h1).symm, (congrArg Prod.snd h1).symm, fun tbl2 => hc⟩
  | varr a xs =>
    intro st w tbl chunks st' henc hmap hoff hgood hnodup hfresh
    simp only [encTy] at henc
    cases h1 : encList xs st w with
    | error e =>
      simp only [h1] at henc
      cases henc
    | ok trip =>
      obtain ⟨cs, refs, st2⟩ := trip
      simp only [h1] at henc
      cases h2 : encodeObjects xs.length 0xA refs w with
      | error e =>
        simp only [h2] at henc
        cases henc
      | ok meta =>
        simp only [h2] at henc
        injection henc with h3
        have hchunks : chunks = meta :: cs := (congrArg Prod.fst h3).symm
        have hst : st' = st2 := (congrArg Prod.snd h3).symm
        have hnd : ((xs.map allIds).flatten).Nodup := by
          rw [allIds_varr] at hnodup
          exact (List.nodup_cons.1 hnodup).2
        obtain ⟨ext, hNew, hAlign, hGood, hrefs⟩ :=
          hL a xs rfl st w (tbl ++ [PVal.varr a xs]) cs refs st2 h1 hmap hoff
            (goodB_varr_children a xs hgood) hnd hfresh
        refine ⟨ext, ?_, ?_, hGood⟩
        · rw [hst]
          exact hNew
        · rw [hchunks]
          exact ChunksAligned_cons w (tbl ++ [PVal.varr a xs] ++ ext) (PVal.varr a xs) meta
            ext cs ⟨refs, h2, hrefs⟩ hAlign
  | vset a xs =>
    intro st w tbl chunks st' henc hmap hoff hgood hnodup hfresh
    simp only [encTy] at henc
    cases h1 : encList xs st w with
    | error e =>
      simp only [h1] at henc
      cases henc
    | ok trip =>
      obtain ⟨cs, refs, st2⟩ := trip
      simp only [h1] at henc
      cases h2 : encodeObjects xs.length 0xC refs w with
      | error e =>
        simp only [h2] at henc
        cases henc
      | ok meta =>
        simp only [h2] at henc
        injection henc with h3
        have hchunks : chunks = meta :: cs := (congrArg Prod.fst h3).symm
        have hst : st' = st2 := (congrArg Prod.snd h3).symm
        have hnd : ((xs.map allIds).flatten).Nodup := by
          rw [allIds_vset] at hnodup
          exact (List.nodup_cons.1 hnodup).2
        obtain ⟨ext, hNew, hAlign, hGood, hrefs⟩ :=
          hS a xs rfl st w (tbl ++ [PVal.vset a xs]) cs refs st2 h1 hmap hoff
            (goodB_vset_children a xs hgood) hnd hfresh
        refine ⟨ext, ?_, ?_, hGood⟩
        · rw [hst]
          exact hNew
        · rw [hchunks]
          exact ChunksAligned_cons w (tbl ++ [PVal.vset a xs] ++ ext) (PVal.vset a xs) meta
            ext cs ⟨refs, h2, hrefs⟩ hAlign
  | vdict a kvs =>
    intro st w tbl chunks st' henc hmap hoff hgood hnodup hfresh
    simp only [encTy] at henc
    cases h1 : encPairs kvs st w with
    | error e =>
      simp only [h1] at henc
      cases henc
    | ok trip =>
      obtain ⟨cs, krefs, vrefs, st2⟩ := trip
      simp only [h1] at henc
      cases h2 : encodeObjects kvs.length 0xD (krefs ++ vrefs) w with
      | error e =>
        simp only [h2] at henc
        cases henc
      | ok meta =>
        simp only [h2] at henc
        injection henc with h3
        have hchunks : chunks = meta :: cs := (congrArg Prod.fst h3).symm
        have hst : st' = st2 := (congrArg Prod.snd h3).symm
        have hnd : ((kvs.map fun kv => allIds kv.2).flatten).Nodup := by
          rw [allIds_vdict] at hnodup
          exact (List.nodup_cons.1 hnodup).2
        obtain ⟨ext, hNew, hAlign, hGood, hrefsK, hrefsV⟩ :=
          hP a kvs rfl st w (tbl ++ [PVal.vdict a kvs]) cs krefs vrefs st2 h1 hmap hoff
            (goodB_vdict_children a kvs hgood) hnd hfresh
        refine ⟨ext, ?_, ?_, hGood⟩
        · rw [hst]
          exact hNew
        · rw [hchunks]
          exact ChunksAligned_cons w (tbl ++ [PVal.vdict a kvs] ++ ext) (PVal.vdict a kvs) meta
            ext cs ⟨krefs, vrefs, h2, hrefsK, hrefsV⟩ hAlign

theorem sizeOf_list_pos {α : Type} [SizeOf α] (l : List α) : 0 < sizeOf l := by
  cases l with
  | nil => simp
  | cons a l => simp only [List.cons.sizeOf_spec]; omega

theorem pval_sizeOf_pos (v : PVal) : 0 < sizeOf v := by
  cases v <;> simp only [PVal.vnull.sizeOf_spec, PVal.vbool.sizeOf_spec, PVal.vnum.sizeOf_spec,
    PVal.vbig.sizeOf_spec, PVal.vstr.sizeOf_spec, PVal.vdate.sizeOf_spec, PVal.vdata.sizeOf_spec,
    PVal.vuid.sizeOf_spec, PVal.varr.sizeOf_spec, PVal.vset.sizeOf_spec,
    PVal.vdict.sizeOf_spec] <;> omega

theorem stage1 (n : ℕ) :
    (∀ v : PVal, sizeOf v ≤ n → SpecTy v) ∧
    (∀ xs : List PVal, sizeOf xs ≤ n → SpecList xs) ∧
    (∀ kvs : List (List ℕ × PVal), sizeOf kvs ≤ n → SpecPairs kvs) := by
  induction n using Nat.strong_induction_on with
  | _ n IH =>
    have hlist : ∀ xs : List PVal, sizeOf xs ≤ n → SpecList xs := by
      intro xs hsz
      cases xs with
      | nil => exact specList_nil
      | cons x rest =>
        simp only [List.cons.sizeOf_spec] at hsz
        have hp1 := pval_sizeOf_pos x
        have hp2 := sizeOf_list_pos rest
        have hx : sizeOf x < n := by omega
        have hr : sizeOf rest < n := by omega
        exact specList_cons x rest
          (specRef_of_specTy x ((IH (sizeOf x) hx).1 x le_rfl))
          ((IH (sizeOf rest) hr).2.1 rest le_rfl)
    have hpairs : ∀ kvs : List (List ℕ × PVal), sizeOf kvs ≤ n → SpecPairs kvs := by
      intro kvs hsz
      cases kvs with
      | nil => exact specPairs_nil
      | cons kv rest =>
        obtain ⟨k, v⟩ := kv
        simp only [List.cons.sizeOf_spec, Prod.mk.sizeOf_spec] at hsz
        have hp1 := pval_sizeOf_pos v
        have hp2 := sizeOf_list_pos rest
        have hp3 := sizeOf_list_pos k
        have h1 : sizeOf (PVal.vstr k) < n := by
          simp only [PVal.vstr.sizeOf_spec]
          omega
        have h2 : sizeOf v < n := by omega
        have h3 : sizeOf rest < n := by omega
        exact specPairs_cons k v rest
          (specRef_of_specTy _ ((IH _ h1).1 _ le_rfl))
          (specRef_of_specTy _ ((IH _ h2).1 _ le_rfl))
          ((IH _ h3).2.2 rest le_rfl)
    have hty : ∀ v : PVal, sizeOf v ≤ n → SpecTy v := by
      intro v hsz
      refine specTy_step v ?_ ?_ ?_
      · intro id xs heq
        subst heq
        refine hlist xs ?_
        simp only [PVal.varr.sizeOf_spec] at hsz
        omega
      · intro id xs heq
        subst heq
        refine hlist xs ?_
        simp only [PVal.vset.sizeOf_spec] at hsz
        omega
      · intro id kvs heq
        subst heq
        refine hpairs kvs ?_
        simp only [PVal.vdict.sizeOf_spec] at hsz
        omega
    exact ⟨hty, hlist, hpairs⟩

theorem specTy_all (v : PVal) : SpecTy v := (stage1 (sizeOf v)).1 v le_rfl

theorem specRef_all (v : PVal) : SpecRef v := specRef_of_specTy v (specTy_all v)

theorem integerByteLength_widths (n : ℤ) (w : ℕ) (h : integerByteLength n = .ok w) :
    w = 1 ∨ w = 2 ∨ w = 4 ∨ w = 8 ∨ w = 16 := by
  rw [integerByteLength] at h
  split_ifs at h <;> cases h <;> decide

theorem chunkOffsets_length (L : List (List ℕ)) :
    ∀ base, (chunkOffsets base L).length = L.length := by
  induction L with
  | nil => intro base; rfl
  | cons c rest ih =>
    intro base
    rw [chunkOffsets]
    simp [ih]

theorem chunk_pos (L : List (List ℕ)) : ∀ (pre0 suffix : List ℕ) (j : ℕ), j < L.length →
    ∃ pre post, pre0 ++ L.flatten ++ suffix = pre ++ L.getD j [] ++ post ∧
      pre.length = (chunkOffsets pre0.length L).getD j 0 := by
  induction L with
  | nil =>
    intro pre0 suffix j hj
    simp at hj
  | cons c rest ih =>
    intro pre0 suffix j hj
    cases j with
    | zero =>
      refine ⟨pre0, rest.flatten ++ suffix, ?_, ?_⟩
      · simp [List.append_assoc]
      · rw [chunkOffsets]
        rfl
    | succ j2 =>
      obtain ⟨pre, post, h1, h2⟩ := ih (pre0 ++ c) suffix j2 (by simpa using hj)
      refine ⟨pre, post, ?_, ?_⟩
      · simp only [List.getD_cons_succ]
        rw [← h1]
        simp [List.append_assoc]
      · rw [h2, chunkOffsets]
        simp only [List.getD_cons_succ, List.length_append]

theorem trailerToBuffer_length (N T R W : ℕ) : (trailerToBuffer N T R W).length = 32 := by
  simp [trailerToBuffer, beBytes_length]

theorem trailer_readback (N T R W : ℕ) (hN : N < 2 ^ 64) (hT : T < 2 ^ 64) :
    trailerToObject (trailerToBuffer N T R W) =
      .ok ⟨0, W % 256, R % 256, (N : ℤ), 0, (T : ℤ)⟩ := by
  have e1 : trailerToBuffer N T R W =
      [0, 0, 0, 0, 0, 0, W % 256, R % 256] ++ (beBytes 8 N ++ (beBytes 8 0 ++ beBytes 8 T)) := by
    rw [trailerToBuffer]
    simp [List.append_assoc]
  have e2 : trailerToBuffer N T R W =
      ([0, 0, 0, 0, 0, 0, W % 256, R % 256] ++ beBytes 8 N) ++ (beBytes 8 0 ++ beBytes 8 T) := by
    rw [trailerToBuffer]
    simp [List.append_assoc]
  have e3 : trailerToBuffer N T R W =
      (([0, 0, 0, 0, 0, 0, W % 256, R % 256] ++ beBytes 8 N) ++ beBytes 8 0) ++ beBytes 8 T := by
    rw [trailerToBuffer]
  rw [trailerToObject, if_neg (by rw [trailerToBuffer_length]; omega)]
  refine congrArg Except.ok ?_
  have h5 : (trailerToBuffer N T R W).getD 5 0 = 0 := by rw [e1]; rfl
  have h6 : (trailerToBuffer N T R W).getD 6 0 = W % 256 := by rw [e1]; rfl
  have h7 : (trailerToBuffer N T R W).getD 7 0 = R % 256 := by rw [e1]; rfl
  have hno : ((trailerToBuffer N T R W).drop 8).take 8 = beBytes 8 N := by
    rw [e1, List.drop_left' (by rfl), List.take_left' (beBytes_length 8 N)]
  have hro : ((trailerToBuffer N T R W).drop 16).take 8 = beBytes 8 0 := by
    rw [e2, List.drop_left' (by simp [beBytes_length]), List.take_left' (beBytes_length 8 0)]
  have hoo : ((trailerToBuffer N T R W).drop 24).take 8 = beBytes 8 T := by
    rw [e3, List.drop_left' (by simp [beBytes_length]),
      List.take_of_length_le (le_of_eq (beBytes_length 8 T))]
  rw [h5, h6, h7, hno, hro, hoo, beVal_beBytes 8 N (lt_of_lt_of_le hN (by norm_num)),
    beVal_beBytes 8 0 (by norm_num), beVal_beBytes 8 T (lt_of_lt_of_le hT (by norm_num)),
    Nat.cast_zero]

theorem getLastD_map_int (L : List ℕ) :
    (((L.map fun (o : ℕ) => (o : ℤ)).getLast? ).getD 0) = ((L.getLast? ).getD 0 : ℕ) := by
  induction L with
  | nil => rfl
  | cons a rest ih =>
    cases rest with
    | nil => rfl
    | cons b r2 =>
      simp only [List.map_cons, List.getLast?_cons_cons] at ih ⊢
      exact ih

theorem payload_flatten_length (vs : List ℤ) (size : ℕ)
    (h : ∀ v ∈ vs, rangeOK size v) :
    ((vs.map fun v => intPayload size v).flatten).length = vs.length * size := by
  induction vs with
  | nil => simp
  | cons a rest ih =>
    simp only [List.map_cons, List.flatten_cons, List.length_append, List.length_cons]
    rw [intPayload_length size a (rangeOK_sizes size a (h a (List.mem_cons_self a rest))),
      ih (fun x hx => h x (List.mem_cons_of_mem _ hx))]
    ring

theorem c1_main (v : PVal) (B : List ℕ) (fuel : ℕ)
    (hgb : goodB v = true) (hnodup : (allIds v).Nodup)
    (henc : encodeBinary v = .ok B)
    (hBlen : B.length ≤ 2 ^ 53) (hfuel : pdepth v ≤ fuel) :
    decodeBinaryF fuel B = .ok (erase v) := by
  have hh8 : headerToBuffer.length = 8 := rfl
  simp only [encodeBinary, hh8] at henc
  cases hrs : integerByteLength ((countElements v : ℕ) : ℤ) with
  | error e =>
    simp only [hrs, jsbind_err] at henc
    cases henc
  | ok refSize =>
    simp only [hrs, jsbind_ok] at henc
    cases hety : encTy v { map := [], offset := 1 } refSize with
    | error e =>
      simp only [hety, jsbind_err] at henc
      cases henc
    | ok pr =>
      obtain ⟨chunks, stF⟩ := pr
      simp only [hety, jsbind_ok] at henc
      cases hts : integerByteLength ((((chunkOffsets 8 chunks).getLast? ).getD 0 : ℕ) : ℤ) with
      | error e =>
        simp only [hts, jsbind_err] at henc
        cases henc
      | ok tw =>
        simp only [hts, jsbind_ok] at henc
        cases hpk : packOffsetTable ((chunkOffsets 8 chunks).map fun (o : ℕ) => (o : ℤ)) with
        | error e =>
          simp only [hpk, jsbind_err] at henc
          cases henc
        | ok table =>
          simp only [hpk, jsbind_ok, jspure] at henc
          injection henc with hB
          -- widths
          have hw := integerByteLength_widths _ _ hrs
          have htww := integerByteLength_widths _ _ hts
          have htw1 : 1 ≤ tw := by rcases htww with h | h | h | h | h <;> omega
          have htw256 : tw < 256 := by rcases htww with h | h | h | h | h <;> omega
          have hrs256 : refSize < 256 := by rcases hw with h | h | h | h | h <;> omega
          -- encoder specification
          obtain ⟨ext, hNew, hAlign, hGoodExt⟩ :=
            specTy_all v { map := [], offset := 1 } refSize [] chunks stF hety
              (fun e he => absurd he (List.not_mem_nil e)) rfl hgb hnodup
              (fun e he => absurd he (List.not_mem_nil e))
          have hTf : ([] : List PVal) ++ [v] ++ ext = v :: ext := by simp
          rw [hTf] at hNew hAlign
          have hNlen : chunks.length = ext.length + 1 := by
            rw [hAlign.1]
            rfl
          have hΩlen : (chunkOffsets 8 chunks).length = chunks.length :=
            chunkOffsets_length chunks 8
          -- offset table payload
          simp only [packOffsetTable, getLastD_map_int, hts, jsbind_ok] at hpk
          obtain ⟨htable, hrange⟩ := writeSlots_spec ((chunkOffsets 8 chunks).map fun (o : ℕ) => (o : ℤ))
            [] tw 0 table (by simp) hpk
          rw [List.nil_append] at htable
          have htlen : table.length = chunks.length * tw := by
            rw [htable, payload_flatten_length _ tw hrange, List.length_map, hΩlen]
          have hflen : chunks.flatten.length = (List.map List.length chunks).sum := by
            simp
          -- buffer shape and length
          have hBsplitA : B = (headerToBuffer ++ (chunks.flatten ++ table)) ++
              trailerToBuffer chunks.length (8 + (List.map List.length chunks).sum) refSize tw :=
            hB.symm
          have hBlen2 : B.length = 8 + (List.map List.length chunks).sum +
              chunks.length * tw + 32 := by
            rw [hBsplitA]
            simp only [List.length_append, trailerToBuffer_length, htlen, hflen, hh8]
            ring
          have hNtw : chunks.length ≤ chunks.length * tw := by
            calc chunks.length = chunks.length * 1 := by ring
            _ ≤ chunks.length * tw := Nat.mul_le_mul_left _ htw1
          have hNbound : ((chunks.length : ℕ) : ℤ) ≤ 2 ^ 53 - 1 := by
            have h1 : chunks.length + 40 ≤ 2 ^ 53 := by omega
            omega
          have hTbound : (((8 + (List.map List.length chunks).sum : ℕ)) : ℤ) ≤ 2 ^ 53 - 1 := by
            have h1 : 8 + (List.map List.length chunks).sum + 33 ≤ 2 ^ 53 := by omega
            omega
          -- trailer readback
          have hdrop_tail : ∀ (X tb : List ℕ), tb.length = 32 →
              (X ++ tb).drop ((X ++ tb).length - trailerSize) = tb := by
            intro X tb h32
            apply List.drop_left'
            simp only [List.length_append, h32, trailerSize]
            omega
          have htrdrop : B.drop (B.length - trailerSize) =
              trailerToBuffer chunks.length (8 + (List.map List.length chunks).sum) refSize tw := by
            rw [hBsplitA]
            exact hdrop_tail _ _ (trailerToBuffer_length _ _ _ _)
          have hN64 : chunks.length < 2 ^ 64 := by omega
          have hT64 : 8 + (List.map List.length chunks).sum < 2 ^ 64 := by omega
          have htr : trailerToObject (B.drop (B.length - trailerSize)) =
              .ok ⟨0, tw, refSize, ((chunks.length : ℕ) : ℤ), 0,
                ((8 + (List.map List.length chunks).sum : ℕ) : ℤ)⟩ := by
            rw [htrdrop, trailer_readback _ _ _ _ hN64 hT64, Nat.mod_eq_of_lt htw256,
              Nat.mod_eq_of_lt hrs256]
          -- offset table readback
          have hread : ∀ k, 0 ≤ k → k < 0 + chunks.length →
              readInteger B tw ((8 + (List.map List.length chunks).sum) + tw * k) =
                .ok ((((chunkOffsets 8 chunks).map fun (o : ℕ) => (o : ℤ)).getD k 0)) := by
            intro k hk0 hk2
            have hkN : k < chunks.length := by omega
            have hkZ : k < ((chunkOffsets 8 chunks).map fun (o : ℕ) => (o : ℤ)).length := by
              rw [List.length_map, hΩlen]
              exact hkN
            have hexp : (k + 1) * tw = k * tw + tw := by ring
            have hmul : (k + 1) * tw ≤ chunks.length * tw :=
              Nat.mul_le_mul_right _ (by omega)
            have hprelen : (headerToBuffer ++ chunks.flatten).length =
                8 + (List.map List.length chunks).sum := by
              simp only [List.length_append, hh8, hflen]
            have hoffb : ((((headerToBuffer ++ chunks.flatten).length + k * tw : ℕ)) : ℤ) ≤
                2 ^ 53 - 1 := by
              rw [hprelen]
              have h1 : 8 + (List.map List.length chunks).sum + k * tw + 33 ≤ 2 ^ 53 := by omega
              omega
            have hslot := slots_readback ((chunkOffsets 8 chunks).map fun (o : ℕ) => (o : ℤ)) tw
              (headerToBuffer ++ chunks.flatten)
              (trailerToBuffer chunks.length (8 + (List.map List.length chunks).sum) refSize tw)
              k hkZ hrange hoffb
            have hBshape : B = (headerToBuffer ++ chunks.flatten) ++
                ((((chunkOffsets 8 chunks).map fun (o : ℕ) => (o : ℤ)).map fun o =>
                  intPayload tw o).flatten) ++
                trailerToBuffer chunks.length (8 + (List.map List.length chunks).sum) refSize tw := by
              rw [← hB, htable]
              simp [List.append_assoc]
            rw [hBshape, show (8 + (List.map List.length chunks).sum) + tw * k =
              (headerToBuffer ++ chunks.flatten).length + k * tw by rw [hprelen]; ring]
            exact hslot
          have hunp : unpackOffsetTable B ⟨0, tw, refSize, ((chunks.length : ℕ) : ℤ), 0,
              ((8 + (List.map List.length chunks).sum : ℕ) : ℤ)⟩ =
              .ok ((chunkOffsets 8 chunks).map fun (o : ℕ) => (o : ℤ)) := by
            rw [unpackOffsetTable]
            simp only [validateSafeInteger_ok _ _ hNbound, validateSafeInteger_ok _ _ hTbound,
              jsbind_ok]
            rw [if_neg (by push_cast; omega)]
            rw [show ((((8 + (List.map List.length chunks).sum : ℕ)) : ℤ)).toNat =
              8 + (List.map List.length chunks).sum from Int.toNat_ofNat _,
              show (((chunks.length : ℕ) : ℤ)).toNat = chunks.length from Int.toNat_ofNat _]
            rw [readSlots_spec B tw (8 + (List.map List.length chunks).sum)
              ((chunkOffsets 8 chunks).map fun (o : ℕ) => (o : ℤ)) chunks.length 0
              (by simp [hΩlen]) hread]
            rw [List.drop_zero, List.take_of_length_le (by simp [hΩlen])]
          -- chunk positions
          have hpos2 : ∀ j, j < chunks.length → ∃ pre postx,
              B = pre ++ chunks.getD j [] ++ postx ∧
                pre.length = (chunkOffsets 8 chunks).getD j 0 := by
            intro j hj
            obtain ⟨pre, post, h1, h2⟩ := chunk_pos chunks headerToBuffer
              (table ++ trailerToBuffer chunks.length
                (8 + (List.map List.length chunks).sum) refSize tw) j hj
            refine ⟨pre, post, ?_, ?_⟩
            · rw [← hB, ← h1]
              simp [List.append_assoc]
            · rw [h2, hh8]
          have hchunksCS : ∀ j, j < chunks.length →
              ChunkSpec refSize (v :: ext) ((v :: ext).getD j .vnull) (chunks.getD j []) := by
            intro j hj
            exact hAlign.2 j (by rw [← hAlign.1]; exact hj)
          have hgoodT : ∀ u ∈ v :: ext, goodB u = true := by
            intro u hu
            rcases List.mem_cons.1 hu with h | h
            · rw [h]
              exact hgb
            · exact hGoodExt u h
          have hroot := decode_slots B chunks (v :: ext) (chunkOffsets 8 chunks)
            ((chunkOffsets 8 chunks).map fun (o : ℕ) => (o : ℤ)) refSize hw hAlign.1.symm hΩlen rfl
            hchunksCS hgoodT hpos2 hBlen fuel 0 (by omega) (by exact hfuel)
          have hΩ0 : (chunkOffsets 8 chunks).getD 0 0 = 8 := by
            cases chunks with
            | nil =>
              rw [List.length_nil] at hNlen
              exact absurd hNlen (by omega)
            | cons c0 cr =>
              rw [chunkOffsets]
              rfl
          rw [hΩ0] at hroot
          unfold decodeBinaryF
          rw [if_neg]
          · rw [htr, jsbind_ok, hunp, jsbind_ok]
            exact hroot
          · rintro ⟨c1, c2⟩
            apply c1
            rw [← hB]
            rfl

/-- C1: the round trip `decodeBinary (encodeBinary v) = v`, amended to the
well-behaved fragment.  As stated over all representable values the claim
is false (see the counterexample); it holds whenever every node of `v` is
in the good fragment (`goodB` — valid ranges, distinct keys and set
members, non-ASCII strings outside 8–14 code units, UIDs of 1–14 bytes,
integers without a `number`/`bigint` type flip, and `Date`s on
whole-second timestamps, since `decodeDate` truncates fractional
seconds), the object identities are all distinct (a tree-shaped object
graph), encoding succeeds, the buffer stays within the JavaScript
safe-integer bound, and the decoding fuel covers the value's depth:
binary decode then returns exactly the identity-erased value. -/
theorem claim_C1 (v : PVal) (B : List ℕ) (fuel : ℕ)
    (hgood : GoodRoot v) (henc : encodeBinary v = .ok B)
    (hBlen : B.length ≤ 2 ^ 53) (hfuel : pdepth v ≤ fuel) :
    decodeBinaryF fuel B = .ok (erase v) :=
  c1_main v B fuel hgood.1 hgood.2 henc hBlen hfuel

/-- Counterexample to C1 as stated: the plain 8-code-unit string `0x3FF` × 8
(no NaN/Infinity involved) encodes successfully, but decoding the encoding
returns a different string — code units `[4104, 1023 × 7]` instead of
`[1023 × 8]` — because `encodeBuffer` inserts the count integer when the
byte length exceeds 14 while the header info field and the decoder use the
element count. -/
theorem claim_C1_counterexample :
    encodeBinary (.vstr (List.replicate 8 1023)) = .ok c1Buf ∧
    decodeBinaryF 60 c1Buf =
      .ok (.str [4104, 1023, 1023, 1023, 1023, 1023, 1023, 1023]) ∧
    (Except.ok (Pure.str [4104, 1023, 1023, 1023, 1023, 1023, 1023, 1023]) : JsRes Pure) ≠
      .ok (erase (.vstr (List.replicate 8 1023))) := by
  refine ⟨?_, by rfl, ?_⟩
  · simp only [encodeBinary, countElements, encTy]
    rfl
  · intro h
    injection h with h1
    rw [erase] at h1
    injection h1 with h2
    injection h2 with ha hb
    omega

/-- Witness: the singleton boolean-`true` plist round-trips through
`claim_C1` at its concrete 42-byte encoding. -/
theorem claim_C1_witness :
    GoodRoot (.vbool true) ∧ encodeBinary (.vbool true) = .ok boolTrueBuf ∧
    boolTrueBuf.length ≤ 2 ^ 53 ∧ pdepth (.vbool true) ≤ 2 ∧
    decodeBinaryF 2 boolTrueBuf = .ok (erase (.vbool true)) :=
  ⟨⟨by rw [goodB], by rw [allIds]; exact List.nodup_nil⟩,
   by simp only [encodeBinary, countElements, encTy]; rfl,
   by decide,
   by simp only [pdepth]
      omega,
   claim_C1 (.vbool true) boolTrueBuf 2
     ⟨by rw [goodB], by rw [allIds]; exact List.nodup_nil⟩
     (by simp only [encodeBinary, countElements, encTy]; rfl)
     (by decide)
     (by simp only [pdepth]
         omega)⟩

end XPlist
